import Mathlib

/-!
Verification of the augeas core entry store (`src/augeas.c`).

The store is a circular doubly-linked list of path/value entries reached
from a global `head` pointer.  We embed it pointerwise: a `Store` is an
association list from node identifiers (allocation order) to `Node`s whose
`next`/`prev` fields hold node identifiers, together with the identifier of
the head node and a fresh-identifier counter.  Every pointer write of the C
code becomes a sequential update of this association list, so aliasing
between the written cells is preserved exactly.

The path helpers `pathlen`, `pathprefix` (written `pathprefx` here),
`STREQLEN` and `SEP` live in `internal.h`/`internal.c`, which are not part
of the provided sources; they are modelled from spec section 4.1.  The glob
test delegated to libc `fnmatch(pattern, path, FNM_NOESCAPE)` is modelled
from the POSIX description of `fnmatch` without `FNM_PATHNAME` and without
`FNM_PERIOD` (so `*` and `?` also match the separator) and with backslash
as an ordinary character.
-/

namespace Augeas

/-- Paths and values are NUL-free C strings, embedded as lists of characters. -/
abbrev Path := List Char

/-- Path separator, `SEP` in `internal.h`. -/
def SEP : Char := '/'

/-- Modelled from the spec: `PathLength(p)` is the length of `p` excluding a
single trailing separator, if `p` is longer than one character (spec 4.1). -/
def pathlen (p : Path) : Nat :=
  if 1 < p.length && (p.getLast? == some SEP) then p.length - 1 else p.length

/-- Modelled from the spec: `STREQLEN(a, b, n)` is `strncmp(a, b, n) == 0`.
For NUL-free strings, `strncmp` stops early at the terminator of the shorter
string, so if either string is shorter than `n` the comparison succeeds only
on equal strings. -/
def streqlen (a b : Path) (n : Nat) : Bool :=
  if a.length < n || b.length < n then a == b else a.take n == b.take n

/-- Modelled from the spec: `IsPrefix(a, b)` (the C `pathprefix`) is true iff
`b` equals `a` or starts with `a` followed immediately by a separator, where
`a` is taken up to `PathLength(a)` (spec 4.1). -/
def pathprefx (a b : Path) : Bool :=
  streqlen a b (pathlen a) &&
    (b.length == pathlen a || b.get? (pathlen a) == some SEP)

/-- Path equality as used by `aug_entry_find` (augeas.c line 61): the
symmetric combination of the separator-bounded prefix test. -/
def patheq (a b : Path) : Bool :=
  pathprefx a b && pathprefx b a

/-- Index of the last separator of `q`, i.e. `strrchr(q, SEP) - q`. -/
def lastSep : Path → Option Nat
  | [] => none
  | c :: cs =>
    match lastSep cs with
    | some i => some (i + 1)
    | none => if c == SEP then some 0 else none

/-- Remainder of a bracket expression after its required leading item:
yields the collected ranges and the rest of the pattern past the closing
bracket, or `none` if the bracket is unterminated. -/
def brRest : List Char → Option (List (Char × Char) × List Char)
  | [] => none
  | ']' :: t => some ([], t)
  | a :: '-' :: b :: t =>
    if b == ']' then some ([(a, a), ('-', '-')], t)
    else (brRest t).map (fun x => ((a, b) :: x.1, x.2))
  | a :: t => (brRest t).map (fun x => ((a, a) :: x.1, x.2))

/-- Modelled from the spec: parse a POSIX bracket expression (the part after
`[`): an optional leading `!` negation, a `]` appearing first taken
literally, then single characters and `a-b` ranges until the closing `]`. -/
def parseBracket (l : List Char) : Option (Bool × List (Char × Char) × List Char) :=
  match l with
  | '!' :: ']' :: t => (brRest t).map (fun x => (true, (']', ']') :: x.1, x.2))
  | '!' :: t => (brRest t).map (fun x => (true, x.1, x.2))
  | ']' :: t => (brRest t).map (fun x => (false, (']', ']') :: x.1, x.2))
  | t => (brRest t).map (fun x => (false, x.1, x.2))

/-- Modelled from the spec: one step of POSIX `fnmatch(pattern, s,
FNM_NOESCAPE)` matching, fuelled.  Every recursive call strictly decreases
`pattern.length + s.length`, so any fuel exceeding that sum computes the
true fnmatch answer; `gmatch` below supplies such fuel.  Without
`FNM_PATHNAME`, `*` and `?` match the separator as well. -/
def gmatchF : Nat → List Char → List Char → Bool
  | 0, _, _ => false
  | fuel + 1, pat, s =>
    match pat, s with
    | [], rest => rest.isEmpty
    | '*' :: ps, rest =>
      gmatchF fuel ps rest ||
        (match rest with
         | [] => false
         | _ :: s' => gmatchF fuel ('*' :: ps) s')
    | '?' :: ps, rest =>
      match rest with
      | [] => false
      | _ :: s' => gmatchF fuel ps s'
    | '[' :: pt, rest =>
      match parseBracket pt with
      | some (neg, items, pr) =>
        (match rest with
         | [] => false
         | c :: s' =>
           (neg != items.any (fun r => decide (r.1 ≤ c) && decide (c ≤ r.2))) &&
             gmatchF fuel pr s')
      | none =>
        match rest with
        | [] => false
        | c :: s' => (c == '[') && gmatchF fuel pt s'
    | p :: ps, rest =>
      match rest with
      | [] => false
      | c :: s' => (p == c) && gmatchF fuel ps s'

/-- Modelled from the spec: `fnmatch(pattern, s, FNM_NOESCAPE) == 0`. -/
def gmatch (pat s : List Char) : Bool :=
  gmatchF (pat.length + s.length + 1) pat s

/-- One list node, `struct aug_entry` (augeas.c lines 38-42): a path, an
optional value, and the identifiers of the `next` and `prev` nodes. -/
structure Node where
  path : Path
  value : Option Path
  next : Nat
  prev : Nat
deriving Repr, DecidableEq

/-- The process-wide store: the allocated nodes keyed by identifier, the
identifier of the node the global `head` points to, and the next fresh
identifier. -/
structure Store where
  mem : List (Nat × Node)
  head : Nat
  fresh : Nat
deriving Repr, DecidableEq

/-- Lookup of an allocation cell by identifier (first match). -/
def aget : List (Nat × Node) → Nat → Option Node
  | [], _ => none
  | (a, n) :: t, k => if k = a then some n else aget t k

/-- Dereference a node pointer. -/
def Store.get (st : Store) (i : Nat) : Option Node :=
  aget st.mem i

/-- Apply `f` to the node with identifier `i`, leaving other cells alone. -/
def modNode (m : List (Nat × Node)) (i : Nat) (f : Node → Node) : List (Nat × Node) :=
  m.map (fun p => if p.1 = i then (p.1, f p.2) else p)

/-- Pointer write `i->next = v`. -/
def setNext (st : Store) (i v : Nat) : Store :=
  { st with mem := modNode st.mem i (fun n => { n with next := v }) }

/-- Pointer write `i->prev = v`. -/
def setPrev (st : Store) (i v : Nat) : Store :=
  { st with mem := modNode st.mem i (fun n => { n with prev := v }) }

/-- Write `i->value = v` (with the old value freed), augeas.c lines 172-175. -/
def setValue (st : Store) (i : Nat) (v : Option Path) : Store :=
  { st with mem := modNode st.mem i (fun n => { n with value := v }) }

/-- The nodes the `do`/`while` ring traversal starting at `start` visits,
in visit order: emit the current node, stop once `next` returns to the
head.  The fuel bounds the number of visits; under the ring invariant the
allocation count is enough to complete the cycle. -/
def ringFrom (st : Store) : Nat → Nat → List Nat
  | 0, _ => []
  | fuel + 1, i =>
    i :: (match st.get i with
          | none => []
          | some n => if n.next == st.head then [] else ringFrom st fuel n.next)

/-- Identifiers of list members in traversal order from the head. -/
def ringIds (st : Store) : List Nat :=
  ringFrom st st.mem.length st.head

/-- List members with their nodes, in traversal order from the head. -/
def ringNodes (st : Store) : List (Nat × Node) :=
  (ringIds st).filterMap (fun i => (st.get i).map (fun n => (i, n)))

/-- Paths of list members in traversal order from the head. -/
def ringPaths (st : Store) : List Path :=
  (ringNodes st).map (fun x => x.2.path)

/-- The C `aug_entry_find` (augeas.c lines 58-67): scan the ring from the
head and return the first entry whose path equals the argument under the
symmetric separator-bounded prefix test. -/
def aug_entry_find (st : Store) (p : Path) : Option Nat :=
  ((ringNodes st).find? (fun x => patheq p x.2.path)).map (fun x => x.1)

/-- The C `aug_entry_insert` (augeas.c lines 69-90): allocate a node holding
a copy of `path` and no value, and splice it immediately before `nextId`
(`e->next = next; e->prev = next->prev; e->next->prev = e;
e->prev->next = e`).  Fails only if `nextId` is not allocated (the C code
would dereference an invalid pointer; allocation failure is not modelled). -/
def aug_entry_insert (st : Store) (path : Path) (nextId : Nat) : Option (Store × Nat) :=
  match st.get nextId with
  | none => none
  | some nn =>
    let e := st.fresh
    let prevId := nn.prev
    let st1 : Store :=
      { mem := st.mem ++ [(e, ⟨path, none, nextId, prevId⟩)]
        head := st.head
        fresh := st.fresh + 1 }
    let st2 := setPrev st1 nextId e
    let st3 := setNext st2 prevId e
    some (st3, e)

/-- The ancestor-materialising walk of `aug_entry_make` (augeas.c lines
98-107): scan the stripped path from index 1; at every separator, if no
entry for the strict prefix before it exists, splice one in before the
head.  `done` is the prefix scanned so far, `rest` the remainder. -/
def mkAncestors : Store → Path → Path → Option Store
  | st, _, [] => some st
  | st, done, c :: rest =>
    if c == SEP then
      match aug_entry_find st done with
      | some _ => mkAncestors st (done ++ [c]) rest
      | none =>
        match aug_entry_insert st done st.head with
        | none => none
        | some (st', _) => mkAncestors st' (done ++ [c]) rest
    else mkAncestors st (done ++ [c]) rest

/-- The C `aug_entry_make` (augeas.c lines 92-109): strip a trailing
separator from the path (`path[pathlen(path)] = '\0'`), materialise every
missing strict ancestor before the head, then splice the full entry in
before `nextId`. -/
def aug_entry_make (st : Store) (p : Path) (nextId : Nat) : Option (Store × Nat) :=
  let path := p.take (pathlen p)
  match path with
  | [] => aug_entry_insert st path nextId
  | c0 :: rest =>
    match mkAncestors st [c0] rest with
    | none => none
    | some st' => aug_entry_insert st' path nextId

/-- The C `aug_entry_free` (augeas.c lines 111-119): unsplice the node
(`e->prev->next = e->next; e->next->prev = e->prev`) and release it. -/
def aug_entry_free (st : Store) (e : Nat) : Store :=
  match st.get e with
  | none => st
  | some n =>
    let st1 := setNext st n.prev n.next
    match st1.get e with
    | none => st1
    | some n2 =>
      let st2 := setPrev st1 n2.next n2.prev
      { st2 with mem := st2.mem.filter (fun p => decide (p.1 ≠ e)) }

/-- Path of the first sentinel, `P_SYSTEM`. -/
def sysP : Path := "/system".toList

/-- Path of the second sentinel, `P_SYSTEM_CONFIG`. -/
def sysCfgP : Path := "/system/config".toList

/-- The C `aug_init` (augeas.c lines 121-138) on first call: allocate the
two sentinel entries `/system` (the head) and `/system/config`, linked into
a two-element ring.  The provider loop of lines 140-149 drives external
providers, which are outside the provided sources; the store it starts
from is this one. -/
def initStore : Store :=
  { mem := [(0, ⟨sysP, none, 1, 1⟩), (1, ⟨sysCfgP, none, 0, 0⟩)]
    head := 0
    fresh := 2 }

/-- The C `aug_get` (augeas.c lines 153-161): value of the entry found for
`path`, `none` when the entry is absent or has no value. -/
def aug_get (st : Store) (path : Path) : Option Path :=
  match aug_entry_find st path with
  | none => none
  | some i =>
    match st.get i with
    | none => none
    | some n => n.value

/-- The C `aug_set` (augeas.c lines 163-179): find the entry for `path`,
creating it (with its missing ancestors) before the head if absent, then
replace its value.  Returns the new store and the C return code. -/
def aug_set (st : Store) (path value : Path) : Store × Int :=
  match aug_entry_find st path with
  | some i => (setValue st i (some value), 0)
  | none =>
    match aug_entry_make st path st.head with
    | none => (st, -1)
    | some (st', i) => (setValue st' i (some value), 0)

/-- The C `aug_exists` (augeas.c lines 181-183). -/
def aug_exists (st : Store) (path : Path) : Bool :=
  (aug_entry_find st path).isSome

/-- The relink branch of `aug_insert` (augeas.c lines 209-214), performed
pointer write by pointer write in program order:
`p->prev->next = p->next; p->next->prev = p->prev; s->prev->next = p;
p->prev = s->prev; p->next = s; s->prev = p`. -/
def relinkEntry (st : Store) (p s : Nat) : Store :=
  match st.get p with
  | none => st
  | some pn =>
    let st1 := setNext st pn.prev pn.next
    match st1.get p with
    | none => st1
    | some pn2 =>
      let st2 := setPrev st1 pn2.next pn2.prev
      match st2.get s with
      | none => st2
      | some sn =>
        let st3 := setNext st2 sn.prev p
        match st3.get s with
        | none => st3
        | some sn2 =>
          let st4 := setPrev st3 p sn2.prev
          let st5 := setNext st4 p s
          setPrev st5 s p

/-- The C `aug_insert` (augeas.c lines 185-217): after the precondition
checks (distinct paths, both containing a separator at the same position
with byte-identical directory prefixes, sibling present), either create the
missing `path` entry anchored at the sibling or unsplice the existing entry
and resplice it immediately before the sibling. -/
def aug_insert (st : Store) (path sibling : Path) : Store × Int :=
  if path == sibling then (st, -1)
  else
    match lastSep path, lastSep sibling with
    | none, _ => (st, -1)
    | _, none => (st, -1)
    | some pi, some si =>
      if !(pi == si) then (st, -1)
      else if !(streqlen path sibling pi) then (st, -1)
      else
        match aug_entry_find st sibling with
        | none => (st, -1)
        | some s =>
          match aug_entry_find st path with
          | none =>
            match aug_entry_make st path s with
            | none => (st, -1)
            | some (st', _) => (st', 0)
          | some p => (relinkEntry st p s, 0)

/-- The removal test of `aug_rm` (augeas.c lines 225-228) on an entry path:
the first `pathlen(path)` bytes agree, the entry path ends or continues
with a separator there, and the entry is neither sentinel. -/
def rmMatch (path entry : Path) : Bool :=
  let plen := pathlen path
  streqlen entry path plen &&
    (entry.length == plen || entry.get? plen == some SEP) &&
    !(entry == sysP) && !(entry == sysCfgP)

/-- The removal loop of `aug_rm` (augeas.c lines 223-232): at each step the
loop tests `p != head->next` (re-read from the mutated store), examines
`p->prev`, frees it when it matches, and advances to `p->next`. -/
def rmLoop (path : Path) : Nat → Store × Nat → Nat → Store × Nat
  | 0, acc, _ => acc
  | fuel + 1, (st, cnt), p =>
    match st.get st.head with
    | none => (st, cnt)
    | some hn =>
      if p == hn.next then (st, cnt)
      else
        match st.get p with
        | none => (st, cnt)
        | some pn =>
          match st.get pn.prev with
          | none => (st, cnt)
          | some prevN =>
            let acc' :=
              if rmMatch path prevN.path then (aug_entry_free st pn.prev, cnt + 1)
              else (st, cnt)
            match acc'.1.get p with
            | none => acc'
            | some pn' => rmLoop path fuel acc' pn'.next

/-- The C `aug_rm` (augeas.c lines 219-234): iterate once around the ring
starting from `head->next->next`, freeing every matching `p->prev`, and
return the new store with the number of entries removed. -/
def aug_rm (st : Store) (path : Path) : Store × Nat :=
  match st.get st.head with
  | none => (st, 0)
  | some hn =>
    match st.get hn.next with
    | none => (st, 0)
    | some hnn => rmLoop path (st.mem.length + 1) (st, 0) hnn.next

/-- The child test of `aug_ls` (augeas.c lines 256-258): separator-bounded
prefix, strictly longer than `pathlen(path) + 1`, and no further separator
past that point. -/
def lsMatch (path entry : Path) : Bool :=
  let len := pathlen path
  pathprefx path entry && decide (len + 1 < entry.length) &&
    !((entry.drop (len + 1)).contains SEP)

/-- The C `aug_ls` (augeas.c lines 236-267): both passes scan the unchanged
ring with the same test, so the result is the number of immediate children
together with their paths in traversal order. -/
def aug_ls (st : Store) (path : Path) : Nat × List Path :=
  let kids := (ringNodes st).filter (fun x => lsMatch path x.2.path)
  (kids.length, kids.map (fun x => x.2.path))

/-- The C `aug_match` (augeas.c lines 269-282): scan the whole ring testing
each path against the glob; the first `size` matches are written to the
sink (`if (cnt < size) matches[cnt] = p->path`) while the returned count is
the total number of matches. -/
def aug_match (st : Store) (pat : Path) (size : Nat) : Nat × List Path :=
  let ms := (ringNodes st).filter (fun x => gmatch pat x.2.path)
  (ms.length, (ms.map (fun x => x.2.path)).take size)

/-- The removal test of `aug_rm` applied to the entry with identifier `k`:
an unallocated identifier never matches. -/
def entMatch (st : Store) (q : Path) (k : Nat) : Bool :=
  match st.get k with
  | none => false
  | some n => rmMatch q n.path

/-- Some list member's stored path is exactly `q`. -/
def hasPath (st : Store) (q : Path) : Bool :=
  (ringNodes st).any (fun x => x.2.path == q)

/-- Store of the Ls example: `/a/b/c` set (materialising `/a` and `/a/b`). -/
def stLsEx : Store := (aug_set initStore "/a/b/c".toList "x".toList).1

/-- Store of the Match example: entries `/a`, `/a/b`, `/a/b/c`, `/a/c`. -/
def stMatchEx : Store := (aug_set stLsEx "/a/c".toList "y".toList).1

/-- Store of the Rm example: entries `/a`, `/a/b`, `/a/bc`. -/
def stRmEx : Store :=
  (aug_set (aug_set (aug_set initStore "/a".toList "1".toList).1
    "/a/b".toList "2".toList).1 "/a/bc".toList "3".toList).1

/-- Store of the Insert example: an entry `/a/y` present, `/a/x` absent. -/
def stInsEx : Store := (aug_set initStore "/a/y".toList "v".toList).1

/-- Insertion of `e` immediately before the first occurrence of `nid` in a
tail segment of the ring (appending at the end when `nid` is absent). -/
def insAux : List Nat → Nat → Nat → List Nat
  | [], _, e => [e]
  | x :: t, nid, e => if nid = x then e :: x :: t else x :: insAux t nid e

/-- The identifier list, in traversal order from the head, that results
from splicing a node `e` in immediately before `nid`: before the first
occurrence of `nid`, except that splicing before the head places `e` at
the end of the traversal. -/
def insBefore (L : List Nat) (nid e : Nat) : List Nat :=
  match L with
  | [] => [e]
  | h :: t => if nid = h then h :: (t ++ [e]) else h :: insAux t nid e

/-- The unsplice writes shared by `aug_entry_free` and the relink branch of
`aug_insert`: `p->prev->next = p->next; p->next->prev = p->prev`. -/
def unsplice (st : Store) (p : Nat) : Store :=
  match st.get p with
  | none => st
  | some n =>
    let st1 := setNext st n.prev n.next
    match st1.get p with
    | none => st1
    | some n2 => setPrev st1 n2.next n2.prev

/-- The resplice writes of the relink branch of `aug_insert` (augeas.c
lines 211-214): `s->prev->next = p; p->prev = s->prev; p->next = s;
s->prev = p`. -/
def resplice (st : Store) (p s : Nat) : Store :=
  match st.get s with
  | none => st
  | some sn =>
    let st3 := setNext st sn.prev p
    match st3.get s with
    | none => st3
    | some sn2 =>
      let st4 := setPrev st3 p sn2.prev
      let st5 := setNext st4 p s
      setPrev st5 s p

/-- Deallocation of the cell `e` (the `free(e)` of `aug_entry_free`). -/
def dealloc (st : Store) (e : Nat) : Store :=
  { st with mem := st.mem.filter (fun p => decide (p.1 ≠ e)) }

/-- Nodes `a` and `b` are linked neighbours: `a->next == b` and
`b->prev == a`. -/
def adjacent (st : Store) (a b : Nat) : Prop :=
  (st.get a).map Node.next = some b ∧ (st.get b).map Node.prev = some a

instance (st : Store) (a b : Nat) : Decidable (adjacent st a b) :=
  inferInstanceAs (Decidable ((st.get a).map Node.next = some b ∧
    (st.get b).map Node.prev = some a))

/-- The store represents the circular doubly-linked list whose members in
traversal order from the head are `L`: `L` starts at the head, has no
duplicates, consists exactly of the allocated identifiers (all beneath the
fresh counter), and consecutive members — including the wrap-around from
the last back to the head — are linked neighbours. -/
structure Rep (st : Store) (L : List Nat) : Prop where
  ne : L ≠ []
  hd : L.head? = some st.head
  nodup : L.Nodup
  keys : List.Perm (st.mem.map Prod.fst) L
  freshB : ∀ k ∈ L, k < st.fresh
  chain : List.Chain' (adjacent st) (L ++ [st.head])

/-- The members of `C`, in cyclic order starting anywhere, form a closed
doubly-linked cycle in the store.  This rotation-invariant form of the
chain condition of `Rep` is what the splice lemmas are proved against. -/
structure Cyc (st : Store) (C : List Nat) : Prop where
  ne : C ≠ []
  nodup : C.Nodup
  chain : List.Chain' (adjacent st) (C ++ C.take 1)

/-- Boolean form of `adjacent`, used so that the invariant below evaluates
by kernel reduction on concrete stores. -/
def adjacentB (st : Store) (a b : Nat) : Bool :=
  ((st.get a).map Node.next == some b) && ((st.get b).map Node.prev == some a)

/-- Boolean chain check: `f` holds between every two consecutive elements. -/
def chainB (f : Nat → Nat → Bool) : List Nat → Bool
  | [] => true
  | [_] => true
  | a :: b :: t => f a b && chainB f (b :: t)

/-- Executable well-formedness of the store: the components of `Rep` for
the computed traversal.  This is the structural invariant of the claims:
following `next` from the head visits every allocated entry exactly once
before returning to the head, and `prev` is the pointwise inverse of
`next` along that cycle. -/
def Inv (st : Store) : Prop :=
  ringIds st ≠ [] ∧ (ringIds st).head? = some st.head ∧ (ringIds st).Nodup ∧
    List.Perm (st.mem.map Prod.fst) (ringIds st) ∧ (∀ k ∈ ringIds st, k < st.fresh) ∧
    chainB (adjacentB st) (ringIds st ++ [st.head]) = true

instance (st : Store) : Decidable (Inv st) :=
  inferInstanceAs (Decidable (ringIds st ≠ [] ∧ (ringIds st).head? = some st.head ∧
    (ringIds st).Nodup ∧ List.Perm (st.mem.map Prod.fst) (ringIds st) ∧
    (∀ k ∈ ringIds st, k < st.fresh) ∧
    chainB (adjacentB st) (ringIds st ++ [st.head]) = true))

/-! ### Association-list and pointer-write lemmas -/

theorem aget_cons (a : Nat) (n : Node) (t : List (Nat × Node)) (k : Nat) :
    aget ((a, n) :: t) k = if k = a then some n else aget t k := rfl

theorem modNode_cons (a : Nat) (n : Node) (t : List (Nat × Node)) (i : Nat) (f : Node → Node) :
    modNode ((a, n) :: t) i f = (if a = i then (a, f n) else (a, n)) :: modNode t i f := rfl

theorem aget_modNode (m : List (Nat × Node)) (i k : Nat) (f : Node → Node) :
    aget (modNode m i f) k = if k = i then (aget m i).map f else aget m k := by
  induction m with
  | nil => simp [modNode, aget]
  | cons hd tl ih =>
    obtain ⟨a, b⟩ := hd
    rw [modNode_cons]
    by_cases h1 : a = i
    · rw [if_pos h1]
      subst h1
      by_cases h2 : k = a
      · subst h2
        simp [aget_cons]
      · simp [aget_cons, h2, ih]
    · rw [if_neg h1]
      by_cases h2 : k = a
      · subst h2
        simp [aget_cons, h1, Ne.symm h1]
      · simp [aget_cons, h1, h2, ih, Ne.symm h1]

theorem aget_append (m m' : List (Nat × Node)) (k : Nat) :
    aget (m ++ m') k =
      (match aget m k with
       | some v => some v
       | none => aget m' k) := by
  induction m with
  | nil => simp [aget]
  | cons hd tl ih =>
    obtain ⟨a, b⟩ := hd
    by_cases h : k = a
    · subst h
      simp [aget]
    · simp [aget, h, ih]

theorem aget_filter_ne (m : List (Nat × Node)) (e k : Nat) :
    aget (m.filter (fun p => decide (p.1 ≠ e))) k =
      if k = e then none else aget m k := by
  induction m with
  | nil => simp [aget]
  | cons hd tl ih =>
    obtain ⟨a, b⟩ := hd
    rw [List.filter_cons]
    simp only [ne_eq] at ih ⊢
    by_cases h1 : a = e
    · subst h1
      by_cases h2 : k = a
      · subst h2
        simpa using ih
      · simpa [aget_cons, h2] using ih
    · by_cases h2 : k = a
      · subst h2
        simp [aget_cons, h1, Ne.symm h1]
      · simp only [h1, decide_not]
        simpa [aget_cons, h1, h2] using ih

theorem mem_keys_iff (m : List (Nat × Node)) (k : Nat) :
    k ∈ m.map Prod.fst ↔ (aget m k).isSome := by
  induction m with
  | nil => simp [aget]
  | cons hd tl ih =>
    obtain ⟨a, b⟩ := hd
    by_cases h : k = a
    · subst h
      simp [aget]
    · simp [aget, h, ih]

theorem get_setNext (st : Store) (i v k : Nat) :
    (setNext st i v).get k =
      if k = i then (st.get i).map (fun n => { n with next := v }) else st.get k := by
  simp [setNext, Store.get, aget_modNode]

theorem get_setPrev (st : Store) (i v k : Nat) :
    (setPrev st i v).get k =
      if k = i then (st.get i).map (fun n => { n with prev := v }) else st.get k := by
  simp [setPrev, Store.get, aget_modNode]

theorem get_setValue (st : Store) (i : Nat) (v : Option Path) (k : Nat) :
    (setValue st i v).get k =
      if k = i then (st.get i).map (fun n => { n with value := v }) else st.get k := by
  simp [setValue, Store.get, aget_modNode]

theorem head_setNext (st : Store) (i v : Nat) : (setNext st i v).head = st.head := rfl

theorem head_setPrev (st : Store) (i v : Nat) : (setPrev st i v).head = st.head := rfl

theorem head_setValue (st : Store) (i : Nat) (v : Option Path) :
    (setValue st i v).head = st.head := rfl

theorem fresh_setNext (st : Store) (i v : Nat) : (setNext st i v).fresh = st.fresh := rfl

theorem fresh_setPrev (st : Store) (i v : Nat) : (setPrev st i v).fresh = st.fresh := rfl

theorem fresh_setValue (st : Store) (i : Nat) (v : Option Path) :
    (setValue st i v).fresh = st.fresh := rfl

theorem mem_setNext (st : Store) (i v : Nat) :
    (setNext st i v).mem = modNode st.mem i (fun n => { n with next := v }) := rfl

theorem mem_setPrev (st : Store) (i v : Nat) :
    (setPrev st i v).mem = modNode st.mem i (fun n => { n with prev := v }) := rfl

theorem mem_setValue (st : Store) (i : Nat) (v : Option Path) :
    (setValue st i v).mem = modNode st.mem i (fun n => { n with value := v }) := rfl

theorem keys_modNode (m : List (Nat × Node)) (i : Nat) (f : Node → Node) :
    (modNode m i f).map Prod.fst = m.map Prod.fst := by
  induction m with
  | nil => rfl
  | cons hd tl ih =>
    by_cases h : hd.1 = i <;> simp_all [modNode]

/-! ### The ring representation invariant -/

theorem Rep.get_isSome {st : Store} {L : List Nat} (h : Rep st L) {i : Nat}
    (hi : i ∈ L) : (st.get i).isSome := by
  have : i ∈ st.mem.map Prod.fst := h.keys.mem_iff.mpr hi
  exact (mem_keys_iff st.mem i).mp this

theorem Rep.length_eq {st : Store} {L : List Nat} (h : Rep st L) :
    st.mem.length = L.length := by
  have := h.keys.length_eq
  simpa using this

theorem ringFrom_eq (st : Store) (T : List Nat) : ∀ (f i : Nat),
    st.head ∉ T → List.Chain' (adjacent st) (i :: (T ++ [st.head])) →
    T.length < f → ringFrom st f i = i :: T := by
  induction T with
  | nil =>
    intro f i _ hch hf
    obtain ⟨f', rfl⟩ : ∃ f', f = f' + 1 := ⟨f - 1, by omega⟩
    have hadj : adjacent st i st.head := (List.chain'_cons.mp hch).1
    obtain ⟨n, hn, hnext⟩ : ∃ n, st.get i = some n ∧ n.next = st.head := by
      rcases hadj with ⟨h1, _⟩
      cases hg : st.get i with
      | none => rw [hg] at h1; simp at h1
      | some n => rw [hg] at h1; exact ⟨n, rfl, by simpa using h1⟩
    simp [ringFrom, hn, hnext]
  | cons t T' ih =>
    intro f i hmem hch hf
    obtain ⟨f', rfl⟩ : ∃ f', f = f' + 1 := ⟨f - 1, by omega⟩
    rw [List.cons_append] at hch
    have hadj : adjacent st i t := (List.chain'_cons.mp hch).1
    have hch' : List.Chain' (adjacent st) (t :: (T' ++ [st.head])) :=
      (List.chain'_cons.mp hch).2
    obtain ⟨n, hn, hnext⟩ : ∃ n, st.get i = some n ∧ n.next = t := by
      rcases hadj with ⟨h1, _⟩
      cases hg : st.get i with
      | none => rw [hg] at h1; simp at h1
      | some n => rw [hg] at h1; exact ⟨n, rfl, by simpa using h1⟩
    have hth : ¬(t = st.head) := by
      intro hc
      exact hmem (by simp [hc])
    have := ih f' t (fun hc => hmem (List.mem_cons_of_mem _ hc)) hch' (by simp at hf; omega)
    simp only [ringFrom, hn, hnext]
    rw [if_neg (by simpa using hth)]
    rw [this]

theorem Rep.ringIds_eq {st : Store} {L : List Nat} (h : Rep st L) :
    ringIds st = L := by
  obtain ⟨T, rfl⟩ : ∃ T, L = st.head :: T := by
    cases L with
    | nil => exact absurd h.hd (by simp)
    | cons a T =>
      have : a = st.head := by
        have := h.hd
        simp at this
        omega
      exact ⟨T, by rw [this]⟩
  have hnotmem : st.head ∉ T := by
    have := h.nodup
    simp at this
    exact this.1
  have hch : List.Chain' (adjacent st) (st.head :: (T ++ [st.head])) := by
    have := h.chain
    simpa using this
  have hlen : T.length < st.mem.length := by
    have := h.length_eq
    simp at this
    omega
  unfold ringIds
  exact ringFrom_eq st T st.mem.length st.head hnotmem hch hlen

theorem adjacentB_iff (st : Store) (a b : Nat) :
    adjacentB st a b = true ↔ adjacent st a b := by
  unfold adjacentB adjacent
  simp [Bool.and_eq_true]

theorem chainB_iff (f : Nat → Nat → Bool) (l : List Nat) :
    chainB f l = true ↔ List.Chain' (fun a b => f a b = true) l := by
  match l with
  | [] => simp [chainB]
  | [a] => simp [chainB]
  | a :: b :: t =>
    rw [List.chain'_cons]
    simp only [chainB, Bool.and_eq_true]
    rw [chainB_iff]

theorem chainB_adjacent_iff (st : Store) (l : List Nat) :
    chainB (adjacentB st) l = true ↔ List.Chain' (adjacent st) l := by
  rw [chainB_iff]
  constructor
  · intro h
    exact h.imp (fun a b hab => (adjacentB_iff st a b).mp hab)
  · intro h
    exact h.imp (fun a b hab => (adjacentB_iff st a b).mpr hab)

theorem Rep.inv {st : Store} {L : List Nat} (h : Rep st L) : Inv st := by
  rw [Inv, h.ringIds_eq]
  exact ⟨h.ne, h.hd, h.nodup, h.keys, h.freshB,
    (chainB_adjacent_iff st _).mpr h.chain⟩

theorem Inv.rep {st : Store} (h : Inv st) : Rep st (ringIds st) :=
  ⟨h.1, h.2.1, h.2.2.1, h.2.2.2.1, h.2.2.2.2.1,
    (chainB_adjacent_iff st _).mp h.2.2.2.2.2⟩

/-! ### Field-projection lemmas for modified nodes -/

theorem mapnext_prevmod (o : Option Node) (v : Nat) :
    (o.map (fun n => { n with prev := v })).map Node.next = o.map Node.next := by
  cases o <;> rfl

theorem mapnext_valmod (o : Option Node) (w : Option Path) :
    (o.map (fun n => { n with value := w })).map Node.next = o.map Node.next := by
  cases o <;> rfl

theorem mapprev_nextmod (o : Option Node) (v : Nat) :
    (o.map (fun n => { n with next := v })).map Node.prev = o.map Node.prev := by
  cases o <;> rfl

theorem mapprev_valmod (o : Option Node) (w : Option Path) :
    (o.map (fun n => { n with value := w })).map Node.prev = o.map Node.prev := by
  cases o <;> rfl

theorem mappath_nextmod (o : Option Node) (v : Nat) :
    (o.map (fun n => { n with next := v })).map Node.path = o.map Node.path := by
  cases o <;> rfl

theorem mappath_prevmod (o : Option Node) (v : Nat) :
    (o.map (fun n => { n with prev := v })).map Node.path = o.map Node.path := by
  cases o <;> rfl

theorem mappath_valmod (o : Option Node) (w : Option Path) :
    (o.map (fun n => { n with value := w })).map Node.path = o.map Node.path := by
  cases o <;> rfl

theorem mapvalue_nextmod (o : Option Node) (v : Nat) :
    (o.map (fun n => { n with next := v })).map Node.value = o.map Node.value := by
  cases o <;> rfl

theorem mapvalue_prevmod (o : Option Node) (v : Nat) :
    (o.map (fun n => { n with prev := v })).map Node.value = o.map Node.value := by
  cases o <;> rfl

theorem mapnext_nextmod (o : Option Node) (v : Nat) (ho : o.isSome) :
    (o.map (fun n => { n with next := v })).map Node.next = some v := by
  cases o with
  | none => simp at ho
  | some n => rfl

theorem mapprev_prevmod (o : Option Node) (v : Nat) (ho : o.isSome) :
    (o.map (fun n => { n with prev := v })).map Node.prev = some v := by
  cases o with
  | none => simp at ho
  | some n => rfl

theorem isSome_map (o : Option Node) (f : Node → Node) :
    (o.map f).isSome = o.isSome := by
  cases o <;> rfl

/-! ### Chain transfer and cyclic rotation -/

theorem chain'_imp_mem {α : Type} {R S : α → α → Prop} :
    ∀ (l : List α), List.Chain' R l →
      (∀ a b, a ∈ l.dropLast → b ∈ l.tail → R a b → S a b) → List.Chain' S l
  | [], _, _ => List.chain'_nil
  | [a], _, _ => List.chain'_singleton a
  | a :: b :: t, h, himp => by
    rw [List.chain'_cons] at h ⊢
    refine ⟨himp a b ?_ ?_ h.1, ?_⟩
    · rw [List.dropLast_cons₂]
      exact List.mem_cons_self a _
    · exact List.mem_cons_self b t
    · refine chain'_imp_mem (b :: t) h.2 (fun x y hx hy hr => himp x y ?_ ?_ hr)
      · rw [List.dropLast_cons₂]
        exact List.mem_cons_of_mem a hx
      · exact List.mem_cons_of_mem b hy

theorem cyc_rotate {st : Store} : ∀ {X Y : List Nat}, Cyc st (X ++ Y) → Cyc st (Y ++ X)
  | [], Y, h => by simpa using h
  | X, [], h => by simpa using h
  | x :: X', y :: Y', h => by
    have hchain := h.chain
    have htake : ((x :: X') ++ y :: Y').take 1 = [x] := by simp
    rw [htake, List.append_assoc] at hchain
    obtain ⟨cX, cYx, lnk⟩ := List.chain'_append.mp hchain
    obtain ⟨cY, _, lnk2⟩ := List.chain'_append.mp cYx
    refine ⟨by simp, (List.perm_append_comm).nodup h.nodup, ?_⟩
    have htake2 : ((y :: Y') ++ x :: X').take 1 = [y] := by simp
    rw [htake2, List.append_assoc]
    refine List.chain'_append.mpr ⟨cY, ?_, ?_⟩
    · refine List.chain'_append.mpr ⟨cX, List.chain'_singleton y, ?_⟩
      intro a ha b hb
      simp only [List.head?_cons, Option.mem_def, Option.some.injEq] at hb
      subst hb
      exact lnk a ha y (by simp)
    · intro a ha b hb
      simp at hb
      rw [← hb]
      exact lnk2 a ha x (by simp)

theorem Rep.toCyc {st : Store} {L : List Nat} (h : Rep st L) : Cyc st L := by
  refine ⟨h.ne, h.nodup, ?_⟩
  have hh := h.hd
  cases L with
  | nil => exact absurd rfl h.ne
  | cons a T =>
    simp at hh
    subst hh
    simpa using h.chain

theorem cyc_to_rep {st : Store} {T : List Nat} (h : Cyc st (st.head :: T))
    (hkeys : List.Perm (st.mem.map Prod.fst) (st.head :: T))
    (hfresh : ∀ k ∈ st.head :: T, k < st.fresh) :
    Rep st (st.head :: T) := by
  refine ⟨by simp, by simp, h.nodup, hkeys, hfresh, ?_⟩
  have := h.chain
  simpa using this

theorem Rep.fresh_not_mem {st : Store} {L : List Nat} (h : Rep st L) :
    st.fresh ∉ L := by
  intro hc
  exact absurd (h.freshB _ hc) (by omega)

theorem Rep.get_fresh_none {st : Store} {L : List Nat} (h : Rep st L) :
    st.get st.fresh = none := by
  cases hg : st.get st.fresh with
  | none => rfl
  | some n =>
    have : (st.get st.fresh).isSome := by rw [hg]; rfl
    have hmem : st.fresh ∈ st.mem.map Prod.fst := (mem_keys_iff _ _).mpr this
    have : st.fresh ∈ L := h.keys.mem_iff.mp hmem
    exact absurd this h.fresh_not_mem

theorem nodup_getLast_not_mem_dropLast {l : List Nat} (hn : l.Nodup) (hne : l ≠ []) :
    l.getLast hne ∉ l.dropLast := by
  intro hc
  have hsplit : l.dropLast ++ [l.getLast hne] = l := List.dropLast_append_getLast hne
  rw [← hsplit] at hn
  have := List.disjoint_of_nodup_append hn
  exact absurd (by simp) (this hc)

theorem cyc_get_isSome {st : Store} {C : List Nat} (h : Cyc st C) {k : Nat}
    (hk : k ∈ C) : (st.get k).isSome := by
  obtain ⟨U, V, rfl⟩ := List.append_of_mem hk
  have hchain := h.chain
  rw [List.append_assoc] at hchain
  have hpart := (List.chain'_append.mp hchain).2.1
  have hne2 : V ++ (U ++ k :: V).take 1 ≠ [] := by
    cases U <;> simp
  obtain ⟨w, W, hw⟩ : ∃ w W, V ++ (U ++ k :: V).take 1 = w :: W := by
    cases hvv : V ++ (U ++ k :: V).take 1 with
    | nil => exact absurd hvv hne2
    | cons w W => exact ⟨w, W, rfl⟩
  rw [List.cons_append, hw] at hpart
  have hadj : adjacent st k w := (List.chain'_cons.mp hpart).1
  rcases hadj with ⟨h1, _⟩
  cases hg : st.get k with
  | none => rw [hg] at h1; simp at h1
  | some n => rfl

theorem cyc_wrap_adj {st : Store} {nid : Nat} {Z : List Nat}
    (h : Cyc st (nid :: Z)) :
    adjacent st ((nid :: Z).getLast (by simp)) nid := by
  have hchain := h.chain
  have htake : (nid :: Z).take 1 = [nid] := by simp
  rw [htake] at hchain
  have := (List.chain'_append.mp hchain).2.2
  refine this _ ?_ nid (by simp)
  rw [List.getLast?_eq_getLast _ (by simp)]
  rfl

theorem cyc_body_chain {st : Store} {C : List Nat} (h : Cyc st C) :
    List.Chain' (adjacent st) C := by
  have hchain := h.chain
  exact (List.chain'_append.mp hchain).1

/-! ### Splice lemmas -/

theorem splice_in_spec {st st1 : Store} {e nid lC : Nat} {q : Path} {Z : List Nat}
    (hcyc : Cyc st (nid :: Z))
    (hnm : e ∉ nid :: Z)
    (hlC : (nid :: Z).getLast? = some lC)
    (h1e : st1.get e = some ⟨q, none, nid, lC⟩)
    (h1k : ∀ k, k ≠ e → st1.get k = st.get k) :
    Cyc (setNext (setPrev st1 nid e) lC e) (e :: nid :: Z) ∧
      (∀ k, k ≠ e → ((setNext (setPrev st1 nid e) lC e).get k).map Node.path =
        (st.get k).map Node.path) ∧
      (∀ k, k ≠ e → ((setNext (setPrev st1 nid e) lC e).get k).map Node.value =
        (st.get k).map Node.value) ∧
      (∀ k, k ≠ e → ((setNext (setPrev st1 nid e) lC e).get k).isSome = (st.get k).isSome) ∧
      ((setNext (setPrev st1 nid e) lC e).get e).map Node.path = some q ∧
      ((setNext (setPrev st1 nid e) lC e).get e).map Node.value = some none := by
  have hCne : nid :: Z ≠ [] := by simp
  have hlC' : (nid :: Z).getLast hCne = lC := by
    rw [List.getLast?_eq_getLast _ hCne, Option.some.injEq] at hlC
    exact hlC
  have hlast_mem : lC ∈ nid :: Z := hlC' ▸ List.getLast_mem hCne
  have henid : e ≠ nid := fun hc => hnm (by rw [hc]; simp)
  have helC : e ≠ lC := fun hc => hnm (by rw [hc]; exact hlast_mem)
  have hnidZ : nid ∉ Z := (List.nodup_cons.mp hcyc.nodup).1
  have hF2 : ∀ k ∈ nid :: Z, (st.get k).isSome := fun k hk => cyc_get_isSome hcyc hk
  have hnnS : (st1.get nid).isSome := by
    rw [h1k nid (Ne.symm henid)]
    exact hF2 nid (by simp)
  have Fe : (setNext (setPrev st1 nid e) lC e).get e = some ⟨q, none, nid, lC⟩ := by
    rw [get_setNext, if_neg helC, get_setPrev, if_neg henid, h1e]
  have FnidPrev : ((setNext (setPrev st1 nid e) lC e).get nid).map Node.prev = some e := by
    rw [get_setNext]
    by_cases hln : nid = lC
    · rw [if_pos hln, mapprev_nextmod, get_setPrev, if_pos hln.symm,
        mapprev_prevmod _ _ hnnS]
    · rw [if_neg hln, get_setPrev, if_pos rfl, mapprev_prevmod _ _ hnnS]
  have FlCNext : ((setNext (setPrev st1 nid e) lC e).get lC).map Node.next = some e := by
    rw [get_setNext, if_pos rfl]
    refine mapnext_nextmod _ _ ?_
    rw [get_setPrev]
    by_cases hln : lC = nid
    · rw [if_pos hln, isSome_map]
      exact hnnS
    · rw [if_neg hln, h1k lC (Ne.symm helC)]
      exact hF2 lC hlast_mem
  have FnextPres : ∀ k, k ≠ e → k ≠ lC →
      ((setNext (setPrev st1 nid e) lC e).get k).map Node.next =
        (st.get k).map Node.next := by
    intro k hke hkl
    rw [get_setNext, if_neg hkl, get_setPrev]
    by_cases hkn : k = nid
    · subst hkn
      rw [if_pos rfl, mapnext_prevmod, h1k k hke]
    · rw [if_neg hkn, h1k k hke]
  have FprevPres : ∀ k, k ≠ e → k ≠ nid →
      ((setNext (setPrev st1 nid e) lC e).get k).map Node.prev =
        (st.get k).map Node.prev := by
    intro k hke hkn
    rw [get_setNext]
    by_cases hkl : k = lC
    · subst hkl
      rw [if_pos rfl, mapprev_nextmod, get_setPrev, if_neg hkn, h1k k hke]
    · rw [if_neg hkl, get_setPrev, if_neg hkn, h1k k hke]
  have FpathPres : ∀ k, k ≠ e →
      ((setNext (setPrev st1 nid e) lC e).get k).map Node.path =
        (st.get k).map Node.path := by
    intro k hke
    rw [get_setNext]
    by_cases h1 : k = lC
    · subst h1
      rw [if_pos rfl, mappath_nextmod, get_setPrev]
      by_cases h2 : k = nid
      · subst h2
        rw [if_pos rfl, mappath_prevmod, h1k k hke]
      · rw [if_neg h2, h1k k hke]
    · rw [if_neg h1, get_setPrev]
      by_cases h2 : k = nid
      · subst h2
        rw [if_pos rfl, mappath_prevmod, h1k k hke]
      · rw [if_neg h2, h1k k hke]
  have FvalPres : ∀ k, k ≠ e →
      ((setNext (setPrev st1 nid e) lC e).get k).map Node.value =
        (st.get k).map Node.value := by
    intro k hke
    rw [get_setNext]
    by_cases h1 : k = lC
    · subst h1
      rw [if_pos rfl, mapvalue_nextmod, get_setPrev]
      by_cases h2 : k = nid
      · subst h2
        rw [if_pos rfl, mapvalue_prevmod, h1k k hke]
      · rw [if_neg h2, h1k k hke]
    · rw [if_neg h1, get_setPrev]
      by_cases h2 : k = nid
      · subst h2
        rw [if_pos rfl, mapvalue_prevmod, h1k k hke]
      · rw [if_neg h2, h1k k hke]
  have FsomePres : ∀ k, k ≠ e →
      ((setNext (setPrev st1 nid e) lC e).get k).isSome = (st.get k).isSome := by
    intro k hke
    rw [get_setNext]
    by_cases h1 : k = lC
    · subst h1
      rw [if_pos rfl, isSome_map, get_setPrev]
      by_cases h2 : k = nid
      · subst h2
        rw [if_pos rfl, isSome_map, h1k k hke]
      · rw [if_neg h2, h1k k hke]
    · rw [if_neg h1, get_setPrev]
      by_cases h2 : k = nid
      · subst h2
        rw [if_pos rfl, isSome_map, h1k k hke]
      · rw [if_neg h2, h1k k hke]
  refine ⟨⟨by simp, List.nodup_cons.mpr ⟨hnm, hcyc.nodup⟩, ?_⟩,
    FpathPres, FvalPres, FsomePres, by rw [Fe]; rfl, by rw [Fe]; rfl⟩
  show List.Chain' _ ((e :: nid :: Z) ++ [e])
  rw [List.cons_append]
  refine List.chain'_cons'.mpr ⟨?_, ?_⟩
  · intro y hy
    simp only [List.cons_append, List.head?_cons, Option.mem_def, Option.some.injEq] at hy
    subst hy
    exact ⟨by rw [Fe]; rfl, FnidPrev⟩
  · refine List.chain'_append.mpr ⟨?_, List.chain'_singleton _, ?_⟩
    · refine chain'_imp_mem _ (cyc_body_chain hcyc) ?_
      rintro a b ha hb ⟨ha1, hb1⟩
      have hae : a ≠ e := fun hc => hnm (hc ▸ (List.dropLast_sublist _).subset ha)
      have hal : a ≠ lC := by
        intro hc
        refine nodup_getLast_not_mem_dropLast hcyc.nodup hCne ?_
        rw [hlC']
        exact hc ▸ ha
      have hbe : b ≠ e := fun hc => hnm (hc ▸ (List.tail_sublist _).subset hb)
      have hbn : b ≠ nid := by
        intro hc
        refine hnidZ ?_
        rw [← hc]
        simpa using hb
      exact ⟨by rw [FnextPres a hae hal]; exact ha1,
        by rw [FprevPres b hbe hbn]; exact hb1⟩
    · intro a ha b hb
      rw [Option.mem_def, hlC, Option.some.injEq] at ha
      simp only [List.head?_cons, Option.mem_def, Option.some.injEq] at hb
      subst hb
      rw [← ha]
      exact ⟨FlCNext, by rw [Fe]; rfl⟩

theorem entry_insert_cyc {st : Store} {nid : Nat} {Z : List Nat}
    (h : Cyc st (nid :: Z)) (hfresh : st.get st.fresh = none)
    (hnm : st.fresh ∉ nid :: Z) (q : Path) :
    ∃ st', aug_entry_insert st q nid = some (st', st.fresh) ∧
      Cyc st' (st.fresh :: nid :: Z) ∧
      st'.head = st.head ∧ st'.fresh = st.fresh + 1 ∧
      st'.mem.map Prod.fst = st.mem.map Prod.fst ++ [st.fresh] ∧
      (∀ k, k ≠ st.fresh → (st'.get k).map Node.path = (st.get k).map Node.path) ∧
      (∀ k, k ≠ st.fresh → (st'.get k).map Node.value = (st.get k).map Node.value) ∧
      (∀ k, k ≠ st.fresh → (st'.get k).isSome = (st.get k).isSome) ∧
      (st'.get st.fresh).map Node.path = some q ∧
      (st'.get st.fresh).map Node.value = some none := by
  have hCne : nid :: Z ≠ [] := by simp
  have hwrap : adjacent st ((nid :: Z).getLast (by simp)) nid := cyc_wrap_adj h
  obtain ⟨nn, hnn, hprev⟩ :
      ∃ nn, st.get nid = some nn ∧ nn.prev = (nid :: Z).getLast (by simp) := by
    rcases hwrap with ⟨_, h2⟩
    cases hg : st.get nid with
    | none => rw [hg] at h2; simp at h2
    | some n => exact ⟨n, rfl, by rw [hg] at h2; simpa using h2⟩
  have hprevq : (nid :: Z).getLast? = some nn.prev := by
    rw [List.getLast?_eq_getLast _ hCne, hprev]
  have g1 : ∀ k, k ≠ st.fresh →
      ({ mem := st.mem ++ [(st.fresh, ⟨q, none, nid, nn.prev⟩)],
         head := st.head, fresh := st.fresh + 1 } : Store).get k = st.get k := by
    intro k hk
    show aget (st.mem ++ [(st.fresh, ⟨q, none, nid, nn.prev⟩)]) k = st.get k
    rw [aget_append]
    show (match st.get k with
          | some v => some v
          | none => aget [(st.fresh, (⟨q, none, nid, nn.prev⟩ : Node))] k) = st.get k
    cases st.get k with
    | some v => rfl
    | none => simp [aget, hk]
  have g1e :
      ({ mem := st.mem ++ [(st.fresh, ⟨q, none, nid, nn.prev⟩)],
         head := st.head, fresh := st.fresh + 1 } : Store).get st.fresh =
        some ⟨q, none, nid, nn.prev⟩ := by
    show aget (st.mem ++ [(st.fresh, ⟨q, none, nid, nn.prev⟩)]) st.fresh = _
    rw [aget_append]
    show (match st.get st.fresh with
          | some v => some v
          | none => aget [(st.fresh, (⟨q, none, nid, nn.prev⟩ : Node))] st.fresh) = _
    rw [hfresh]
    simp [aget]
  obtain ⟨hcyc', hpath, hval, hsome, hpe, hve⟩ := splice_in_spec h hnm hprevq g1e g1
  refine ⟨_, ?_, hcyc', rfl, rfl, ?_, hpath, hval, hsome, hpe, hve⟩
  · unfold aug_entry_insert
    rw [hnn]
  · show (modNode (modNode (st.mem ++ [(st.fresh, ⟨q, none, nid, nn.prev⟩)]) nid
        (fun n => { n with prev := st.fresh })) nn.prev
        (fun n => { n with next := st.fresh })).map Prod.fst =
      st.mem.map Prod.fst ++ [st.fresh]
    rw [keys_modNode, keys_modNode, List.map_append]
    rfl

theorem insAux_eq (A B : List Nat) (nid e : Nat) (hA : nid ∉ A) :
    insAux (A ++ nid :: B) nid e = A ++ e :: nid :: B := by
  induction A with
  | nil => simp [insAux]
  | cons a A' ih =>
    have hna : ¬(nid = a) := fun hc => hA (by rw [hc]; simp)
    show (if nid = a then e :: a :: (A' ++ nid :: B) else a :: insAux (A' ++ nid :: B) nid e) =
      (a :: A') ++ e :: nid :: B
    rw [if_neg hna, ih (fun hc => hA (List.mem_cons_of_mem _ hc))]
    rfl

theorem insAux_perm (t : List Nat) (nid e : Nat) :
    List.Perm (insAux t nid e) (e :: t) := by
  induction t with
  | nil => simp [insAux]
  | cons x t' ih =>
    by_cases hx : nid = x
    · simp [insAux, hx]
    · show List.Perm (if nid = x then e :: x :: t' else x :: insAux t' nid e) (e :: x :: t')
      rw [if_neg hx]
      exact (ih.cons x).trans (List.Perm.swap e x t')

theorem insBefore_perm (L : List Nat) (nid e : Nat) :
    List.Perm (insBefore L nid e) (e :: L) := by
  cases L with
  | nil => simp [insBefore]
  | cons h t =>
    by_cases hh : nid = h
    · show List.Perm (if nid = h then h :: (t ++ [e]) else h :: insAux t nid e) (e :: h :: t)
      rw [if_pos hh]
      refine List.Perm.trans (List.Perm.cons h ?_) (List.Perm.swap e h t)
      exact List.perm_append_comm
    · show List.Perm (if nid = h then h :: (t ++ [e]) else h :: insAux t nid e) (e :: h :: t)
      rw [if_neg hh]
      exact ((insAux_perm t nid e).cons h).trans (List.Perm.swap e h t)

theorem mem_split_first {T : List Nat} {nid : Nat} (hT : T.Nodup) (hn : nid ∈ T) :
    ∃ A B, T = A ++ nid :: B ∧ nid ∉ A := by
  obtain ⟨A, B, rfl⟩ := List.append_of_mem hn
  refine ⟨A, B, rfl, ?_⟩
  intro hc
  rw [List.nodup_append] at hT
  exact hT.2.2 hc (by simp)

theorem entry_insert_spec {st : Store} {L : List Nat} (h : Rep st L) {nid : Nat}
    (hn : nid ∈ L) (q : Path) :
    ∃ st', aug_entry_insert st q nid = some (st', st.fresh) ∧
      Rep st' (insBefore L nid st.fresh) ∧
      st'.head = st.head ∧ st'.fresh = st.fresh + 1 ∧
      (∀ k, k ≠ st.fresh → (st'.get k).map Node.path = (st.get k).map Node.path) ∧
      (∀ k, k ≠ st.fresh → (st'.get k).map Node.value = (st.get k).map Node.value) ∧
      (st'.get st.fresh).map Node.path = some q ∧
      (st'.get st.fresh).map Node.value = some none := by
  obtain ⟨T, rfl⟩ : ∃ T, L = st.head :: T := by
    cases L with
    | nil => exact absurd h.hd (by simp)
    | cons a T =>
      have ha := h.hd
      simp at ha
      exact ⟨T, by rw [ha]⟩
  by_cases hnid : nid = st.head
  · have hcyc0 : Cyc st (nid :: T) := by rw [hnid]; exact h.toCyc
    have hnm0 : st.fresh ∉ nid :: T := by rw [hnid]; exact h.fresh_not_mem
    obtain ⟨st', heq, hcyc, hh, hf, hkeys, hpath, hval, _, hpe, hve⟩ :=
      entry_insert_cyc hcyc0 h.get_fresh_none hnm0 q
    have hrot : Cyc st' ((nid :: T) ++ [st.fresh]) := by
      have h2 : Cyc st' ([st.fresh] ++ (nid :: T)) := by simpa using hcyc
      exact cyc_rotate h2
    have hform : insBefore (st.head :: T) nid st.fresh = st.head :: (T ++ [st.fresh]) := by
      simp [insBefore, hnid]
    refine ⟨st', heq, ?_, hh, hf, hpath, hval, hpe, hve⟩
    rw [hform]
    have hcyc2 : Cyc st' (st'.head :: (T ++ [st.fresh])) := by
      rw [hh, ← hnid]
      have heq2 : (nid :: T) ++ [st.fresh] = nid :: (T ++ [st.fresh]) := by simp
      rw [← heq2]
      exact hrot
    have hrep := cyc_to_rep hcyc2 ?_ ?_
    · rw [hh] at hrep
      exact hrep
    · rw [hkeys, hh]
      have h1 : List.Perm (st.mem.map Prod.fst ++ [st.fresh])
          ((st.head :: T) ++ [st.fresh]) := h.keys.append_right _
      simpa using h1
    · intro k hk
      rw [hf]
      rw [hh] at hk
      simp at hk
      rcases hk with hk | hk | hk
      · have hm : k ∈ st.head :: T := by rw [hk]; simp
        exact Nat.lt_succ_of_lt (h.freshB _ hm)
      · exact Nat.lt_succ_of_lt (h.freshB _ (List.mem_cons_of_mem _ hk))
      · rw [hk]
        omega
  · have hnT : nid ∈ T := by
      rcases List.mem_cons.mp hn with hc | hc
      · exact absurd hc hnid
      · exact hc
    obtain ⟨A, B, rfl, hA⟩ :=
      mem_split_first (List.nodup_cons.mp h.nodup).2 hnT
    have hrot1 : Cyc st (nid :: (B ++ st.head :: A)) := by
      have : Cyc st ((st.head :: A) ++ nid :: B) := by simpa using h.toCyc
      have := cyc_rotate this
      simpa using this
    have hnm : st.fresh ∉ nid :: (B ++ st.head :: A) := by
      intro hc
      refine h.fresh_not_mem ?_
      simp only [List.mem_cons, List.mem_append] at hc ⊢
      tauto
    obtain ⟨st', heq, hcyc, hh, hf, hkeys, hpath, hval, _, hpe, hve⟩ :=
      entry_insert_cyc hrot1 h.get_fresh_none hnm q
    have hrot2 : Cyc st' ((st.head :: A) ++ (st.fresh :: nid :: B)) := by
      have : Cyc st' ((st.fresh :: nid :: B) ++ (st.head :: A)) := by simpa using hcyc
      exact cyc_rotate this
    have hform : insBefore (st.head :: (A ++ nid :: B)) nid st.fresh =
        st.head :: (A ++ st.fresh :: nid :: B) := by
      simp only [insBefore, if_neg hnid]
      rw [insAux_eq _ _ _ _ hA]
    refine ⟨st', heq, ?_, hh, hf, hpath, hval, hpe, hve⟩
    rw [hform]
    have hcyc2 : Cyc st' (st'.head :: (A ++ st.fresh :: nid :: B)) := by
      rw [hh]
      simpa using hrot2
    have hrep := cyc_to_rep hcyc2 ?_ ?_
    · rw [hh] at hrep
      exact hrep
    · rw [hkeys, hh]
      refine List.Perm.trans (h.keys.append_right [st.fresh]) ?_
      refine List.Perm.trans (List.perm_append_comm) ?_
      rw [← hform]
      exact (insBefore_perm (st.head :: (A ++ nid :: B)) nid st.fresh).symm
    · intro k hk
      rw [hf]
      rw [hh] at hk
      have : k = st.fresh ∨ k ∈ st.head :: (A ++ nid :: B) := by
        simp only [List.mem_cons, List.mem_append] at hk ⊢
        tauto
      rcases this with hc | hc
      · omega
      · exact Nat.lt_succ_of_lt (h.freshB _ hc)

/-! ### Characterizations of the find scan -/

theorem find_scan_none (st : Store) (p : Path) : ∀ ids : List Nat,
    ((ids.filterMap (fun i => (st.get i).map (fun n => (i, n)))).find?
        (fun x => patheq p x.2.path) = none ↔
      ∀ i ∈ ids, ∀ pth, (st.get i).map Node.path = some pth → patheq p pth = false) := by
  intro ids
  induction ids with
  | nil => simp
  | cons a t ih =>
    cases hg : st.get a with
    | none =>
      simp only [List.filterMap_cons, hg, Option.map_none']
      constructor
      · intro hfind i hi pth hp
        rcases List.mem_cons.mp hi with hc | hc
        · rw [hc, hg] at hp
          simp at hp
        · exact (ih.mp hfind) i hc pth hp
      · intro hall
        exact ih.mpr (fun i hi pth hp => hall i (List.mem_cons_of_mem _ hi) pth hp)
    | some n =>
      simp only [List.filterMap_cons, hg, Option.map_some']
      rw [List.find?_cons]
      cases hm : patheq p n.path with
      | true =>
        simp only [hm]
        constructor
        · intro hfind
          simp at hfind
        · intro hall
          have := hall a (by simp) n.path (by rw [hg]; rfl)
          rw [hm] at this
          simp at this
      | false =>
        simp only [hm]
        constructor
        · intro hfind i hi pth hp
          rcases List.mem_cons.mp hi with hc | hc
          · rw [hc, hg] at hp
            simp at hp
            rw [← hp]
            exact hm
          · exact (ih.mp hfind) i hc pth hp
        · intro hall
          exact ih.mpr (fun i hi pth hp => hall i (List.mem_cons_of_mem _ hi) pth hp)

theorem find_none_iff (st : Store) (p : Path) :
    aug_entry_find st p = none ↔
      ∀ i ∈ ringIds st, ∀ pth, (st.get i).map Node.path = some pth →
        patheq p pth = false := by
  unfold aug_entry_find ringNodes
  rw [Option.map_eq_none']
  exact find_scan_none st p (ringIds st)

theorem find_scan_isSome (st : Store) (p : Path) : ∀ (ids : List Nat) (i : Nat)
    (pth : Path), i ∈ ids → (st.get i).map Node.path = some pth →
    patheq p pth = true →
    ((ids.filterMap (fun i => (st.get i).map (fun n => (i, n)))).find?
      (fun x => patheq p x.2.path)).isSome := by
  intro ids
  induction ids with
  | nil => simp
  | cons a t ih =>
    intro i pth hi hp hm
    cases hg : st.get a with
    | none =>
      simp only [List.filterMap_cons, hg, Option.map_none']
      rcases List.mem_cons.mp hi with hc | hc
      · rw [hc, hg] at hp
        simp at hp
      · exact ih i pth hc hp hm
    | some n =>
      simp only [List.filterMap_cons, hg, Option.map_some']
      rw [List.find?_cons]
      cases hmn : patheq p n.path with
      | true => simp [hmn]
      | false =>
        simp only [hmn]
        rcases List.mem_cons.mp hi with hc | hc
        · rw [hc, hg] at hp
          simp at hp
          rw [hp] at hmn
          rw [hmn] at hm
          simp at hm
        · exact ih i pth hc hp hm

theorem find_isSome_of_mem {st : Store} {p : Path} {i : Nat} {pth : Path}
    (hi : i ∈ ringIds st) (hp : (st.get i).map Node.path = some pth)
    (hm : patheq p pth = true) : (aug_entry_find st p).isSome := by
  unfold aug_entry_find ringNodes
  rw [Option.isSome_map']
  exact find_scan_isSome st p (ringIds st) i pth hi hp hm

theorem find_scan_unique (st : Store) (p : Path) : ∀ (ids : List Nat) (i : Nat)
    (pth : Path), i ∈ ids → (st.get i).map Node.path = some pth →
    patheq p pth = true →
    (∀ j ∈ ids, ∀ pth', (st.get j).map Node.path = some pth' →
      patheq p pth' = true → j = i) →
    ((ids.filterMap (fun i => (st.get i).map (fun n => (i, n)))).find?
      (fun x => patheq p x.2.path)).map (fun x => x.1) = some i := by
  intro ids
  induction ids with
  | nil => simp
  | cons a t ih =>
    intro i pth hi hp hm huniq
    cases hg : st.get a with
    | none =>
      simp only [List.filterMap_cons, hg, Option.map_none']
      rcases List.mem_cons.mp hi with hc | hc
      · rw [hc, hg] at hp
        simp at hp
      · exact ih i pth hc hp hm
          (fun j hj pth' hp' hm' => huniq j (List.mem_cons_of_mem _ hj) pth' hp' hm')
    | some n =>
      simp only [List.filterMap_cons, hg, Option.map_some']
      rw [List.find?_cons]
      cases hmn : patheq p n.path with
      | true =>
        simp only [hmn]
        have : a = i := huniq a (by simp) n.path (by rw [hg]; rfl) hmn
        simp [this]
      | false =>
        simp only [hmn]
        rcases List.mem_cons.mp hi with hc | hc
        · rw [hc, hg] at hp
          simp at hp
          rw [hp] at hmn
          rw [hmn] at hm
          simp at hm
        · exact ih i pth hc hp hm
            (fun j hj pth' hp' hm' => huniq j (List.mem_cons_of_mem _ hj) pth' hp' hm')

theorem find_eq_some_of_unique {st : Store} {p : Path} {i : Nat} {pth : Path}
    (hi : i ∈ ringIds st) (hp : (st.get i).map Node.path = some pth)
    (hm : patheq p pth = true)
    (huniq : ∀ j ∈ ringIds st, ∀ pth', (st.get j).map Node.path = some pth' →
      patheq p pth' = true → j = i) :
    aug_entry_find st p = some i :=
  find_scan_unique st p (ringIds st) i pth hi hp hm huniq

theorem find_scan_congr (st st' : Store) (p : Path) : ∀ ids : List Nat,
    (∀ i ∈ ids, (st'.get i).map Node.path = (st.get i).map Node.path) →
    ((ids.filterMap (fun i => (st'.get i).map (fun n => (i, n)))).find?
        (fun x => patheq p x.2.path)).map (fun x => x.1) =
      ((ids.filterMap (fun i => (st.get i).map (fun n => (i, n)))).find?
        (fun x => patheq p x.2.path)).map (fun x => x.1) := by
  intro ids
  induction ids with
  | nil => simp
  | cons a t ih =>
    intro hps
    have hpa := hps a (by simp)
    cases hg : st.get a with
    | none =>
      rw [hg] at hpa
      simp only [Option.map_none'] at hpa
      have hg' : st'.get a = none := by
        cases hgg : st'.get a with
        | none => rfl
        | some m => rw [hgg] at hpa; simp at hpa
      simp only [List.filterMap_cons, hg, hg', Option.map_none']
      exact ih (fun i hi => hps i (List.mem_cons_of_mem _ hi))
    | some n =>
      rw [hg] at hpa
      obtain ⟨m, hg'⟩ : ∃ m, st'.get a = some m := by
        cases hgg : st'.get a with
        | none => rw [hgg] at hpa; simp at hpa
        | some m => exact ⟨m, rfl⟩
      rw [hg'] at hpa
      simp only [Option.map_some', Option.some.injEq] at hpa
      simp only [List.filterMap_cons, hg, hg', Option.map_some']
      rw [List.find?_cons, List.find?_cons]
      cases hmn : patheq p n.path with
      | true =>
        have : patheq p m.path = true := by rw [hpa]; exact hmn
        simp [hmn, this]
      | false =>
        have : patheq p m.path = false := by rw [hpa]; exact hmn
        simp only [hmn, this]
        exact ih (fun i hi => hps i (List.mem_cons_of_mem _ hi))

theorem find_congr {st st' : Store} (p : Path)
    (hIds : ringIds st' = ringIds st)
    (hps : ∀ i ∈ ringIds st, (st'.get i).map Node.path = (st.get i).map Node.path) :
    aug_entry_find st' p = aug_entry_find st p := by
  unfold aug_entry_find ringNodes
  rw [hIds]
  exact find_scan_congr st st' p (ringIds st) hps

theorem find_scan_some_mem (st : Store) (p : Path) : ∀ (ids : List Nat) (i : Nat),
    ((ids.filterMap (fun i => (st.get i).map (fun n => (i, n)))).find?
      (fun x => patheq p x.2.path)).map (fun x => x.1) = some i →
    i ∈ ids ∧ ∃ pth, (st.get i).map Node.path = some pth ∧ patheq p pth = true := by
  intro ids
  induction ids with
  | nil => simp
  | cons a t ih =>
    intro i hfind
    cases hg : st.get a with
    | none =>
      rw [List.filterMap_cons, hg] at hfind
      simp only [Option.map_none'] at hfind
      obtain ⟨hm, pth, hp, hq⟩ := ih i hfind
      exact ⟨List.mem_cons_of_mem _ hm, pth, hp, hq⟩
    | some n =>
      rw [List.filterMap_cons, hg] at hfind
      simp only [Option.map_some'] at hfind
      rw [List.find?_cons] at hfind
      cases hmn : patheq p n.path with
      | true =>
        rw [hmn] at hfind
        simp at hfind
        refine ⟨by rw [hfind]; simp, n.path, ?_, hmn⟩
        rw [← hfind, hg]
        rfl
      | false =>
        rw [hmn] at hfind
        simp only [Bool.false_eq_true, if_false] at hfind
        obtain ⟨hm, pth, hp, hq⟩ := ih i hfind
        exact ⟨List.mem_cons_of_mem _ hm, pth, hp, hq⟩

theorem find_some_mem {st : Store} {p : Path} {i : Nat}
    (h : aug_entry_find st p = some i) :
    i ∈ ringIds st ∧ ∃ pth, (st.get i).map Node.path = some pth ∧
      patheq p pth = true :=
  find_scan_some_mem st p (ringIds st) i h

theorem streqlen_refl (a : Path) (n : Nat) : streqlen a a n = true := by
  unfold streqlen
  split <;> simp

theorem pathprefx_refl (a : Path) : pathprefx a a = true := by
  unfold pathprefx
  simp only [streqlen_refl, Bool.true_and]
  unfold pathlen
  by_cases hc : (1 < a.length && (a.getLast? == some SEP)) = true
  · rw [if_pos hc]
    simp only [Bool.and_eq_true, beq_iff_eq, decide_eq_true_eq] at hc
    have hlen : a.length - 1 < a.length := by omega
    have : a.get? (a.length - 1) = a.getLast? := by
      rw [List.getLast?_eq_getElem?, List.get?_eq_getElem?]
    rw [Bool.or_eq_true, beq_iff_eq, this, hc.2]
    simp
  · rw [if_neg hc]
    simp

theorem patheq_refl (a : Path) : patheq a a = true := by
  unfold patheq
  rw [pathprefx_refl]
  rfl

theorem rep_head_mem {st : Store} {L : List Nat} (h : Rep st L) : st.head ∈ L := by
  cases L with
  | nil => exact absurd h.hd (by simp)
  | cons a T =>
    have := h.hd
    simp at this
    rw [this]
    simp

theorem insBefore_head (h0 e : Nat) (T : List Nat) :
    insBefore (h0 :: T) h0 e = (h0 :: T) ++ [e] := by
  simp [insBefore]

theorem get_mid (done : Path) (c : Char) (r : Path) :
    (done ++ c :: r).get? done.length = some c := by
  rw [List.get?_eq_getElem?, List.getElem?_append_right (le_refl _)]
  simp

/-! ### The ancestor-materialising walk -/

theorem mkAncestors_spec : ∀ (rest done : Path) (st : Store) (L : List Nat),
    Rep st L →
    ∃ st' NL, mkAncestors st done rest = some st' ∧ Rep st' (L ++ NL) ∧
      st'.head = st.head ∧ st.fresh ≤ st'.fresh ∧
      (∀ k ∈ L, (st'.get k).map Node.path = (st.get k).map Node.path ∧
                (st'.get k).map Node.value = (st.get k).map Node.value) ∧
      (∀ k ∈ NL, ∃ j, done.length ≤ j ∧ j < (done ++ rest).length ∧
        (done ++ rest).get? j = some SEP ∧
        (st'.get k).map Node.path = some ((done ++ rest).take j)) ∧
      (∀ j, done.length ≤ j → j < (done ++ rest).length →
        (done ++ rest).get? j = some SEP →
        ∃ i ∈ L ++ NL, ∃ pth, (st'.get i).map Node.path = some pth ∧
          patheq ((done ++ rest).take j) pth = true) := by
  intro rest
  induction rest with
  | nil =>
    intro done st L h
    refine ⟨st, [], rfl, by simpa using h, rfl, le_refl _,
      fun k _ => ⟨rfl, rfl⟩, by simp, ?_⟩
    intro j hj1 hj2 _
    simp at hj2
    omega
  | cons c rest' ih =>
    intro done st L h
    have hfull : done ++ c :: rest' = (done ++ [c]) ++ rest' := by simp
    by_cases hc : c = SEP
    · cases hfind : aug_entry_find st done with
      | some i =>
        obtain ⟨himem, pth, hpth, hpe⟩ := find_some_mem hfind
        rw [h.ringIds_eq] at himem
        obtain ⟨st', NL, heq, hrep, hh, hfr, hpres, hnew, hpost⟩ :=
          ih (done ++ [c]) st L h
        refine ⟨st', NL, ?_, hrep, hh, hfr, hpres, ?_, ?_⟩
        · show mkAncestors st done (c :: rest') = some st'
          simp only [mkAncestors]
          rw [if_pos (by rw [hc]; exact beq_self_eq_true SEP), hfind]
          exact heq
        · intro k hk
          obtain ⟨j, hj1, hj2, hj3, hj4⟩ := hnew k hk
          rw [← hfull] at hj2 hj3 hj4
          simp only [List.length_append, List.length_cons] at hj1
          exact ⟨j, by simp at hj1; omega, hj2, hj3, hj4⟩
        · intro j hj1 hj2 hj3
          by_cases hje : j = done.length
          · refine ⟨i, List.mem_append_left _ himem, pth, ?_, ?_⟩
            · rw [(hpres i himem).1]
              exact hpth
            · rw [hje, List.take_left]
              exact hpe
          · have hj1' : (done ++ [c]).length ≤ j := by
              simp only [List.length_append, List.length_cons, List.length_nil]
              omega
            rw [hfull] at hj2 hj3
            obtain ⟨w, hw, pth', hp', he'⟩ := hpost j hj1' hj2 hj3
            rw [← hfull] at he'
            exact ⟨w, hw, pth', hp', he'⟩
      | none =>
        obtain ⟨T, hLT⟩ : ∃ T, L = st.head :: T := by
          cases L with
          | nil => exact absurd h.hd (by simp)
          | cons a T =>
            have ha := h.hd
            simp at ha
            exact ⟨T, by rw [ha]⟩
        obtain ⟨st1, heq1, hrep1, hh1, hf1, hpp1, hvv1, hpe1, hve1⟩ :=
          entry_insert_spec h (rep_head_mem h) done
        have hins : insBefore L st.head st.fresh = L ++ [st.fresh] := by
          rw [hLT]
          exact insBefore_head st.head st.fresh T
        rw [hins] at hrep1
        obtain ⟨st', NL', heq, hrep, hh, hfr, hpres, hnew, hpost⟩ :=
          ih (done ++ [c]) st1 (L ++ [st.fresh]) hrep1
        have hLassoc : (L ++ [st.fresh]) ++ NL' = L ++ ([st.fresh] ++ NL') := by simp
        refine ⟨st', [st.fresh] ++ NL', ?_, by rw [← hLassoc]; exact hrep,
          hh.trans hh1, by rw [hf1] at hfr; omega, ?_, ?_, ?_⟩
        · show mkAncestors st done (c :: rest') = some st'
          simp only [mkAncestors]
          rw [if_pos (by rw [hc]; exact beq_self_eq_true SEP), hfind, heq1]
          exact heq
        · intro k hk
          have hkfr : k ≠ st.fresh := fun hcn => by
            have := h.freshB k hk
            omega
          have hk1 : k ∈ L ++ [st.fresh] := List.mem_append_left _ hk
          refine ⟨((hpres k hk1).1).trans (hpp1 k hkfr), ((hpres k hk1).2).trans (hvv1 k hkfr)⟩
        · intro k hk
          rcases List.mem_append.mp hk with hk | hk
          · have hk0 : k = st.fresh := by simpa using hk
            refine ⟨done.length, le_refl _, ?_, ?_, ?_⟩
            · simp
            · rw [← hc]
              exact get_mid done c rest'
            · rw [List.take_left]
              have : (st'.get k).map Node.path = (st1.get k).map Node.path :=
                (hpres k (by rw [hk0]; simp)).1
              rw [this, hk0]
              exact hpe1
          · obtain ⟨j, hj1, hj2, hj3, hj4⟩ := hnew k hk
            rw [← hfull] at hj2 hj3 hj4
            simp only [List.length_append, List.length_cons, List.length_nil] at hj1
            exact ⟨j, by omega, hj2, hj3, hj4⟩
        · intro j hj1 hj2 hj3
          by_cases hje : j = done.length
          · refine ⟨st.fresh, ?_, done, ?_, ?_⟩
            · refine List.mem_append_right _ ?_
              simp
            · rw [(hpres st.fresh (by simp)).1]
              exact hpe1
            · rw [hje, List.take_left]
              exact patheq_refl done
          · have hj1' : (done ++ [c]).length ≤ j := by
              simp only [List.length_append, List.length_cons, List.length_nil]
              omega
            rw [hfull] at hj2 hj3
            obtain ⟨w, hw, pth', hp', he'⟩ := hpost j hj1' hj2 hj3
            rw [← hfull] at he'
            rw [hLassoc] at hw
            exact ⟨w, hw, pth', hp', he'⟩
    · obtain ⟨st', NL, heq, hrep, hh, hfr, hpres, hnew, hpost⟩ :=
        ih (done ++ [c]) st L h
      refine ⟨st', NL, ?_, hrep, hh, hfr, hpres, ?_, ?_⟩
      · show mkAncestors st done (c :: rest') = some st'
        simp only [mkAncestors]
        rw [if_neg (by simpa using hc)]
        exact heq
      · intro k hk
        obtain ⟨j, hj1, hj2, hj3, hj4⟩ := hnew k hk
        rw [← hfull] at hj2 hj3 hj4
        simp only [List.length_append, List.length_cons, List.length_nil] at hj1
        exact ⟨j, by omega, hj2, hj3, hj4⟩
      · intro j hj1 hj2 hj3
        by_cases hje : j = done.length
        · exfalso
          rw [hje, get_mid done c rest'] at hj3
          exact hc (by injection hj3)
        · have hj1' : (done ++ [c]).length ≤ j := by
            simp only [List.length_append, List.length_cons, List.length_nil]
            omega
          rw [hfull] at hj2 hj3
          obtain ⟨w, hw, pth', hp', he'⟩ := hpost j hj1' hj2 hj3
          rw [← hfull] at he'
          exact ⟨w, hw, pth', hp', he'⟩

/-! ### Entry creation with ancestors -/

theorem entry_make_spec {st : Store} {L : List Nat} (h : Rep st L) {nid : Nat}
    (hn : nid ∈ L) (p : Path) :
    ∃ st' NL e, aug_entry_make st p nid = some (st', e) ∧
      Rep st' (insBefore (L ++ NL) nid e) ∧
      st'.head = st.head ∧
      e ∉ L ∧ e ∉ NL ∧
      (∀ k ∈ L, (st'.get k).map Node.path = (st.get k).map Node.path ∧
                (st'.get k).map Node.value = (st.get k).map Node.value) ∧
      (∀ k ∈ NL, ∃ j, j < (p.take (pathlen p)).length ∧
        (p.take (pathlen p)).get? j = some SEP ∧
        (st'.get k).map Node.path = some ((p.take (pathlen p)).take j)) ∧
      (st'.get e).map Node.path = some (p.take (pathlen p)) ∧
      (st'.get e).map Node.value = some none ∧
      (∀ j, 1 ≤ j → j < (p.take (pathlen p)).length →
        (p.take (pathlen p)).get? j = some SEP →
        ∃ i ∈ L ++ NL, ∃ pth, (st'.get i).map Node.path = some pth ∧
          patheq ((p.take (pathlen p)).take j) pth = true) := by
  cases hpath : p.take (pathlen p) with
  | nil =>
    obtain ⟨st', heq, hrep, hh, _, hpp, hvv, hpe, hve⟩ := entry_insert_spec h hn []
    refine ⟨st', [], st.fresh, ?_, by simpa using hrep, hh, h.fresh_not_mem, by simp, ?_,
      by simp, by rw [hpe], by rw [hve], by simp⟩
    · show aug_entry_make st p nid = some (st', st.fresh)
      unfold aug_entry_make
      rw [hpath]
      exact heq
    · intro k hk
      have hkfr : k ≠ st.fresh := fun hcn => by
        have := h.freshB k hk
        omega
      exact ⟨hpp k hkfr, hvv k hkfr⟩
  | cons c0 rest =>
    obtain ⟨st2, NL, heq2, hrep2, hh2, hfr2, hpres2, hnew2, hpost2⟩ :=
      mkAncestors_spec rest [c0] st L h
    have hn2 : nid ∈ L ++ NL := List.mem_append_left _ hn
    obtain ⟨st', heq, hrep, hh, _, hpp, hvv, hpe, hve⟩ :=
      entry_insert_spec hrep2 hn2 (c0 :: rest)
    have henotm : st2.fresh ∉ L ++ NL := hrep2.fresh_not_mem
    have hfull2 : [c0] ++ rest = c0 :: rest := rfl
    refine ⟨st', NL, st2.fresh, ?_, hrep, hh.trans hh2, ?_, ?_, ?_, ?_,
      by rw [hpe], by rw [hve], ?_⟩
    · show aug_entry_make st p nid = some (st', st2.fresh)
      unfold aug_entry_make
      rw [hpath]
      show (match mkAncestors st [c0] rest with
            | none => none
            | some stx => aug_entry_insert stx (c0 :: rest) nid) = some (st', st2.fresh)
      rw [heq2]
      exact heq
    · exact fun hcn => henotm (List.mem_append_left _ hcn)
    · exact fun hcn => henotm (List.mem_append_right _ hcn)
    · intro k hk
      have hkfr : k ≠ st2.fresh := fun hcn =>
        henotm (hcn ▸ List.mem_append_left _ hk)
      exact ⟨(hpp k hkfr).trans (hpres2 k hk).1, (hvv k hkfr).trans (hpres2 k hk).2⟩
    · intro k hk
      have hkfr : k ≠ st2.fresh := fun hcn =>
        henotm (hcn ▸ List.mem_append_right _ hk)
      obtain ⟨j, hj1, hj2, hj3, hj4⟩ := hnew2 k hk
      rw [hfull2] at hj2 hj3 hj4
      exact ⟨j, hj2, hj3, (hpp k hkfr).trans hj4⟩
    · intro j hj1 hj2 hj3
      rw [← hfull2] at hj2 hj3
      obtain ⟨i, hi, pth, hp, hq⟩ := hpost2 j (by simpa using hj1) hj2 hj3
      have hkfr : i ≠ st2.fresh := fun hcn => henotm (hcn ▸ hi)
      refine ⟨i, hi, pth, (hpp i hkfr).trans hp, ?_⟩
      rw [← hfull2]
      exact hq

/-! ### Lemmas about path normalization and equality -/

theorem pathlen_le (p : Path) : pathlen p ≤ p.length := by
  unfold pathlen
  split <;> omega

theorem patheq_take_false (q : Path) (j : Nat) (hj : j < pathlen q) :
    patheq q (q.take j) = false := by
  have hql : pathlen q ≤ q.length := pathlen_le q
  have hlen : (q.take j).length = j := by
    rw [List.length_take]
    omega
  unfold patheq pathprefx
  have hst : streqlen q (q.take j) (pathlen q) = false := by
    unfold streqlen
    rw [if_pos]
    · rw [beq_eq_false_iff_ne]
      intro hcn
      have hll := congrArg List.length hcn
      rw [hlen] at hll
      omega
    · rw [hlen]
      simp only [Bool.or_eq_true, decide_eq_true_eq]
      omega
  rw [hst]
  simp

theorem streqlen_take_right (p : Path) (m n : Nat) (hnm : n ≤ m) :
    streqlen p (p.take m) n = true := by
  unfold streqlen
  by_cases hc : p.length < n
  · rw [if_pos]
    · have hfull : p.take m = p := List.take_of_length_le (by omega)
      rw [hfull]
      simp
    · simp only [Bool.or_eq_true, decide_eq_true_eq]
      omega
  · rw [if_neg]
    · rw [List.take_take]
      have : min n m = n := by omega
      rw [this]
      simp
    · rw [List.length_take]
      simp only [Bool.or_eq_true, decide_eq_true_eq]
      omega

theorem streqlen_take_left (p : Path) (m n : Nat) (hnm : n ≤ m) :
    streqlen (p.take m) p n = true := by
  unfold streqlen
  by_cases hc : p.length < n
  · rw [if_pos]
    · have hfull : p.take m = p := List.take_of_length_le (by omega)
      rw [hfull]
      simp
    · simp only [Bool.or_eq_true, decide_eq_true_eq]
      omega
  · rw [if_neg]
    · rw [List.take_take]
      have : min n m = n := by omega
      rw [this]
      simp
    · rw [List.length_take]
      simp only [Bool.or_eq_true, decide_eq_true_eq]
      omega

theorem patheq_stripped (p : Path) : patheq p (p.take (pathlen p)) = true := by
  by_cases hc : (1 < p.length && (p.getLast? == some SEP)) = true
  · have hlen : pathlen p = p.length - 1 := by
      unfold pathlen
      rw [if_pos hc]
    simp only [Bool.and_eq_true, beq_iff_eq, decide_eq_true_eq] at hc
    obtain ⟨h1, h2⟩ := hc
    unfold patheq
    have hA : pathprefx p (p.take (pathlen p)) = true := by
      unfold pathprefx
      rw [streqlen_take_right p (pathlen p) (pathlen p) (le_refl _)]
      have : (p.take (pathlen p)).length = pathlen p := by
        rw [List.length_take]
        have := pathlen_le p
        omega
      rw [Bool.true_and, Bool.or_eq_true, beq_iff_eq, this]
      simp
    have hB : pathprefx (p.take (pathlen p)) p = true := by
      unfold pathprefx
      have hsl : (p.take (pathlen p)).length = pathlen p := by
        rw [List.length_take]
        have := pathlen_le p
        omega
      rw [streqlen_take_left p (pathlen p) (pathlen (p.take (pathlen p)))
        (le_trans (pathlen_le _) (le_of_eq hsl))]
      rw [Bool.true_and, Bool.or_eq_true]
      right
      rw [beq_iff_eq]
      by_cases hs : (1 < (p.take (pathlen p)).length &&
          ((p.take (pathlen p)).getLast? == some SEP)) = true
      · have hlen2 : pathlen (p.take (pathlen p)) = (p.take (pathlen p)).length - 1 := by
          show (if (1 < (p.take (pathlen p)).length &&
              ((p.take (pathlen p)).getLast? == some SEP)) = true
            then (p.take (pathlen p)).length - 1
            else (p.take (pathlen p)).length) = (p.take (pathlen p)).length - 1
          rw [if_pos hs]
        simp only [Bool.and_eq_true, beq_iff_eq, decide_eq_true_eq] at hs
        obtain ⟨hs1, hs2⟩ := hs
        rw [hsl] at hs1
        have hidx : pathlen p - 1 < pathlen p := by omega
        have hkey : (p.take (pathlen p))[pathlen p - 1]? = some SEP := by
          rw [List.getLast?_eq_getElem?, hsl] at hs2
          exact hs2
        rw [hlen2, hsl, List.get?_eq_getElem?, ← List.getElem?_take_of_lt (l := p) hidx]
        exact hkey
      · have hlen2 : pathlen (p.take (pathlen p)) = (p.take (pathlen p)).length := by
          show (if (1 < (p.take (pathlen p)).length &&
              ((p.take (pathlen p)).getLast? == some SEP)) = true
            then (p.take (pathlen p)).length - 1
            else (p.take (pathlen p)).length) = (p.take (pathlen p)).length
          rw [if_neg hs]
        rw [hlen2, hsl, hlen]
        rw [List.getLast?_eq_getElem?] at h2
        rw [List.get?_eq_getElem?]
        exact h2
    rw [hA, hB]
    rfl
  · have hlen : pathlen p = p.length := by
      unfold pathlen
      rw [if_neg hc]
    rw [hlen, List.take_length]
    exact patheq_refl p

/-! ### Value updates preserve the ring -/

theorem setValue_head (st : Store) (j : Nat) (v : Option Path) :
    (setValue st j v).head = st.head := rfl

theorem setValue_ringFrom (st : Store) (j : Nat) (v : Option Path) :
    ∀ f i, ringFrom (setValue st j v) f i = ringFrom st f i := by
  intro f
  induction f with
  | zero => intro i; rfl
  | succ f' ih =>
    intro i
    show (i :: _) = (i :: _)
    congr 1
    cases hg : st.get i with
    | none =>
      have hsv : (setValue st j v).get i = none := by
        rw [get_setValue]
        by_cases hij : i = j
        · rw [if_pos hij, ← hij, hg]
          rfl
        · rw [if_neg hij, hg]
      rw [hsv]
    | some n =>
      have hsv : (setValue st j v).get i =
          some (if i = j then { n with value := v } else n) := by
        rw [get_setValue]
        by_cases hij : i = j
        · rw [if_pos hij, if_pos hij, ← hij, hg]
          rfl
        · rw [if_neg hij, if_neg hij, hg]
      rw [hsv]
      by_cases hij : i = j
      · rw [if_pos hij]
        show (if n.next == st.head then [] else ringFrom (setValue st j v) f' n.next) =
          (if n.next == st.head then [] else ringFrom st f' n.next)
        by_cases hn : (n.next == st.head) = true
        · rw [if_pos hn, if_pos hn]
        · rw [if_neg hn, if_neg hn, ih]
      · rw [if_neg hij]
        show (if n.next == st.head then [] else ringFrom (setValue st j v) f' n.next) =
          (if n.next == st.head then [] else ringFrom st f' n.next)
        by_cases hn : (n.next == st.head) = true
        · rw [if_pos hn, if_pos hn]
        · rw [if_neg hn, if_neg hn, ih]

theorem setValue_ringIds (st : Store) (j : Nat) (v : Option Path) :
    ringIds (setValue st j v) = ringIds st := by
  unfold ringIds
  have hlen : (setValue st j v).mem.length = st.mem.length := by
    show (modNode st.mem j (fun n => { n with value := v })).length = st.mem.length
    unfold modNode
    rw [List.length_map]
  rw [hlen, setValue_ringFrom, setValue_head]

theorem setValue_path (st : Store) (j : Nat) (v : Option Path) (k : Nat) :
    ((setValue st j v).get k).map Node.path = (st.get k).map Node.path := by
  rw [get_setValue]
  by_cases hk : k = j
  · rw [if_pos hk, mappath_valmod, hk]
  · rw [if_neg hk]

theorem setValue_find (st : Store) (j : Nat) (v : Option Path) (p : Path) :
    aug_entry_find (setValue st j v) p = aug_entry_find st p :=
  find_congr p (setValue_ringIds st j v) (fun i _ => setValue_path st j v i)

theorem setValue_rep {st : Store} {L : List Nat} (h : Rep st L) (j : Nat)
    (v : Option Path) : Rep (setValue st j v) L := by
  refine ⟨h.ne, h.hd, h.nodup, ?_, h.freshB, ?_⟩
  · show List.Perm ((modNode st.mem j (fun n => { n with value := v })).map Prod.fst) L
    rw [keys_modNode]
    exact h.keys
  · refine chain'_imp_mem _ h.chain ?_
    rintro a b _ _ ⟨h1, h2⟩
    constructor
    · rw [get_setValue]
      by_cases ha : a = j
      · rw [if_pos ha, mapnext_valmod, ← ha]
        exact h1
      · rw [if_neg ha]
        exact h1
    · rw [get_setValue]
      by_cases hb : b = j
      · rw [if_pos hb, mapprev_valmod, ← hb]
        exact h2
      · rw [if_neg hb]
        exact h2

/-! ### Projection preservation for the pointer writes -/

theorem setNext_path (st : Store) (a b k : Nat) :
    ((setNext st a b).get k).map Node.path = (st.get k).map Node.path := by
  rw [get_setNext]
  by_cases h : k = a
  · rw [if_pos h, mappath_nextmod, h]
  · rw [if_neg h]

theorem setNext_value (st : Store) (a b k : Nat) :
    ((setNext st a b).get k).map Node.value = (st.get k).map Node.value := by
  rw [get_setNext]
  by_cases h : k = a
  · rw [if_pos h, mapvalue_nextmod, h]
  · rw [if_neg h]

theorem setNext_isSome (st : Store) (a b k : Nat) :
    ((setNext st a b).get k).isSome = (st.get k).isSome := by
  rw [get_setNext]
  by_cases h : k = a
  · rw [if_pos h, isSome_map, h]
  · rw [if_neg h]

theorem setPrev_path (st : Store) (a b k : Nat) :
    ((setPrev st a b).get k).map Node.path = (st.get k).map Node.path := by
  rw [get_setPrev]
  by_cases h : k = a
  · rw [if_pos h, mappath_prevmod, h]
  · rw [if_neg h]

theorem setPrev_value (st : Store) (a b k : Nat) :
    ((setPrev st a b).get k).map Node.value = (st.get k).map Node.value := by
  rw [get_setPrev]
  by_cases h : k = a
  · rw [if_pos h, mapvalue_prevmod, h]
  · rw [if_neg h]

theorem setPrev_isSome (st : Store) (a b k : Nat) :
    ((setPrev st a b).get k).isSome = (st.get k).isSome := by
  rw [get_setPrev]
  by_cases h : k = a
  · rw [if_pos h, isSome_map, h]
  · rw [if_neg h]

theorem setNext_keys (st : Store) (a b : Nat) :
    (setNext st a b).mem.map Prod.fst = st.mem.map Prod.fst := by
  show (modNode st.mem a (fun n => { n with next := b })).map Prod.fst =
    st.mem.map Prod.fst
  exact keys_modNode _ _ _

theorem setPrev_keys (st : Store) (a b : Nat) :
    (setPrev st a b).mem.map Prod.fst = st.mem.map Prod.fst := by
  show (modNode st.mem a (fun n => { n with prev := b })).map Prod.fst =
    st.mem.map Prod.fst
  exact keys_modNode _ _ _

/-! ### Computation and preservation lemmas for unsplice -/

theorem unsplice_get_none {st : Store} {p : Nat} (h : st.get p = none) :
    unsplice st p = st := by
  unfold unsplice
  rw [h]

theorem unsplice_eq {st : Store} {p : Nat} {n : Node} (h : st.get p = some n) :
    unsplice st p = setPrev (setNext st n.prev n.next) n.next n.prev := by
  unfold unsplice
  rw [h]
  show (match (setNext st n.prev n.next).get p with
        | none => setNext st n.prev n.next
        | some n2 => setPrev (setNext st n.prev n.next) n2.next n2.prev) =
    setPrev (setNext st n.prev n.next) n.next n.prev
  by_cases hpp : p = n.prev
  · have hg2 : (setNext st n.prev n.next).get p = some { n with next := n.next } := by
      rw [get_setNext, if_pos hpp, ← hpp, h, Option.map_some', hpp]
    rw [hg2]
  · rw [get_setNext, if_neg hpp, h]

theorem unsplice_path (st : Store) (p k : Nat) :
    ((unsplice st p).get k).map Node.path = (st.get k).map Node.path := by
  cases h : st.get p with
  | none => rw [unsplice_get_none h]
  | some n => rw [unsplice_eq h, setPrev_path, setNext_path]

theorem unsplice_value (st : Store) (p k : Nat) :
    ((unsplice st p).get k).map Node.value = (st.get k).map Node.value := by
  cases h : st.get p with
  | none => rw [unsplice_get_none h]
  | some n => rw [unsplice_eq h, setPrev_value, setNext_value]

theorem unsplice_isSome (st : Store) (p k : Nat) :
    ((unsplice st p).get k).isSome = (st.get k).isSome := by
  cases h : st.get p with
  | none => rw [unsplice_get_none h]
  | some n => rw [unsplice_eq h, setPrev_isSome, setNext_isSome]

theorem unsplice_head (st : Store) (p : Nat) : (unsplice st p).head = st.head := by
  cases h : st.get p with
  | none => rw [unsplice_get_none h]
  | some n => rw [unsplice_eq h, head_setPrev, head_setNext]

theorem unsplice_fresh (st : Store) (p : Nat) : (unsplice st p).fresh = st.fresh := by
  cases h : st.get p with
  | none => rw [unsplice_get_none h]
  | some n => rw [unsplice_eq h, fresh_setPrev, fresh_setNext]

theorem unsplice_keys (st : Store) (p : Nat) :
    (unsplice st p).mem.map Prod.fst = st.mem.map Prod.fst := by
  cases h : st.get p with
  | none => rw [unsplice_get_none h]
  | some n => rw [unsplice_eq h, setPrev_keys, setNext_keys]

theorem cyc_spliceOut {st : Store} {p z1 : Nat} {Z' : List Nat}
    (h : Cyc st (p :: z1 :: Z')) :
    Cyc (unsplice st p) (z1 :: Z') := by
  have hZne : z1 :: Z' ≠ [] := by simp
  obtain ⟨lC, hlC⟩ : ∃ lC, (z1 :: Z').getLast? = some lC :=
    ⟨_, List.getLast?_eq_getLast _ hZne⟩
  have hlC' : (z1 :: Z').getLast hZne = lC := by
    rw [List.getLast?_eq_getLast _ hZne, Option.some.injEq] at hlC
    exact hlC
  have hlC_mem : lC ∈ z1 :: Z' := hlC' ▸ List.getLast_mem hZne
  have hpZ : p ∉ z1 :: Z' := (List.nodup_cons.mp h.nodup).1
  have hZnd : (z1 :: Z').Nodup := (List.nodup_cons.mp h.nodup).2
  have hplC : p ≠ lC := fun hc => hpZ (hc ▸ hlC_mem)
  have hadj1 : adjacent st p z1 := (List.chain'_cons.mp (cyc_body_chain h)).1
  have hwrap : adjacent st lC p := by
    have hw := cyc_wrap_adj h
    rw [List.getLast_cons hZne, hlC'] at hw
    exact hw
  obtain ⟨n, hgp⟩ : ∃ n, st.get p = some n := by
    have h1 := hadj1.1
    cases hg : st.get p with
    | none =>
      rw [hg] at h1
      simp at h1
    | some n => exact ⟨n, rfl⟩
  have hnext : n.next = z1 := by
    have := hadj1.1
    rw [hgp, Option.map_some', Option.some.injEq] at this
    exact this
  have hprev : n.prev = lC := by
    have := hwrap.2
    rw [hgp, Option.map_some', Option.some.injEq] at this
    exact this
  have heq : unsplice st p = setPrev (setNext st lC z1) z1 lC := by
    rw [unsplice_eq hgp, hnext, hprev]
  have hz1S : (st.get z1).isSome := cyc_get_isSome h (by simp)
  have hlCS : (st.get lC).isSome := cyc_get_isSome h (List.mem_cons_of_mem _ hlC_mem)
  have GnextlC : ((unsplice st p).get lC).map Node.next = some z1 := by
    rw [heq, get_setPrev]
    by_cases hl1 : lC = z1
    · rw [if_pos hl1, mapnext_prevmod, get_setNext, if_pos hl1.symm,
        mapnext_nextmod _ _ hlCS]
    · rw [if_neg hl1, get_setNext, if_pos rfl, mapnext_nextmod _ _ hlCS]
  have Gprevz1 : ((unsplice st p).get z1).map Node.prev = some lC := by
    rw [heq, get_setPrev, if_pos rfl]
    refine mapprev_prevmod _ _ ?_
    rw [setNext_isSome]
    exact hz1S
  have GnextPres : ∀ k, k ≠ lC →
      ((unsplice st p).get k).map Node.next = (st.get k).map Node.next := by
    intro k hk
    rw [heq, get_setPrev]
    by_cases h1 : k = z1
    · rw [if_pos h1, mapnext_prevmod, get_setNext, if_neg (h1 ▸ hk : z1 ≠ lC), h1]
    · rw [if_neg h1, get_setNext, if_neg hk]
  have GprevPres : ∀ k, k ≠ z1 →
      ((unsplice st p).get k).map Node.prev = (st.get k).map Node.prev := by
    intro k hk
    rw [heq, get_setPrev, if_neg hk, get_setNext]
    by_cases h1 : k = lC
    · rw [if_pos h1, mapprev_nextmod, h1]
    · rw [if_neg h1]
  refine ⟨hZne, hZnd, ?_⟩
  show List.Chain' _ ((z1 :: Z') ++ [z1])
  refine List.chain'_append.mpr ⟨?_, List.chain'_singleton _, ?_⟩
  · refine chain'_imp_mem _ (List.chain'_cons.mp (cyc_body_chain h)).2 ?_
    rintro a b ha hb ⟨ha1, hb1⟩
    have halC : a ≠ lC := by
      intro hc
      refine nodup_getLast_not_mem_dropLast hZnd hZne ?_
      rw [hlC']
      exact hc ▸ ha
    have hbz1 : b ≠ z1 := by
      intro hc
      have hz : z1 ∈ Z' := by
        rw [← hc]
        simpa using hb
      exact (List.nodup_cons.mp hZnd).1 hz
    exact ⟨by rw [GnextPres a halC]; exact ha1, by rw [GprevPres b hbz1]; exact hb1⟩
  · intro a ha b hb
    rw [Option.mem_def, hlC, Option.some.injEq] at ha
    simp only [List.head?_cons, Option.mem_def, Option.some.injEq] at hb
    subst hb
    rw [← ha]
    exact ⟨GnextlC, Gprevz1⟩

/-! ### Computation and preservation lemmas for resplice -/

theorem resplice_get_none {st : Store} {p s : Nat} (h : st.get s = none) :
    resplice st p s = st := by
  unfold resplice
  rw [h]

theorem resplice_eq {st : Store} {p s : Nat} {sn : Node} (h : st.get s = some sn) :
    resplice st p s =
      setPrev (setNext (setPrev (setNext st sn.prev p) p sn.prev) p s) s p := by
  unfold resplice
  rw [h]
  show (match (setNext st sn.prev p).get s with
        | none => setNext st sn.prev p
        | some sn2 =>
          setPrev (setNext (setPrev (setNext st sn.prev p) p sn2.prev) p s) s p) =
    setPrev (setNext (setPrev (setNext st sn.prev p) p sn.prev) p s) s p
  by_cases hss : s = sn.prev
  · have hg2 : (setNext st sn.prev p).get s = some { sn with next := p } := by
      rw [get_setNext, if_pos hss, ← hss, h, Option.map_some', hss]
    rw [hg2]
  · rw [get_setNext, if_neg hss, h]

theorem resplice_path (st : Store) (p s k : Nat) :
    ((resplice st p s).get k).map Node.path = (st.get k).map Node.path := by
  cases h : st.get s with
  | none => rw [resplice_get_none h]
  | some sn => rw [resplice_eq h, setPrev_path, setNext_path, setPrev_path, setNext_path]

theorem resplice_value (st : Store) (p s k : Nat) :
    ((resplice st p s).get k).map Node.value = (st.get k).map Node.value := by
  cases h : st.get s with
  | none => rw [resplice_get_none h]
  | some sn =>
    rw [resplice_eq h, setPrev_value, setNext_value, setPrev_value, setNext_value]

theorem resplice_isSome (st : Store) (p s k : Nat) :
    ((resplice st p s).get k).isSome = (st.get k).isSome := by
  cases h : st.get s with
  | none => rw [resplice_get_none h]
  | some sn =>
    rw [resplice_eq h, setPrev_isSome, setNext_isSome, setPrev_isSome, setNext_isSome]

theorem resplice_head (st : Store) (p s : Nat) : (resplice st p s).head = st.head := by
  cases h : st.get s with
  | none => rw [resplice_get_none h]
  | some sn => rw [resplice_eq h, head_setPrev, head_setNext, head_setPrev, head_setNext]

theorem resplice_fresh (st : Store) (p s : Nat) : (resplice st p s).fresh = st.fresh := by
  cases h : st.get s with
  | none => rw [resplice_get_none h]
  | some sn =>
    rw [resplice_eq h, fresh_setPrev, fresh_setNext, fresh_setPrev, fresh_setNext]

theorem resplice_keys (st : Store) (p s : Nat) :
    (resplice st p s).mem.map Prod.fst = st.mem.map Prod.fst := by
  cases h : st.get s with
  | none => rw [resplice_get_none h]
  | some sn => rw [resplice_eq h, setPrev_keys, setNext_keys, setPrev_keys, setNext_keys]

theorem cyc_spliceIn {st : Store} {p s : Nat} {Z : List Nat}
    (h : Cyc st (s :: Z)) (hpS : (st.get p).isSome) (hpn : p ∉ s :: Z) :
    Cyc (resplice st p s) (p :: s :: Z) := by
  have hZne : s :: Z ≠ [] := by simp
  obtain ⟨lC, hlC⟩ : ∃ lC, (s :: Z).getLast? = some lC :=
    ⟨_, List.getLast?_eq_getLast _ hZne⟩
  have hlC' : (s :: Z).getLast hZne = lC := by
    rw [List.getLast?_eq_getLast _ hZne, Option.some.injEq] at hlC
    exact hlC
  have hlC_mem : lC ∈ s :: Z := hlC' ▸ List.getLast_mem hZne
  have hps : p ≠ s := fun hc => hpn (by rw [hc]; simp)
  have hplC : p ≠ lC := fun hc => hpn (hc ▸ hlC_mem)
  have hwrap : adjacent st lC s := by
    have hw := cyc_wrap_adj h
    rw [hlC'] at hw
    exact hw
  have hsS : (st.get s).isSome := cyc_get_isSome h (by simp)
  have hlCS : (st.get lC).isSome := cyc_get_isSome h hlC_mem
  obtain ⟨sn, hgs⟩ : ∃ sn, st.get s = some sn := by
    cases hg : st.get s with
    | none => rw [hg] at hsS; simp at hsS
    | some sn => exact ⟨sn, rfl⟩
  have hsnprev : sn.prev = lC := by
    have := hwrap.2
    rw [hgs, Option.map_some', Option.some.injEq] at this
    exact this
  have heq : resplice st p s =
      setPrev (setNext (setPrev (setNext st lC p) p lC) p s) s p := by
    rw [resplice_eq hgs, hsnprev]
  have GpNext : ((resplice st p s).get p).map Node.next = some s := by
    rw [heq, get_setPrev, if_neg hps, get_setNext, if_pos rfl]
    refine mapnext_nextmod _ _ ?_
    rw [get_setPrev, if_pos rfl, isSome_map, setNext_isSome]
    exact hpS
  have GpPrev : ((resplice st p s).get p).map Node.prev = some lC := by
    rw [heq, get_setPrev, if_neg hps, get_setNext, if_pos rfl, mapprev_nextmod,
      get_setPrev, if_pos rfl]
    refine mapprev_prevmod _ _ ?_
    rw [setNext_isSome]
    exact hpS
  have GsPrev : ((resplice st p s).get s).map Node.prev = some p := by
    rw [heq, get_setPrev, if_pos rfl]
    refine mapprev_prevmod _ _ ?_
    rw [setNext_isSome, setPrev_isSome, setNext_isSome]
    exact hsS
  have GlCNext : ((resplice st p s).get lC).map Node.next = some p := by
    by_cases hsl : s = lC
    · rw [heq, ← hsl, get_setPrev, if_pos rfl, mapnext_prevmod, get_setNext,
        if_neg (Ne.symm hps), get_setPrev, if_neg (Ne.symm hps), get_setNext,
        if_pos rfl]
      refine mapnext_nextmod _ _ ?_
      rw [hsl]
      exact hlCS
    · rw [heq, get_setPrev, if_neg (fun hc => hsl hc.symm), get_setNext,
        if_neg (fun hc => hplC hc.symm), get_setPrev,
        if_neg (fun hc => hplC hc.symm), get_setNext, if_pos rfl]
      exact mapnext_nextmod _ _ hlCS
  have GnextPres : ∀ k, k ≠ lC → k ≠ p →
      ((resplice st p s).get k).map Node.next = (st.get k).map Node.next := by
    intro k h1 h2
    rw [heq, get_setPrev]
    by_cases hks : k = s
    · rw [if_pos hks, mapnext_prevmod, get_setNext, if_neg (hks ▸ h2 : s ≠ p),
        get_setPrev, if_neg (hks ▸ h2 : s ≠ p), get_setNext,
        if_neg (hks ▸ h1 : s ≠ lC), hks]
    · rw [if_neg hks, get_setNext, if_neg h2, get_setPrev, if_neg h2,
        get_setNext, if_neg h1]
  have GprevPres : ∀ k, k ≠ s → k ≠ p →
      ((resplice st p s).get k).map Node.prev = (st.get k).map Node.prev := by
    intro k h1 h2
    rw [heq, get_setPrev, if_neg h1, get_setNext, if_neg h2, get_setPrev,
      if_neg h2, get_setNext]
    by_cases hkl : k = lC
    · rw [if_pos hkl, mapprev_nextmod, hkl]
    · rw [if_neg hkl]
  refine ⟨by simp, List.nodup_cons.mpr ⟨hpn, h.nodup⟩, ?_⟩
  show List.Chain' _ ((p :: s :: Z) ++ [p])
  rw [List.cons_append]
  refine List.chain'_cons'.mpr ⟨?_, ?_⟩
  · intro y hy
    simp only [List.cons_append, List.head?_cons, Option.mem_def,
      Option.some.injEq] at hy
    subst hy
    exact ⟨GpNext, GsPrev⟩
  · refine List.chain'_append.mpr ⟨?_, List.chain'_singleton _, ?_⟩
    · refine chain'_imp_mem _ (cyc_body_chain h) ?_
      rintro a b ha hb ⟨ha1, hb1⟩
      have halC : a ≠ lC := by
        intro hc
        refine nodup_getLast_not_mem_dropLast h.nodup hZne ?_
        rw [hlC']
        exact hc ▸ ha
      have hap : a ≠ p := by
        intro hc
        exact hpn (hc ▸ (List.dropLast_sublist _).subset ha)
      have hbs : b ≠ s := by
        intro hc
        have hz : s ∈ Z := by
          rw [← hc]
          simpa using hb
        exact (List.nodup_cons.mp h.nodup).1 hz
      have hbp : b ≠ p := by
        intro hc
        exact hpn (hc ▸ (List.tail_sublist _).subset hb)
      exact ⟨by rw [GnextPres a halC hap]; exact ha1,
        by rw [GprevPres b hbs hbp]; exact hb1⟩
    · intro a ha b hb
      rw [Option.mem_def, hlC, Option.some.injEq] at ha
      simp only [List.head?_cons, Option.mem_def, Option.some.injEq] at hb
      subst hb
      rw [← ha]
      exact ⟨GlCNext, GpPrev⟩

theorem cyc_spliceOut' {st : Store} {p : Nat} {Z : List Nat}
    (h : Cyc st (p :: Z)) (hZ : Z ≠ []) : Cyc (unsplice st p) Z := by
  cases Z with
  | nil => exact absurd rfl hZ
  | cons z1 Z' => exact cyc_spliceOut h

/-! ### Deallocation -/

theorem get_dealloc (st : Store) (e k : Nat) :
    (dealloc st e).get k = if k = e then none else st.get k := by
  show aget (st.mem.filter (fun q => decide (q.1 ≠ e))) k = _
  exact aget_filter_ne st.mem e k

theorem dealloc_head (st : Store) (e : Nat) : (dealloc st e).head = st.head := rfl

theorem dealloc_fresh (st : Store) (e : Nat) : (dealloc st e).fresh = st.fresh := rfl

theorem keys_filter_ne (m : List (Nat × Node)) (e : Nat) :
    (m.filter (fun q => decide (q.1 ≠ e))).map Prod.fst =
      (m.map Prod.fst).filter (fun k => decide (k ≠ e)) := by
  induction m with
  | nil => rfl
  | cons hd tl ih =>
    rw [List.filter_cons, List.map_cons, List.filter_cons]
    by_cases hc : hd.1 = e
    · have c1 : decide (hd.1 ≠ e) = false := by simp [hc]
      rw [c1, if_neg Bool.false_ne_true, if_neg Bool.false_ne_true]
      exact ih
    · have c1 : decide (hd.1 ≠ e) = true := by simp [hc]
      rw [c1, if_pos rfl, if_pos rfl, List.map_cons, ih]

theorem dealloc_keys (st : Store) (e : Nat) :
    (dealloc st e).mem.map Prod.fst =
      (st.mem.map Prod.fst).filter (fun k => decide (k ≠ e)) := by
  show (st.mem.filter (fun q => decide (q.1 ≠ e))).map Prod.fst = _
  exact keys_filter_ne st.mem e

theorem cyc_dealloc {st : Store} {C : List Nat} {e : Nat} (h : Cyc st C)
    (he : e ∉ C) : Cyc (dealloc st e) C := by
  refine ⟨h.ne, h.nodup, ?_⟩
  refine chain'_imp_mem _ h.chain ?_
  rintro a b ha hb ⟨h1, h2⟩
  have haC : a ∈ C := by
    have hm := (List.dropLast_sublist (C ++ C.take 1)).subset ha
    rcases List.mem_append.mp hm with h3 | h3
    · exact h3
    · exact (List.take_sublist _ _).subset h3
  have hbC : b ∈ C := by
    have hm := (List.tail_sublist (C ++ C.take 1)).subset hb
    rcases List.mem_append.mp hm with h3 | h3
    · exact h3
    · exact (List.take_sublist _ _).subset h3
  have hae : a ≠ e := fun hc => he (hc ▸ haC)
  have hbe : b ≠ e := fun hc => he (hc ▸ hbC)
  exact ⟨by rw [get_dealloc, if_neg hae]; exact h1,
    by rw [get_dealloc, if_neg hbe]; exact h2⟩

theorem free_eq {st : Store} {e : Nat} {n : Node} (h : st.get e = some n) :
    aug_entry_free st e = dealloc (unsplice st e) e := by
  rw [unsplice_eq h]
  unfold aug_entry_free
  rw [h]
  show (match (setNext st n.prev n.next).get e with
        | none => setNext st n.prev n.next
        | some n2 =>
          { setPrev (setNext st n.prev n.next) n2.next n2.prev with
            mem := (setPrev (setNext st n.prev n.next) n2.next n2.prev).mem.filter
              (fun q => decide (q.1 ≠ e)) }) =
    dealloc (setPrev (setNext st n.prev n.next) n.next n.prev) e
  by_cases hpp : e = n.prev
  · have hg2 : (setNext st n.prev n.next).get e = some { n with next := n.next } := by
      rw [get_setNext, if_pos hpp, ← hpp, h, Option.map_some', hpp]
    rw [hg2]
    rfl
  · rw [get_setNext, if_neg hpp, h]
    rfl

theorem free_rep {st : Store} {L : List Nat} (h : Rep st L) {e : Nat}
    (he : e ∈ L) (heh : e ≠ st.head) :
    Rep (aug_entry_free st e) (L.erase e) ∧
      (aug_entry_free st e).head = st.head ∧
      (aug_entry_free st e).fresh = st.fresh ∧
      (∀ k, k ≠ e →
        ((aug_entry_free st e).get k).map Node.path = (st.get k).map Node.path ∧
        ((aug_entry_free st e).get k).map Node.value = (st.get k).map Node.value) ∧
      (aug_entry_free st e).get e = none := by
  obtain ⟨A, B, rfl, hA⟩ := mem_split_first h.nodup he
  obtain ⟨a0, A2, rfl⟩ : ∃ a0 A2, A = a0 :: A2 := by
    cases A with
    | nil =>
      exfalso
      have hh := h.hd
      simp at hh
      exact heh hh
    | cons a0 A2 => exact ⟨a0, A2, rfl⟩
  have ha0 : a0 = st.head := by
    have hh := h.hd
    simpa using hh
  have hgeS : (st.get e).isSome := cyc_get_isSome h.toCyc he
  obtain ⟨n, hge⟩ := Option.isSome_iff_exists.mp hgeS
  have hfeq : aug_entry_free st e = dealloc (unsplice st e) e := free_eq hge
  have hcyc0 : Cyc st ((e :: B) ++ (a0 :: A2)) := cyc_rotate h.toCyc
  have hBAne : B ++ a0 :: A2 ≠ [] := by simp
  have hcyc1 : Cyc (unsplice st e) (B ++ a0 :: A2) := cyc_spliceOut' hcyc0 hBAne
  have heBA : e ∉ B ++ a0 :: A2 := (List.nodup_cons.mp hcyc0.nodup).1
  have hcyc2 : Cyc (dealloc (unsplice st e) e) (B ++ a0 :: A2) := cyc_dealloc hcyc1 heBA
  have hcyc3 : Cyc (dealloc (unsplice st e) e) ((a0 :: A2) ++ B) := cyc_rotate hcyc2
  have hH : (dealloc (unsplice st e) e).head = st.head := by
    rw [dealloc_head, unsplice_head]
  have hF : (dealloc (unsplice st e) e).fresh = st.fresh := by
    rw [dealloc_fresh, unsplice_fresh]
  have heA : e ∉ a0 :: A2 := hA
  have heB : e ∉ B := by
    have hnd := h.nodup
    rw [List.nodup_append] at hnd
    exact (List.nodup_cons.mp hnd.2.1).1
  have hErase : ((a0 :: A2) ++ e :: B).erase e = (a0 :: A2) ++ B := by
    rw [List.erase_append_right _ heA, List.erase_cons_head]
  have hfilter : ((a0 :: A2) ++ e :: B).filter (fun k => decide (k ≠ e)) =
      (a0 :: A2) ++ B := by
    have h1 : (a0 :: A2).filter (fun k => decide (k ≠ e)) = a0 :: A2 :=
      List.filter_eq_self.mpr (fun x hx => by
        simp only [decide_eq_true_eq]
        exact fun hc => heA (hc ▸ hx))
    have h2 : B.filter (fun k => decide (k ≠ e)) = B :=
      List.filter_eq_self.mpr (fun x hx => by
        simp only [decide_eq_true_eq]
        exact fun hc => heB (hc ▸ hx))
    rw [List.filter_append, h1, List.filter_cons, h2]
    simp
  have hkeys : List.Perm ((dealloc (unsplice st e) e).mem.map Prod.fst)
      ((a0 :: A2) ++ B) := by
    rw [dealloc_keys, unsplice_keys, ← hfilter]
    exact List.Perm.filter _ h.keys
  have hfresh : ∀ k ∈ (dealloc (unsplice st e) e).head :: (A2 ++ B),
      k < (dealloc (unsplice st e) e).fresh := by
    intro k hk
    rw [hF]
    refine h.freshB k ?_
    rw [hH, ← ha0] at hk
    rcases List.mem_cons.mp hk with h1 | h1
    · rw [h1]
      simp
    · rcases List.mem_append.mp h1 with h2 | h2
      · exact List.mem_append.mpr (Or.inl (List.mem_cons_of_mem _ h2))
      · exact List.mem_append.mpr (Or.inr (List.mem_cons_of_mem _ h2))
  have hcyc4 : Cyc (dealloc (unsplice st e) e)
      ((dealloc (unsplice st e) e).head :: (A2 ++ B)) := by
    rw [hH, ← ha0]
    exact hcyc3
  have hkeys4 : List.Perm ((dealloc (unsplice st e) e).mem.map Prod.fst)
      ((dealloc (unsplice st e) e).head :: (A2 ++ B)) := by
    rw [hH, ← ha0]
    exact hkeys
  have hrep' := cyc_to_rep hcyc4 hkeys4 hfresh
  refine ⟨?_, by rw [hfeq]; exact hH, by rw [hfeq]; exact hF, ?_, ?_⟩
  · rw [hfeq, hErase]
    have hr : Rep (dealloc (unsplice st e) e) (a0 :: (A2 ++ B)) := by
      have hhh : a0 = (dealloc (unsplice st e) e).head := by
        rw [hH]
        exact ha0
      rw [hhh]
      exact hrep'
    exact hr
  · intro k hk
    constructor
    · rw [hfeq, get_dealloc, if_neg hk, unsplice_path]
    · rw [hfeq, get_dealloc, if_neg hk, unsplice_value]
  · rw [hfeq, get_dealloc, if_pos rfl]

/-! ### The relink branch of aug_insert -/

theorem relink_get_none {st : Store} {p s : Nat} (h : st.get p = none) :
    relinkEntry st p s = st := by
  unfold relinkEntry
  rw [h]

theorem resplice_match_eq (st2 : Store) (p s : Nat) :
    (match st2.get s with
     | none => st2
     | some sn =>
       match (setNext st2 sn.prev p).get s with
       | none => setNext st2 sn.prev p
       | some sn2 =>
         setPrev (setNext (setPrev (setNext st2 sn.prev p) p sn2.prev) p s) s p) =
    resplice st2 p s := by
  cases hgs : st2.get s with
  | none => rw [resplice_get_none hgs]
  | some sn =>
    show (match (setNext st2 sn.prev p).get s with
          | none => setNext st2 sn.prev p
          | some sn2 =>
            setPrev (setNext (setPrev (setNext st2 sn.prev p) p sn2.prev) p s) s p) =
      resplice st2 p s
    rw [resplice_eq hgs]
    by_cases hss : s = sn.prev
    · have hg2 : (setNext st2 sn.prev p).get s = some { sn with next := p } := by
        rw [get_setNext, if_pos hss, ← hss, hgs, Option.map_some', hss]
      rw [hg2]
    · rw [get_setNext, if_neg hss, hgs]

theorem relink_eq {st : Store} {p s : Nat} {n : Node} (hp : st.get p = some n) :
    relinkEntry st p s = resplice (unsplice st p) p s := by
  rw [unsplice_eq hp]
  unfold relinkEntry
  rw [hp]
  show (match (setNext st n.prev n.next).get p with
        | none => setNext st n.prev n.next
        | some pn2 =>
          match (setPrev (setNext st n.prev n.next) pn2.next pn2.prev).get s with
          | none => setPrev (setNext st n.prev n.next) pn2.next pn2.prev
          | some sn =>
            match (setNext (setPrev (setNext st n.prev n.next) pn2.next pn2.prev)
                sn.prev p).get s with
            | none =>
              setNext (setPrev (setNext st n.prev n.next) pn2.next pn2.prev) sn.prev p
            | some sn2 =>
              setPrev (setNext (setPrev (setNext
                (setPrev (setNext st n.prev n.next) pn2.next pn2.prev)
                sn.prev p) p sn2.prev) p s) s p) =
      resplice (setPrev (setNext st n.prev n.next) n.next n.prev) p s
  by_cases hpp : p = n.prev
  · have hg2 : (setNext st n.prev n.next).get p = some { n with next := n.next } := by
      rw [get_setNext, if_pos hpp, ← hpp, hp, Option.map_some', hpp]
    rw [hg2]
    exact resplice_match_eq (setPrev (setNext st n.prev n.next) n.next n.prev) p s
  · rw [get_setNext, if_neg hpp, hp]
    exact resplice_match_eq (setPrev (setNext st n.prev n.next) n.next n.prev) p s

theorem relink_path (st : Store) (p s k : Nat) :
    ((relinkEntry st p s).get k).map Node.path = (st.get k).map Node.path := by
  cases h : st.get p with
  | none => rw [relink_get_none h]
  | some n => rw [relink_eq h, resplice_path, unsplice_path]

theorem relink_value (st : Store) (p s k : Nat) :
    ((relinkEntry st p s).get k).map Node.value = (st.get k).map Node.value := by
  cases h : st.get p with
  | none => rw [relink_get_none h]
  | some n => rw [relink_eq h, resplice_value, unsplice_value]

theorem relink_head (st : Store) (p s : Nat) : (relinkEntry st p s).head = st.head := by
  cases h : st.get p with
  | none => rw [relink_get_none h]
  | some n => rw [relink_eq h, resplice_head, unsplice_head]

theorem relink_fresh (st : Store) (p s : Nat) :
    (relinkEntry st p s).fresh = st.fresh := by
  cases h : st.get p with
  | none => rw [relink_get_none h]
  | some n => rw [relink_eq h, resplice_fresh, unsplice_fresh]

theorem relink_keys (st : Store) (p s : Nat) :
    (relinkEntry st p s).mem.map Prod.fst = st.mem.map Prod.fst := by
  cases h : st.get p with
  | none => rw [relink_get_none h]
  | some n => rw [relink_eq h, resplice_keys, unsplice_keys]

theorem relink_rep {st : Store} {L : List Nat} (h : Rep st L) {p s : Nat}
    (hp : p ∈ L) (hs : s ∈ L) (hps : p ≠ s) :
    ∃ L', Rep (relinkEntry st p s) L' ∧ List.Perm L' L := by
  obtain ⟨A, B, rfl, hA⟩ := mem_split_first h.nodup hp
  have hpS : (st.get p).isSome := cyc_get_isSome h.toCyc hp
  obtain ⟨n, hgp⟩ := Option.isSome_iff_exists.mp hpS
  have hcyc0 : Cyc st ((p :: B) ++ A) := cyc_rotate h.toCyc
  have hsBA : s ∈ B ++ A := by
    rcases List.mem_append.mp hs with h1 | h1
    · exact List.mem_append.mpr (Or.inr h1)
    · rcases List.mem_cons.mp h1 with h2 | h2
      · exact absurd h2.symm hps
      · exact List.mem_append.mpr (Or.inl h2)
  have hBAne : B ++ A ≠ [] := List.ne_nil_of_mem hsBA
  have hcyc1 : Cyc (unsplice st p) (B ++ A) := cyc_spliceOut' hcyc0 hBAne
  have hndpBA := hcyc0.nodup
  have hpBA : p ∉ B ++ A := (List.nodup_cons.mp hndpBA).1
  have hndBA : (B ++ A).Nodup := (List.nodup_cons.mp hndpBA).2
  obtain ⟨C, D, hCD, hC⟩ := mem_split_first hndBA hsBA
  have hcyc2 : Cyc (unsplice st p) ((s :: D) ++ C) := by
    rw [hCD] at hcyc1
    exact cyc_rotate hcyc1
  have hpS1 : ((unsplice st p).get p).isSome := by
    rw [unsplice_isSome]
    exact hpS
  have hpn2 : p ∉ s :: (D ++ C) := by
    intro hc
    rcases List.mem_cons.mp hc with h1 | h1
    · exact hps h1
    · apply hpBA
      rw [hCD]
      rcases List.mem_append.mp h1 with h2 | h2
      · exact List.mem_append.mpr (Or.inr (List.mem_cons_of_mem _ h2))
      · exact List.mem_append.mpr (Or.inl h2)
  have hcyc3 : Cyc (resplice (unsplice st p) p s) (p :: s :: (D ++ C)) :=
    cyc_spliceIn hcyc2 hpS1 hpn2
  have heq : relinkEntry st p s = resplice (unsplice st p) p s := relink_eq hgp
  have perm1 : List.Perm (A ++ p :: B) (p :: (B ++ A)) := List.perm_append_comm
  have perm2 : List.Perm (B ++ A) (s :: (D ++ C)) := by
    rw [hCD]
    exact List.perm_append_comm
  have perm3 : List.Perm (p :: s :: (D ++ C)) (A ++ p :: B) :=
    (List.Perm.cons p perm2.symm).trans perm1.symm
  have hhm : st.head ∈ p :: s :: (D ++ C) := perm3.mem_iff.mpr (rep_head_mem h)
  obtain ⟨U, V, hUV, hU⟩ := mem_split_first hcyc3.nodup hhm
  have hcyc4 : Cyc (resplice (unsplice st p) p s) ((st.head :: V) ++ U) := by
    rw [hUV] at hcyc3
    exact cyc_rotate hcyc3
  have perm4 : List.Perm (st.head :: (V ++ U)) (A ++ p :: B) := by
    have p5 : List.Perm (U ++ st.head :: V) (st.head :: (V ++ U)) :=
      List.perm_append_comm
    refine p5.symm.trans ?_
    rw [← hUV]
    exact perm3
  have hH : (resplice (unsplice st p) p s).head = st.head := by
    rw [resplice_head, unsplice_head]
  have hFr : (resplice (unsplice st p) p s).fresh = st.fresh := by
    rw [resplice_fresh, unsplice_fresh]
  have hkeys : List.Perm ((resplice (unsplice st p) p s).mem.map Prod.fst)
      ((resplice (unsplice st p) p s).head :: (V ++ U)) := by
    rw [resplice_keys, unsplice_keys, hH]
    exact h.keys.trans perm4.symm
  have hfresh : ∀ k ∈ (resplice (unsplice st p) p s).head :: (V ++ U),
      k < (resplice (unsplice st p) p s).fresh := by
    intro k hk
    rw [hFr]
    refine h.freshB k ?_
    rw [hH] at hk
    exact perm4.mem_iff.mp hk
  have hcyc5 : Cyc (resplice (unsplice st p) p s)
      ((resplice (unsplice st p) p s).head :: (V ++ U)) := by
    rw [hH]
    exact hcyc4
  have hrep := cyc_to_rep hcyc5 hkeys hfresh
  refine ⟨(resplice (unsplice st p) p s).head :: (V ++ U), ?_, ?_⟩
  · rw [heq]
    exact hrep
  · rw [hH]
    exact perm4

/-! ### The removal loop of aug_rm -/

theorem rep_succ {st : Store} {L : List Nat} (h : Rep st L) (X Y : List Nat) (c : Nat)
    (hL : L = X ++ c :: Y) : adjacent st c ((Y ++ [st.head]).headI) := by
  have hch := h.chain
  rw [hL, List.append_assoc] at hch
  have hsuf : List.Chain' (adjacent st) ((c :: Y) ++ [st.head]) :=
    (List.chain'_append.mp hch).2.1
  cases Y with
  | nil => exact (List.chain'_cons.mp hsuf).1
  | cons y Y' => exact (List.chain'_cons.mp hsuf).1

theorem entMatch_congr {st st' : Store} {q : Path} {k : Nat}
    (h : (st'.get k).map Node.path = (st.get k).map Node.path) :
    entMatch st' q k = entMatch st q k := by
  unfold entMatch
  cases h1 : st'.get k with
  | none =>
    cases h2 : st.get k with
    | none => rfl
    | some n =>
      rw [h1, h2] at h
      simp at h
  | some n' =>
    cases h2 : st.get k with
    | none =>
      rw [h1, h2] at h
      simp at h
    | some n =>
      rw [h1, h2] at h
      simp only [Option.map_some', Option.some.injEq] at h
      show rmMatch q n'.path = rmMatch q n.path
      rw [h]

theorem rmLoop_succ (q : Path) (f : Nat) (st : Store) (cnt p : Nat) :
    rmLoop q (f + 1) (st, cnt) p =
      match st.get st.head with
      | none => (st, cnt)
      | some hn =>
        if p == hn.next then (st, cnt)
        else
          match st.get p with
          | none => (st, cnt)
          | some pn =>
            match st.get pn.prev with
            | none => (st, cnt)
            | some prevN =>
              let acc' :=
                if rmMatch q prevN.path then (aug_entry_free st pn.prev, cnt + 1)
                else (st, cnt)
              match acc'.1.get p with
              | none => acc'
              | some pn' => rmLoop q f acc' pn'.next := rfl

theorem rmLoop_stop (q : Path) (st : Store) (cnt fuel : Nat) {hn : Node}
    (hh : st.get st.head = some hn) (hf : 1 ≤ fuel) :
    rmLoop q fuel (st, cnt) hn.next = (st, cnt) := by
  cases fuel with
  | zero => omega
  | succ f =>
    rw [rmLoop_succ, hh]
    simp

theorem rmLoop_step (q : Path) (f : Nat) (st : Store) (cnt p : Nat)
    {hn pn prevN : Node}
    (hh : st.get st.head = some hn) (hne : p ≠ hn.next)
    (hp : st.get p = some pn) (hprev : st.get pn.prev = some prevN)
    (acc' : Store × Nat)
    (hacc : acc' = (if rmMatch q prevN.path then (aug_entry_free st pn.prev, cnt + 1)
      else (st, cnt)))
    {pn' : Node} (hget2 : acc'.1.get p = some pn') :
    rmLoop q (f + 1) (st, cnt) p = rmLoop q f acc' pn'.next := by
  rw [rmLoop_succ, hh]
  show (if (p == hn.next) = true then ((st, cnt) : Store × Nat)
        else match st.get p with
          | none => (st, cnt)
          | some pn =>
            match st.get pn.prev with
            | none => (st, cnt)
            | some prevN =>
              let acc2 :=
                if rmMatch q prevN.path then (aug_entry_free st pn.prev, cnt + 1)
                else (st, cnt)
              match acc2.1.get p with
              | none => acc2
              | some pn2 => rmLoop q f acc2 pn2.next) = rmLoop q f acc' pn'.next
  rw [if_neg (by simp [hne] : ¬((p == hn.next) = true)), hp]
  show (match st.get pn.prev with
        | none => ((st, cnt) : Store × Nat)
        | some prevN =>
          let acc2 :=
            if rmMatch q prevN.path then (aug_entry_free st pn.prev, cnt + 1)
            else (st, cnt)
          match acc2.1.get p with
          | none => acc2
          | some pn2 => rmLoop q f acc2 pn2.next) = rmLoop q f acc' pn'.next
  rw [hprev]
  show (match (if rmMatch q prevN.path then (aug_entry_free st pn.prev, cnt + 1)
          else (st, cnt)).1.get p with
        | none => (if rmMatch q prevN.path then (aug_entry_free st pn.prev, cnt + 1)
          else (st, cnt))
        | some pn2 => rmLoop q f (if rmMatch q prevN.path then
            (aug_entry_free st pn.prev, cnt + 1) else (st, cnt)) pn2.next) =
    rmLoop q f acc' pn'.next
  rw [← hacc, hget2]

theorem rmLoop_go (q : Path) : ∀ (S : List Nat) (st : Store) (A : List Nat)
    (cnt fuel : Nat), Rep st (st.head :: (A ++ S)) → S.length + 1 ≤ fuel → S ≠ [] →
    ∃ st', rmLoop q fuel (st, cnt) ((S.tail ++ [st.head]).headI) =
        (st', cnt + (S.filter (entMatch st q)).length) ∧
      Rep st' (st'.head :: (A ++ S.filter (fun k => !(entMatch st q k)))) ∧
      st'.head = st.head ∧ st'.fresh = st.fresh ∧
      (∀ k, k ∉ S.filter (entMatch st q) →
        (st'.get k).map Node.path = (st.get k).map Node.path ∧
        (st'.get k).map Node.value = (st.get k).map Node.value) ∧
      (∀ k ∈ S.filter (entMatch st q), st'.get k = none) := by
  intro S
  induction S with
  | nil =>
    intro st A cnt fuel _ _ hne
    exact absurd rfl hne
  | cons s0 S' ih =>
    intro st A cnt fuel hrep hfuel _
    obtain ⟨f, rfl⟩ : ∃ f, fuel = f + 1 := ⟨fuel - 1, by omega⟩
    have hheadS : (st.get st.head).isSome := cyc_get_isSome hrep.toCyc (by simp)
    obtain ⟨hn, hh⟩ := Option.isSome_iff_exists.mp hheadS
    have hadj_s0 : adjacent st s0 ((S' ++ [st.head]).headI) :=
      rep_succ hrep (st.head :: A) S' s0 rfl
    have hnd := hrep.nodup
    have hhR : st.head ∉ A ++ s0 :: S' := (List.nodup_cons.mp hnd).1
    have hndR : (A ++ s0 :: S').Nodup := (List.nodup_cons.mp hnd).2
    have hndR2 := hndR
    rw [List.nodup_append] at hndR2
    have hs0A : s0 ∉ A := fun hc => hndR2.2.2 hc (by simp)
    have hs0S' : s0 ∉ S' := (List.nodup_cons.mp hndR2.2.1).1
    have hs0h : s0 ≠ st.head :=
      fun hc => hhR (hc ▸ (List.mem_append.mpr (Or.inr (by simp)) :
        s0 ∈ A ++ s0 :: S'))
    have hs0mem : s0 ∈ st.head :: (A ++ s0 :: S') := by simp
    have hpchar : (S' ++ [st.head]).headI = st.head ∨
        (S' ++ [st.head]).headI ∈ S' := by
      cases S' with
      | nil => exact Or.inl rfl
      | cons c S'' => exact Or.inr (by simp)
    have hadjh : adjacent st st.head (((A ++ s0 :: S') ++ [st.head]).headI) :=
      rep_succ hrep [] (A ++ s0 :: S') st.head rfl
    have hnnext : hn.next = ((A ++ s0 :: S') ++ [st.head]).headI := by
      have h1 := hadjh.1
      rw [hh, Option.map_some', Option.some.injEq] at h1
      exact h1
    have hnextchar : hn.next = s0 ∨ hn.next ∈ A := by
      rw [hnnext]
      cases A with
      | nil => exact Or.inl rfl
      | cons a A2 => exact Or.inr (by simp)
    have hpne : (S' ++ [st.head]).headI ≠ hn.next := by
      rcases hpchar with h1 | h1 <;> rcases hnextchar with h2 | h2
      · rw [h1, h2]
        exact Ne.symm hs0h
      · rw [h1]
        exact fun hc => hhR (hc ▸ List.mem_append.mpr (Or.inl h2))
      · rw [h2]
        exact fun hc => hs0S' (hc ▸ h1)
      · intro hc
        refine hndR2.2.2 h2 ?_
        rw [← hc]
        exact List.mem_cons_of_mem _ h1
    have hpmem : (S' ++ [st.head]).headI ∈ st.head :: (A ++ s0 :: S') := by
      rcases hpchar with h1 | h1
      · rw [h1]
        simp
      · exact List.mem_cons_of_mem _
          (List.mem_append.mpr (Or.inr (List.mem_cons_of_mem _ h1)))
    have hgpS : (st.get ((S' ++ [st.head]).headI)).isSome :=
      cyc_get_isSome hrep.toCyc hpmem
    obtain ⟨pn, hp⟩ := Option.isSome_iff_exists.mp hgpS
    have hpnprev : pn.prev = s0 := by
      have h1 := hadj_s0.2
      rw [hp, Option.map_some', Option.some.injEq] at h1
      exact h1
    have hgs0S : (st.get s0).isSome := cyc_get_isSome hrep.toCyc hs0mem
    obtain ⟨n0, hgs0⟩ := Option.isSome_iff_exists.mp hgs0S
    have hprevN : st.get pn.prev = some n0 := by
      rw [hpnprev]
      exact hgs0
    have hent : entMatch st q s0 = rmMatch q n0.path := by
      unfold entMatch
      rw [hgs0]
    by_cases hm : rmMatch q n0.path = true
    · have hfree := free_rep hrep (e := s0) hs0mem hs0h
      obtain ⟨hfRep, hfH, hfF, hfPres, hfNone⟩ := hfree
      have hErase2 : (st.head :: (A ++ s0 :: S')).erase s0 = st.head :: (A ++ S') := by
        rw [List.erase_cons_tail (by simp [Ne.symm hs0h]),
          List.erase_append_right _ hs0A, List.erase_cons_head]
      rw [hErase2] at hfRep
      have hfc : (s0 :: S').filter (entMatch st q) =
          s0 :: S'.filter (entMatch st q) := by
        rw [List.filter_cons,
          if_pos (show entMatch st q s0 = true by rw [hent]; exact hm)]
      have hfcn : (s0 :: S').filter (fun k => !(entMatch st q k)) =
          S'.filter (fun k => !(entMatch st q k)) := by
        rw [List.filter_cons,
          if_neg (show ¬((!(entMatch st q s0)) = true) by rw [hent, hm]; simp)]
      have hacc : ((aug_entry_free st s0, cnt + 1) : Store × Nat) =
          (if rmMatch q n0.path then (aug_entry_free st pn.prev, cnt + 1)
            else (st, cnt)) := by
        rw [if_pos hm, hpnprev]
      cases S' with
      | nil =>
        have hgfh : ((aug_entry_free st s0).get
            ((aug_entry_free st s0).head)).isSome := by
          refine cyc_get_isSome hfRep.toCyc ?_
          rw [hfH]
          simp
        obtain ⟨pn1, hget2⟩ := Option.isSome_iff_exists.mp hgfh
        have hget2' : (aug_entry_free st s0).get st.head = some pn1 := by
          rw [← hfH]
          exact hget2
        have hstep := rmLoop_step q f st cnt st.head hh
          (by simpa using hpne) hp hprevN (aug_entry_free st s0, cnt + 1) hacc
          (show ((aug_entry_free st s0, cnt + 1) : Store × Nat).1.get st.head =
            some pn1 from hget2')
        have hstop : rmLoop q f (aug_entry_free st s0, cnt + 1) pn1.next =
            (aug_entry_free st s0, cnt + 1) := by
          refine rmLoop_stop q _ _ f hget2 ?_
          simp at hfuel
          omega
        refine ⟨aug_entry_free st s0, ?_, ?_, hfH, hfF, ?_, ?_⟩
        · show rmLoop q (f + 1) (st, cnt) st.head = _
          rw [hstep]
          have hpn1eq : rmLoop q f (aug_entry_free st s0, cnt + 1) pn1.next =
              (aug_entry_free st s0, cnt + 1) := hstop
          rw [hpn1eq, hfc]
          simp
        · rw [hfcn]
          show Rep (aug_entry_free st s0) ((aug_entry_free st s0).head ::
            (A ++ List.filter (fun k => !(entMatch st q k)) []))
          rw [hfH]
          simpa using hfRep
        · intro k hk
          rw [hfc] at hk
          simp at hk
          exact hfPres k hk
        · intro k hk
          rw [hfc] at hk
          simp at hk
          rw [hk]
          exact hfNone
      | cons c S'' =>
        have hrep1 : Rep (aug_entry_free st s0)
            ((aug_entry_free st s0).head :: (A ++ c :: S'')) := by
          rw [hfH]
          exact hfRep
        have hget2S : ((aug_entry_free st s0).get c).isSome := by
          refine cyc_get_isSome hrep1.toCyc ?_
          simp
        obtain ⟨pn1, hget2⟩ := Option.isSome_iff_exists.mp hget2S
        have hadj_c : adjacent (aug_entry_free st s0) c
            ((S'' ++ [(aug_entry_free st s0).head]).headI) :=
          rep_succ hrep1 ((aug_entry_free st s0).head :: A) S'' c rfl
        have hpn1next : pn1.next = (S'' ++ [st.head]).headI := by
          have h1 := hadj_c.1
          rw [hget2, Option.map_some', Option.some.injEq, hfH] at h1
          exact h1
        have hstep := rmLoop_step q f st cnt c hh (by simpa using hpne) hp hprevN
          (aug_entry_free st s0, cnt + 1) hacc
          (show ((aug_entry_free st s0, cnt + 1) : Store × Nat).1.get c = some pn1
            from hget2)
        have ihres := ih (aug_entry_free st s0) A (cnt + 1) f
          hrep1 (by simp at hfuel ⊢; omega) (by simp)
        obtain ⟨st2, ihEq, ihRep, ihH, ihF, ihPres, ihNone⟩ := ihres
        have hconv : ∀ k ∈ c :: S'', entMatch (aug_entry_free st s0) q k =
            entMatch st q k := by
          intro k hk
          have hks0 : k ≠ s0 := fun hc => hs0S' (hc ▸ hk)
          exact entMatch_congr (hfPres k hks0).1
        have hfilt1 : (c :: S'').filter (entMatch (aug_entry_free st s0) q) =
            (c :: S'').filter (entMatch st q) := List.filter_congr hconv
        have hfilt2 : (c :: S'').filter
              (fun k => !(entMatch (aug_entry_free st s0) q k)) =
            (c :: S'').filter (fun k => !(entMatch st q k)) :=
          List.filter_congr (fun k hk => by rw [hconv k hk])
        refine ⟨st2, ?_, ?_, by rw [ihH, hfH], by rw [ihF, hfF], ?_, ?_⟩
        · show rmLoop q (f + 1) (st, cnt) c = _
          rw [hstep, hpn1next, ← hfH]
          show rmLoop q f (aug_entry_free st s0, cnt + 1)
            (((c :: S'').tail ++ [(aug_entry_free st s0).head]).headI) = _
          rw [ihEq, hfilt1, hfc]
          have harith : cnt + 1 + ((c :: S'').filter (entMatch st q)).length =
              cnt + (s0 :: (c :: S'').filter (entMatch st q)).length := by
            simp
            omega
          rw [harith]
        · rw [hfcn, ← hfilt2]
          exact ihRep
        · intro k hk
          rw [hfc] at hk
          have hks0 : k ≠ s0 := fun hc => hk (hc ▸ List.mem_cons_self _ _)
          have hkf : k ∉ (c :: S'').filter (entMatch (aug_entry_free st s0) q) := by
            rw [hfilt1]
            exact fun hc => hk (List.mem_cons_of_mem _ hc)
          have h1 := ihPres k hkf
          have h2 := hfPres k hks0
          exact ⟨h1.1.trans h2.1, h1.2.trans h2.2⟩
        · intro k hk
          rw [hfc] at hk
          rcases List.mem_cons.mp hk with h1 | h1
          · have hkf : s0 ∉ (c :: S'').filter
                (entMatch (aug_entry_free st s0) q) := by
              rw [hfilt1]
              intro hc
              exact hs0S' (List.mem_of_mem_filter hc)
            have h3 := (ihPres s0 hkf).1
            rw [hfNone] at h3
            simp only [Option.map_none'] at h3
            rw [h1]
            exact Option.map_eq_none'.mp h3
          · refine ihNone k ?_
            rw [hfilt1]
            exact h1
    · have hmf : rmMatch q n0.path = false := by
        cases hmb : rmMatch q n0.path with
        | false => rfl
        | true => exact absurd hmb hm
      have hfc : (s0 :: S').filter (entMatch st q) = S'.filter (entMatch st q) := by
        rw [List.filter_cons,
          if_neg (show ¬(entMatch st q s0 = true) by rw [hent, hmf]; simp)]
      have hfcn : (s0 :: S').filter (fun k => !(entMatch st q k)) =
          s0 :: S'.filter (fun k => !(entMatch st q k)) := by
        rw [List.filter_cons,
          if_pos (show (!(entMatch st q s0)) = true by rw [hent, hmf]; simp)]
      have hacc : ((st, cnt) : Store × Nat) =
          (if rmMatch q n0.path then (aug_entry_free st pn.prev, cnt + 1)
            else (st, cnt)) := by
        rw [hmf]
        simp
      cases S' with
      | nil =>
        have hstep := rmLoop_step q f st cnt st.head hh (by simpa using hpne) hp
          hprevN (st, cnt) hacc
          (show ((st, cnt) : Store × Nat).1.get st.head = some hn from hh)
        have hstop : rmLoop q f (st, cnt) hn.next = (st, cnt) := by
          refine rmLoop_stop q _ _ f hh ?_
          simp at hfuel
          omega
        refine ⟨st, ?_, ?_, rfl, rfl, ?_, ?_⟩
        · show rmLoop q (f + 1) (st, cnt) st.head = _
          rw [hstep, hstop, hfc]
          simp
        · rw [hfcn]
          exact hrep
        · intro k _
          exact ⟨rfl, rfl⟩
        · intro k hk
          rw [hfc] at hk
          simp at hk
      | cons c S'' =>
        have hadj_c : adjacent st c ((S'' ++ [st.head]).headI) := by
          refine rep_succ hrep (st.head :: (A ++ [s0])) S'' c ?_
          simp
        have hcmem : c ∈ st.head :: (A ++ s0 :: c :: S'') := by simp
        have hgcS : (st.get c).isSome := cyc_get_isSome hrep.toCyc hcmem
        obtain ⟨pn1, hgc⟩ := Option.isSome_iff_exists.mp hgcS
        have hpn1next : pn1.next = (S'' ++ [st.head]).headI := by
          have h1 := hadj_c.1
          rw [hgc, Option.map_some', Option.some.injEq] at h1
          exact h1
        have hstep := rmLoop_step q f st cnt c hh (by simpa using hpne) hp hprevN
          (st, cnt) hacc
          (show ((st, cnt) : Store × Nat).1.get c = some pn1 from hgc)
        have hrep' : Rep st (st.head :: ((A ++ [s0]) ++ (c :: S''))) := by
          have hle : (A ++ [s0]) ++ (c :: S'') = A ++ s0 :: c :: S'' := by simp
          rw [hle]
          exact hrep
        have ihres := ih st (A ++ [s0]) cnt f hrep'
          (by simp at hfuel ⊢; omega) (by simp)
        obtain ⟨st2, ihEq, ihRep, ihH, ihF, ihPres, ihNone⟩ := ihres
        refine ⟨st2, ?_, ?_, ihH, ihF, ?_, ?_⟩
        · show rmLoop q (f + 1) (st, cnt) c = _
          rw [hstep, hpn1next]
          show rmLoop q f (st, cnt) (((c :: S'').tail ++ [st.head]).headI) = _
          rw [ihEq, hfc]
        · rw [hfcn]
          have hle : (A ++ [s0]) ++
              (c :: S'').filter (fun k => !(entMatch st q k)) =
              A ++ s0 :: (c :: S'').filter (fun k => !(entMatch st q k)) := by
            simp
          rw [← hle]
          exact ihRep
        · intro k hk
          rw [hfc] at hk
          exact ihPres k hk
        · intro k hk
          rw [hfc] at hk
          exact ihNone k hk

theorem aug_rm_spec {st : Store} {T : List Nat} (h : Rep st (st.head :: T))
    (q : Path) :
    ∃ st', aug_rm st q = (st', (T.filter (entMatch st q)).length) ∧
      Rep st' (st'.head :: T.filter (fun k => !(entMatch st q k))) ∧
      st'.head = st.head ∧ st'.fresh = st.fresh ∧
      (∀ k, k ∉ T.filter (entMatch st q) →
        (st'.get k).map Node.path = (st.get k).map Node.path ∧
        (st'.get k).map Node.value = (st.get k).map Node.value) ∧
      (∀ k ∈ T.filter (entMatch st q), st'.get k = none) := by
  have hheadS : (st.get st.head).isSome := cyc_get_isSome h.toCyc (by simp)
  obtain ⟨hn, hh⟩ := Option.isSome_iff_exists.mp hheadS
  have hadjh : adjacent st st.head ((T ++ [st.head]).headI) :=
    rep_succ h [] T st.head rfl
  have hnnext : hn.next = (T ++ [st.head]).headI := by
    have h1 := hadjh.1
    rw [hh, Option.map_some', Option.some.injEq] at h1
    exact h1
  cases T with
  | nil =>
    have heq : aug_rm st q = (st, 0) := by
      unfold aug_rm
      rw [hh]
      show (match st.get hn.next with
            | none => (st, 0)
            | some hnn => rmLoop q (st.mem.length + 1) (st, 0) hnn.next) = (st, 0)
      have hnx : hn.next = st.head := hnnext
      rw [hnx, hh]
      show rmLoop q (st.mem.length + 1) (st, 0) hn.next = (st, 0)
      exact rmLoop_stop q st 0 _ hh (by omega)
    exact ⟨st, by rw [heq]; rfl, h, rfl, rfl, fun k _ => ⟨rfl, rfl⟩,
      fun k hk => by simp at hk⟩
  | cons t1 T2 =>
    have hnx : hn.next = t1 := hnnext
    have ht1S : (st.get t1).isSome := cyc_get_isSome h.toCyc (by simp)
    obtain ⟨n1, hg1⟩ := Option.isSome_iff_exists.mp ht1S
    have hadj1 : adjacent st t1 ((T2 ++ [st.head]).headI) :=
      rep_succ h [st.head] T2 t1 rfl
    have hn1next : n1.next = (T2 ++ [st.head]).headI := by
      have h1 := hadj1.1
      rw [hg1, Option.map_some', Option.some.injEq] at h1
      exact h1
    have heq : aug_rm st q = rmLoop q (st.mem.length + 1) (st, 0) n1.next := by
      unfold aug_rm
      rw [hh]
      show (match st.get hn.next with
            | none => (st, 0)
            | some hnn => rmLoop q (st.mem.length + 1) (st, 0) hnn.next) =
        rmLoop q (st.mem.length + 1) (st, 0) n1.next
      rw [hnx, hg1]
    have hlen : st.mem.length = T2.length + 2 := by
      have hl := h.keys.length_eq
      rw [List.length_map] at hl
      simp at hl
      omega
    have hgo := rmLoop_go q (t1 :: T2) st [] 0 (st.mem.length + 1) h
      (by simp [hlen]) (by simp)
    obtain ⟨st', goEq, goRep, goH, goF, goPres, goNone⟩ := hgo
    refine ⟨st', ?_, goRep, goH, goF, goPres, goNone⟩
    rw [heq, hn1next]
    show rmLoop q (st.mem.length + 1) (st, 0)
      (((t1 :: T2).tail ++ [st.head]).headI) = _
    rw [goEq]
    simp

/-! ### Separator positions and the shape of path equality -/

theorem lastSep_lt : ∀ (x : Path) (i : Nat), lastSep x = some i → i < x.length := by
  intro x
  induction x with
  | nil =>
    intro i h
    simp [lastSep] at h
  | cons c cs ih =>
    intro i h
    cases hcs : lastSep cs with
    | some j =>
      simp only [lastSep, hcs] at h
      have hj := ih j hcs
      simp at h
      simp only [List.length_cons]
      omega
    | none =>
      simp only [lastSep, hcs] at h
      by_cases hc : (c == SEP) = true
      · rw [if_pos hc] at h
        simp at h
        simp [← h]
      · rw [if_neg hc] at h
        simp at h

theorem lastSep_append_sep : ∀ (x : Path), lastSep (x ++ [SEP]) = some x.length := by
  intro x
  induction x with
  | nil => rfl
  | cons c cs ih =>
    show lastSep (c :: (cs ++ [SEP])) = some (c :: cs).length
    simp only [lastSep, ih, List.length_cons]

theorem get?_some_lt {x : Path} {n : Nat} {c : Char} (h : x.get? n = some c) :
    n < x.length := by
  by_contra hc
  push_neg at hc
  have hn : x.get? n = none := List.get?_eq_none.mpr hc
  rw [hn] at h
  exact absurd h (by simp)

theorem pathlen_cases (x : Path) :
    pathlen x = x.length ∨
      (1 < x.length ∧ pathlen x = x.length - 1 ∧
        x.get? (x.length - 1) = some SEP) := by
  unfold pathlen
  by_cases hc : (1 < x.length && (x.getLast? == some SEP)) = true
  · right
    rw [if_pos hc]
    simp only [Bool.and_eq_true, decide_eq_true_eq, beq_iff_eq] at hc
    refine ⟨hc.1, rfl, ?_⟩
    rw [List.get?_eq_getElem?, ← List.getLast?_eq_getElem?]
    exact hc.2
  · left
    rw [if_neg hc]

theorem take_append_last (x : Path) (ch : Char)
    (hg : x.get? (x.length - 1) = some ch) (hx : 1 ≤ x.length) :
    x = x.take (x.length - 1) ++ [ch] := by
  have hlt : x.length - 1 < x.length := by omega
  have h3 : x[x.length - 1] = ch := by
    have h4 := hg
    rw [List.get?_eq_getElem?, List.getElem?_eq_getElem hlt] at h4
    simpa using h4
  have h5 : x.drop (x.length - 1) = [ch] := by
    rw [List.drop_eq_getElem_cons hlt, h3]
    have h6 : x.drop (x.length - 1 + 1) = [] := List.drop_eq_nil_of_le (by omega)
    rw [h6]
  conv_lhs => rw [← List.take_append_drop (x.length - 1) x]
  rw [h5]

theorem streqlen_cases {a b : Path} {n : Nat} (h : streqlen a b n = true) :
    a = b ∨ (n ≤ a.length ∧ n ≤ b.length ∧ a.take n = b.take n) := by
  unfold streqlen at h
  by_cases hc : (a.length < n || b.length < n) = true
  · rw [if_pos hc] at h
    left
    simpa using h
  · rw [if_neg hc] at h
    right
    simp only [Bool.or_eq_true, decide_eq_true_eq, not_or, not_lt] at hc
    exact ⟨hc.1, hc.2, by simpa using h⟩

theorem patheq_cases {a b : Path} (h : patheq a b = true) :
    a = b ∨ b = a ++ [SEP] ∨ a = b ++ [SEP] := by
  unfold patheq pathprefx at h
  simp only [Bool.and_eq_true, Bool.or_eq_true, beq_iff_eq] at h
  obtain ⟨⟨hs1, hd1⟩, hs2, hd2⟩ := h
  rcases streqlen_cases hs1 with heq | ⟨hna, hnb, hT1⟩
  · exact Or.inl heq
  rcases streqlen_cases hs2 with heq | ⟨hn2b, hn2a, hT2⟩
  · exact Or.inl heq.symm
  rcases pathlen_cases a with hca | ⟨ha1, hca, ha3⟩ <;>
    rcases pathlen_cases b with hcb | ⟨hb1, hcb, hb3⟩
  · -- neither path ends in a separator
    rcases hd1 with hd1 | hd1 <;> rcases hd2 with hd2 | hd2
    · left
      have e1 : a.take (pathlen a) = a := by
        rw [hca]
        exact List.take_length a
      have e2 : b.take (pathlen a) = b := by
        rw [← hd1]
        exact List.take_length b
      rw [e1, e2] at hT1
      exact hT1
    · exfalso
      have h2 := get?_some_lt hd2
      omega
    · exfalso
      have h1 := get?_some_lt hd1
      omega
    · exfalso
      have h1 := get?_some_lt hd1
      have h2 := get?_some_lt hd2
      omega
  · -- only b ends in a separator
    rcases hd2 with hd2 | hd2
    · right
      left
      have hb4 : b = b.take (b.length - 1) ++ [SEP] :=
        take_append_last b SEP hb3 (by omega)
      have e1 : b.take (pathlen b) = b.take (b.length - 1) := by rw [hcb]
      have e2 : a.take (pathlen b) = a := by
        rw [← hd2]
        exact List.take_length a
      rw [e1, e2] at hT2
      rw [hb4, hT2]
    · rcases hd1 with hd1 | hd1
      · left
        have e1 : a.take (pathlen a) = a := by
          rw [hca]
          exact List.take_length a
        have e2 : b.take (pathlen a) = b := by
          rw [← hd1]
          exact List.take_length b
        rw [e1, e2] at hT1
        exact hT1
      · exfalso
        have h1 := get?_some_lt hd1
        have h2 := get?_some_lt hd2
        omega
  · -- only a ends in a separator
    rcases hd1 with hd1 | hd1
    · right
      right
      have ha4 : a = a.take (a.length - 1) ++ [SEP] :=
        take_append_last a SEP ha3 (by omega)
      have e1 : a.take (pathlen a) = a.take (a.length - 1) := by rw [hca]
      have e2 : b.take (pathlen a) = b := by
        rw [← hd1]
        exact List.take_length b
      rw [e1, e2] at hT1
      rw [ha4, hT1]
    · rcases hd2 with hd2 | hd2
      · left
        have e1 : b.take (pathlen b) = b := by
          rw [hcb]
          exact List.take_length b
        have e2 : a.take (pathlen b) = a := by
          rw [← hd2]
          exact List.take_length a
        rw [e1, e2] at hT2
        exact hT2.symm
      · exfalso
        have h1 := get?_some_lt hd1
        have h2 := get?_some_lt hd2
        omega
  · -- both paths end in a separator
    rcases hd1 with hd1 | hd1 <;> rcases hd2 with hd2 | hd2
    · exfalso
      omega
    · right
      right
      have ha4 : a = a.take (a.length - 1) ++ [SEP] :=
        take_append_last a SEP ha3 (by omega)
      have e1 : a.take (pathlen a) = a.take (a.length - 1) := by rw [hca]
      have e2 : b.take (pathlen a) = b := by
        rw [← hd1]
        exact List.take_length b
      rw [e1, e2] at hT1
      rw [ha4, hT1]
    · right
      left
      have hb4 : b = b.take (b.length - 1) ++ [SEP] :=
        take_append_last b SEP hb3 (by omega)
      have e1 : b.take (pathlen b) = b.take (b.length - 1) := by rw [hcb]
      have e2 : a.take (pathlen b) = a := by
        rw [← hd2]
        exact List.take_length a
      rw [e1, e2] at hT2
      rw [hb4, hT2]
    · left
      have h1 := get?_some_lt hd1
      have h2 := get?_some_lt hd2
      have hlen : a.length = b.length := by omega
      have ha4 : a = a.take (a.length - 1) ++ [SEP] :=
        take_append_last a SEP ha3 (by omega)
      have hb4 : b = b.take (b.length - 1) ++ [SEP] :=
        take_append_last b SEP hb3 (by omega)
      have e1 : a.take (pathlen a) = a.take (a.length - 1) := by rw [hca]
      have e2 : b.take (pathlen a) = b.take (b.length - 1) := by rw [hca, hlen]
      rw [e1, e2] at hT1
      rw [ha4, hb4, hT1]

theorem find_same_imp_eq {p s pth : Path} {pi si : Nat}
    (hne : p ≠ s)
    (hlp : lastSep p = some pi) (hls : lastSep s = some si)
    (hpisi : pi = si)
    (h1 : patheq p pth = true) (h2 : patheq s pth = true) : False := by
  have hplt := lastSep_lt p pi hlp
  have hslt := lastSep_lt s si hls
  rcases patheq_cases h1 with e1 | e1 | e1 <;>
    rcases patheq_cases h2 with e2 | e2 | e2
  · exact hne (e1.trans e2.symm)
  · have hx : lastSep p = some s.length := by
      rw [e1, e2]
      exact lastSep_append_sep s
    rw [hlp] at hx
    simp at hx
    omega
  · have hx : lastSep s = some p.length := by
      rw [e2, ← e1]
      exact lastSep_append_sep p
    rw [hls] at hx
    simp at hx
    omega
  · have hx : lastSep s = some p.length := by
      rw [e2, e1]
      exact lastSep_append_sep p
    rw [hls] at hx
    simp at hx
    omega
  · refine hne ?_
    have h5 := congrArg List.dropLast (e1.symm.trans e2)
    rw [List.dropLast_concat, List.dropLast_concat] at h5
    exact h5
  · have hx : lastSep s = some (p.length + 1) := by
      rw [e2, e1]
      have h6 := lastSep_append_sep (p ++ [SEP])
      simpa using h6
    rw [hls] at hx
    simp at hx
    omega
  · have hx : lastSep p = some s.length := by
      rw [e1, ← e2]
      exact lastSep_append_sep s
    rw [hlp] at hx
    simp at hx
    omega
  · have hx : lastSep p = some (s.length + 1) := by
      rw [e1, e2]
      have h6 := lastSep_append_sep (s ++ [SEP])
      simpa using h6
    rw [hlp] at hx
    simp at hx
    omega
  · exact hne (e1.trans e2.symm)

theorem aug_insert_eq_core (st : Store) (p s : Path) {pi si : Nat}
    (h0 : ¬((p == s) = true)) (hlp : lastSep p = some pi)
    (hls : lastSep s = some si) :
    aug_insert st p s =
      (if (!(pi == si)) = true then (st, -1)
       else if (!(streqlen p s pi)) = true then (st, -1)
       else match aug_entry_find st s with
         | none => (st, -1)
         | some sI =>
           match aug_entry_find st p with
           | none =>
             match aug_entry_make st p sI with
             | none => (st, -1)
             | some (st', _) => (st', 0)
           | some pI => (relinkEntry st pI sI, 0)) := by
  unfold aug_insert
  rw [if_neg h0, hlp, hls]

theorem aug_insert_cases (st : Store) (p s : Path) :
    aug_insert st p s = (st, -1) ∨
    (∃ sI st2 e, aug_entry_find st s = some sI ∧ aug_entry_find st p = none ∧
      aug_entry_make st p sI = some (st2, e) ∧ aug_insert st p s = (st2, 0)) ∨
    (∃ sI pI, aug_entry_find st s = some sI ∧ aug_entry_find st p = some pI ∧
      p ≠ s ∧ (∃ pi, lastSep p = some pi ∧ lastSep s = some pi) ∧
      aug_insert st p s = (relinkEntry st pI sI, 0)) := by
  by_cases h0 : (p == s) = true
  · left
    unfold aug_insert
    rw [if_pos h0]
  have hne : p ≠ s := by
    intro hc
    exact h0 (by rw [hc]; simp)
  cases hlp : lastSep p with
  | none =>
    cases hls : lastSep s with
    | none =>
      left
      unfold aug_insert
      rw [if_neg h0, hlp, hls]
    | some si =>
      left
      unfold aug_insert
      rw [if_neg h0, hlp, hls]
  | some pi =>
    cases hls : lastSep s with
    | none =>
      left
      unfold aug_insert
      rw [if_neg h0, hlp, hls]
    | some si =>
      have hcore := aug_insert_eq_core st p s h0 hlp hls
      by_cases h1 : (!(pi == si)) = true
      · left
        rw [hcore, if_pos h1]
      rw [if_neg h1] at hcore
      by_cases h2 : (!(streqlen p s pi)) = true
      · left
        rw [hcore, if_pos h2]
      rw [if_neg h2] at hcore
      have hpisi : pi = si := by
        simp at h1
        exact h1
      cases hfs : aug_entry_find st s with
      | none =>
        left
        rw [hcore, hfs]
      | some sI =>
        rw [hfs] at hcore
        have hcore2 : aug_insert st p s =
            (match aug_entry_find st p with
             | none =>
               match aug_entry_make st p sI with
               | none => (st, -1)
               | some (st', _) => (st', 0)
             | some pI => (relinkEntry st pI sI, 0)) := hcore
        cases hfp : aug_entry_find st p with
        | none =>
          rw [hfp] at hcore2
          have hcore3 : aug_insert st p s =
              (match aug_entry_make st p sI with
               | none => (st, -1)
               | some (st', _) => (st', 0)) := hcore2
          cases hmk : aug_entry_make st p sI with
          | none =>
            left
            rw [hmk] at hcore3
            exact hcore3
          | some x =>
            right
            left
            obtain ⟨st2, e⟩ := x
            rw [hmk] at hcore3
            exact ⟨sI, st2, e, rfl, rfl, hmk, hcore3⟩
        | some pI =>
          right
          right
          rw [hfp] at hcore2
          exact ⟨sI, pI, rfl, rfl, hne, ⟨pi, rfl, by rw [hpisi]⟩, hcore2⟩

theorem aug_insert_spec {st : Store} {L : List Nat} (h : Rep st L) (p s : Path) :
    ∃ L', Rep (aug_insert st p s).1 L' ∧
      (∀ k ∈ L, k ∈ L') ∧
      (∀ k ∈ L, ((aug_insert st p s).1.get k).map Node.path =
        (st.get k).map Node.path) ∧
      (aug_insert st p s).1.head = st.head := by
  rcases aug_insert_cases st p s with heq | ⟨sI, st2, e, hfs, hfp, hmk, heq⟩ |
    ⟨sI, pI, hfs, hfp, hne, ⟨pi, hlp, hls⟩, heq⟩
  · rw [heq]
    exact ⟨L, h, fun k hk => hk, fun k _ => rfl, rfl⟩
  · obtain ⟨hsmem, pths, hpths, hpes⟩ := find_some_mem hfs
    rw [h.ringIds_eq] at hsmem
    obtain ⟨st2', NL, e', hmk', hrep2, hh2, henL, henNL, hpres, hnew, hpe, hve, hpost⟩ :=
      entry_make_spec h hsmem p
    rw [hmk'] at hmk
    simp only [Option.some.injEq, Prod.mk.injEq] at hmk
    obtain ⟨h21, h22⟩ := hmk
    subst h21
    rw [heq]
    refine ⟨insBefore (L ++ NL) sI e', hrep2, ?_, ?_, hh2⟩
    · intro k hk
      refine (insBefore_perm _ _ _).mem_iff.mpr ?_
      exact List.mem_cons_of_mem _ (List.mem_append.mpr (Or.inl hk))
    · intro k hk
      exact (hpres k hk).1
  · obtain ⟨hsmem, pths, hpths, hpes⟩ := find_some_mem hfs
    obtain ⟨hpmem, pthp, hpthp, hpep⟩ := find_some_mem hfp
    rw [h.ringIds_eq] at hsmem hpmem
    have hpIsI : pI ≠ sI := by
      intro hc
      rw [hc] at hpthp
      rw [hpthp] at hpths
      simp only [Option.some.injEq] at hpths
      refine find_same_imp_eq hne hlp hls rfl hpep ?_
      rw [← hpths] at hpes
      exact hpes
    rw [heq]
    obtain ⟨L', hrepL', hperm⟩ := relink_rep h hpmem hsmem hpIsI
    refine ⟨L', hrepL', ?_, ?_, relink_head st pI sI⟩
    · intro k hk
      exact hperm.mem_iff.mpr hk
    · intro k _
      exact relink_path st pI sI k

theorem aug_set_spec {st : Store} {L : List Nat} (h : Rep st L) (p v : Path) :
    ∃ st' L', aug_set st p v = (st', 0) ∧ Rep st' L' ∧ aug_get st' p = some v ∧
      (∀ k ∈ L, k ∈ L') ∧
      (∀ k ∈ L, (st'.get k).map Node.path = (st.get k).map Node.path) ∧
      st'.head = st.head := by
  cases hfind : aug_entry_find st p with
  | some i =>
    obtain ⟨hmem, pth, hpth, hpe⟩ := find_some_mem hfind
    obtain ⟨n, hn⟩ : ∃ n, st.get i = some n := by
      cases hg : st.get i with
      | none => rw [hg] at hpth; simp at hpth
      | some n => exact ⟨n, rfl⟩
    refine ⟨setValue st i (some v), L, ?_, setValue_rep h i (some v), ?_,
      fun k hk => hk, fun k _ => setValue_path st i (some v) k, rfl⟩
    · show aug_set st p v = _
      unfold aug_set
      rw [hfind]
    · unfold aug_get
      rw [setValue_find, hfind]
      show (match (setValue st i (some v)).get i with
            | none => none
            | some n => n.value) = some v
      rw [get_setValue, if_pos rfl, hn]
      rfl
  | none =>
    obtain ⟨st2, NL, e, heq, hrep2, hh2, henL, henNL, hpres, hnew, hpe, hve, hpost⟩ :=
      entry_make_spec h (rep_head_mem h) p
    have hfind2 : aug_entry_find st2 p = some e := by
      refine find_eq_some_of_unique ?_ hpe (patheq_stripped p) ?_
      · rw [hrep2.ringIds_eq]
        exact (insBefore_perm _ _ _).mem_iff.mpr (by simp)
      · intro j hj pth' hp' hm'
        rw [hrep2.ringIds_eq] at hj
        have hj2 : j = e ∨ j ∈ L ++ NL := by
          have := (insBefore_perm (L ++ NL) st.head e).mem_iff.mp hj
          simpa using this
        rcases hj2 with hj2 | hj2
        · exact hj2
        · exfalso
          rcases List.mem_append.mp hj2 with hjL | hjNL
          · have hp0 : (st.get j).map Node.path = some pth' := by
              rw [← (hpres j hjL).1]
              exact hp'
            have := (find_none_iff st p).mp hfind j (by rw [h.ringIds_eq]; exact hjL) pth' hp0
            rw [hm'] at this
            simp at this
          · obtain ⟨jj, hjj1, hjj2, hjj3⟩ := hnew j hjNL
            rw [hp'] at hjj3
            have hpth' : pth' = (p.take (pathlen p)).take jj := by
              simpa using hjj3
            have hjlt : jj < pathlen p := by
              rw [List.length_take] at hjj1
              omega
            have htt : (p.take (pathlen p)).take jj = p.take jj := by
              rw [List.take_take]
              have : min jj (pathlen p) = jj := by omega
              rw [this]
            rw [hpth', htt] at hm'
            have := patheq_take_false p jj hjlt
            rw [this] at hm'
            simp at hm'
    obtain ⟨ne, hne⟩ : ∃ ne, st2.get e = some ne := by
      cases hg : st2.get e with
      | none => rw [hg] at hpe; simp at hpe
      | some n => exact ⟨n, rfl⟩
    refine ⟨setValue st2 e (some v), insBefore (L ++ NL) st.head e, ?_,
      setValue_rep hrep2 e (some v), ?_, ?_, ?_, ?_⟩
    · show aug_set st p v = _
      unfold aug_set
      rw [hfind]
      show (match aug_entry_make st p st.head with
            | none => (st, -1)
            | some (st', i) => (setValue st' i (some v), 0)) = _
      rw [heq]
    · unfold aug_get
      rw [setValue_find, hfind2]
      show (match (setValue st2 e (some v)).get e with
            | none => none
            | some n => n.value) = some v
      rw [get_setValue, if_pos rfl, hne]
      rfl
    · intro k hk
      refine (insBefore_perm (L ++ NL) st.head e).mem_iff.mpr ?_
      exact List.mem_cons_of_mem _ (List.mem_append.mpr (Or.inl hk))
    · intro k hk
      rw [setValue_path]
      exact (hpres k hk).1
    · rw [setValue_head, hh2]

/-! ### Claim-level helper lemmas -/

theorem inv_ring_shape {st : Store} (h : Inv st) :
    ∃ T, ringIds st = st.head :: T := by
  have hrep := h.rep
  cases hr : ringIds st with
  | nil =>
    have hh := hrep.hd
    rw [hr] at hh
    simp at hh
  | cons a T =>
    have hh := hrep.hd
    rw [hr] at hh
    simp at hh
    exact ⟨T, by rw [hh]⟩

theorem hasPath_iff (st : Store) (q : Path) :
    hasPath st q = true ↔
      ∃ i ∈ ringIds st, (st.get i).map Node.path = some q := by
  unfold hasPath ringNodes
  rw [List.any_eq_true]
  constructor
  · rintro ⟨x, hx, hxq⟩
    obtain ⟨i, hi, himg⟩ := List.mem_filterMap.mp hx
    cases hgi : st.get i with
    | none =>
      rw [hgi] at himg
      simp at himg
    | some n =>
      rw [hgi] at himg
      simp at himg
      refine ⟨i, hi, ?_⟩
      simp at hxq
      rw [← himg] at hxq
      have hxq' : n.path = q := hxq
      rw [hgi, Option.map_some', hxq']
  · rintro ⟨i, hi, hq⟩
    cases hgi : st.get i with
    | none =>
      rw [hgi] at hq
      simp at hq
    | some n =>
      rw [hgi] at hq
      simp at hq
      refine ⟨(i, n), ?_, ?_⟩
      · exact List.mem_filterMap.mpr ⟨i, hi, by rw [hgi]; rfl⟩
      · simp [hq]

theorem hasPath_transfer {st st' : Store} {L L' : List Nat}
    (h : Rep st L) (h' : Rep st' L')
    (hmem : ∀ k ∈ L, k ∈ L')
    (hpres : ∀ k ∈ L, (st'.get k).map Node.path = (st.get k).map Node.path)
    {q : Path} (hq : hasPath st q = true) : hasPath st' q = true := by
  rw [hasPath_iff] at hq ⊢
  obtain ⟨i, hi, hip⟩ := hq
  rw [h.ringIds_eq] at hi
  refine ⟨i, ?_, ?_⟩
  · rw [h'.ringIds_eq]
    exact hmem i hi
  · rw [hpres i hi]
    exact hip

theorem rmMatch_sysP (q : Path) : rmMatch q sysP = false := by
  simp [rmMatch]

theorem rmMatch_sysCfgP (q : Path) : rmMatch q sysCfgP = false := by
  simp [rmMatch]

theorem rm_sentinel_pres {st : Store} {T : List Nat} (h : Rep st (st.head :: T))
    (q sent : Path) (hs : rmMatch q sent = false)
    (hq : hasPath st sent = true) : hasPath (aug_rm st q).1 sent = true := by
  obtain ⟨st', heq, hrep', hH, hF, hpres, hnone⟩ := aug_rm_spec h q
  rw [heq]
  rw [hasPath_iff] at hq ⊢
  obtain ⟨i, hi, hip⟩ := hq
  rw [h.ringIds_eq] at hi
  have hei : entMatch st q i = false := by
    unfold entMatch
    cases hg : st.get i with
    | none => rfl
    | some n =>
      rw [hg] at hip
      simp at hip
      show rmMatch q n.path = false
      rw [hip]
      exact hs
  have hiNotPos : i ∉ T.filter (entMatch st q) := by
    intro hc
    have hcc := List.of_mem_filter hc
    rw [hei] at hcc
    exact absurd hcc (by simp)
  refine ⟨i, ?_, ?_⟩
  · rw [hrep'.ringIds_eq]
    rcases List.mem_cons.mp hi with h1 | h1
    · rw [h1, ← hH]
      exact List.mem_cons_self _ _
    · refine List.mem_cons_of_mem _ ?_
      refine List.mem_filter.mpr ⟨h1, ?_⟩
      rw [hei]
      rfl
  · rw [(hpres i hiNotPos).1]
    exact hip

/-- C3: the freshly initialised store is a well-formed circular
doubly-linked list, and `aug_set`, `aug_insert` and `aug_rm` each preserve
that well-formedness: following `next` from the head visits every
allocated entry exactly once before returning, with `prev` the pointwise
inverse — in particular across the unsplice/resplice of `aug_insert`. -/
theorem C3_wellformed_ring :
    Inv initStore ∧
    (∀ st p v, Inv st → Inv (aug_set st p v).1) ∧
    (∀ st p s, Inv st → Inv (aug_insert st p s).1) ∧
    (∀ st p, Inv st → Inv (aug_rm st p).1) := by
  refine ⟨by decide, ?_, ?_, ?_⟩
  · intro st p v h
    obtain ⟨st', L', heq, hrep', _, _, _, _⟩ := aug_set_spec h.rep p v
    rw [heq]
    exact hrep'.inv
  · intro st p s h
    obtain ⟨L', hrep', _, _, _⟩ := aug_insert_spec h.rep p s
    exact hrep'.inv
  · intro st p h
    obtain ⟨T, hT⟩ := inv_ring_shape h
    have hrep : Rep st (st.head :: T) := by
      rw [← hT]
      exact h.rep
    obtain ⟨st', heq, hrep', _, _, _, _⟩ := aug_rm_spec hrep p
    rw [heq]
    exact hrep'.inv

/-- Witness for C3 at concrete inputs: one set, one insert (which relinks
the existing `/system/config` before itself — a failing precondition path —
and one succeeding creation), and one removal, all from the initial
store. -/
theorem C3_witness :
    Inv (aug_set initStore "/x".toList "1".toList).1 ∧
    Inv (aug_insert initStore "/system/a".toList "/system/config".toList).1 ∧
    Inv (aug_rm initStore "/x".toList).1 :=
  ⟨C3_wellformed_ring.2.1 initStore "/x".toList "1".toList (by decide),
   C3_wellformed_ring.2.2.1 initStore "/system/a".toList "/system/config".toList
     (by decide),
   C3_wellformed_ring.2.2.2 initStore "/x".toList (by decide)⟩

/-- C2: both sentinel paths are present initially, and each public
operation — including `aug_rm` on any path, in particular `/system` and
`/system/config` themselves — leaves entries with paths `/system` and
`/system/config` in the store. -/
theorem C2_sentinel_preservation :
    (hasPath initStore sysP = true ∧ hasPath initStore sysCfgP = true) ∧
    (∀ st p v, Inv st → hasPath st sysP = true → hasPath st sysCfgP = true →
      hasPath (aug_set st p v).1 sysP = true ∧
        hasPath (aug_set st p v).1 sysCfgP = true) ∧
    (∀ st p s, Inv st → hasPath st sysP = true → hasPath st sysCfgP = true →
      hasPath (aug_insert st p s).1 sysP = true ∧
        hasPath (aug_insert st p s).1 sysCfgP = true) ∧
    (∀ st p, Inv st → hasPath st sysP = true → hasPath st sysCfgP = true →
      hasPath (aug_rm st p).1 sysP = true ∧
        hasPath (aug_rm st p).1 sysCfgP = true) := by
  refine ⟨⟨by decide, by decide⟩, ?_, ?_, ?_⟩
  · intro st p v h h1 h2
    obtain ⟨st', L', heq, hrep', _, hmem, hpres, _⟩ := aug_set_spec h.rep p v
    rw [heq]
    exact ⟨hasPath_transfer h.rep hrep' hmem hpres h1,
      hasPath_transfer h.rep hrep' hmem hpres h2⟩
  · intro st p s h h1 h2
    obtain ⟨L', hrep', hmem, hpres, _⟩ := aug_insert_spec h.rep p s
    exact ⟨hasPath_transfer h.rep hrep' hmem hpres h1,
      hasPath_transfer h.rep hrep' hmem hpres h2⟩
  · intro st p h h1 h2
    obtain ⟨T, hT⟩ := inv_ring_shape h
    have hrep : Rep st (st.head :: T) := by
      rw [← hT]
      exact h.rep
    exact ⟨rm_sentinel_pres hrep p sysP (rmMatch_sysP p) h1,
      rm_sentinel_pres hrep p sysCfgP (rmMatch_sysCfgP p) h2⟩

/-- Witness for C2 at concrete inputs, including the two removals named by
the claim, `Rm("/system")` and `Rm("/system/config")`. -/
theorem C2_witness :
    hasPath (aug_set initStore "/x".toList "1".toList).1 sysP = true ∧
    hasPath (aug_insert initStore "/a".toList "/b".toList).1 sysCfgP = true ∧
    hasPath (aug_rm initStore "/system".toList).1 sysP = true ∧
    hasPath (aug_rm initStore "/system/config".toList).1 sysCfgP = true :=
  ⟨(C2_sentinel_preservation.2.1 initStore "/x".toList "1".toList (by decide)
      (by decide) (by decide)).1,
   (C2_sentinel_preservation.2.2.1 initStore "/a".toList "/b".toList (by decide)
      (by decide) (by decide)).2,
   (C2_sentinel_preservation.2.2.2 initStore "/system".toList (by decide)
      (by decide) (by decide)).1,
   (C2_sentinel_preservation.2.2.2 initStore "/system/config".toList (by decide)
      (by decide) (by decide)).2⟩

/-- C1: for every well-formed store, every path and every value, `aug_set`
succeeds and an immediately following `aug_get` of the same path returns
exactly that value. -/
theorem C1_set_get_roundtrip (st : Store) (p v : Path) (h : Inv st) :
    (aug_set st p v).2 = 0 ∧ aug_get (aug_set st p v).1 p = some v := by
  obtain ⟨st', L', heq, _, hget, _, _, _⟩ := aug_set_spec h.rep p v
  rw [heq]
  exact ⟨rfl, hget⟩

/-- Witness for C1 at a concrete input: the freshly initialised store,
path `/x`, value `1`. -/
theorem C1_witness :
    Inv initStore ∧
      ((aug_set initStore "/x".toList "1".toList).2 = 0 ∧
        aug_get (aug_set initStore "/x".toList "1".toList).1 "/x".toList =
          some "1".toList) :=
  ⟨by decide, C1_set_get_roundtrip initStore "/x".toList "1".toList (by decide)⟩

/-- C5: after `aug_set "/a/b/c"` on a well-formed store where none of
`/a`, `/a/b`, `/a/b/c` exist, both strict ancestors `/a` and `/a/b` have
been materialised: `aug_exists` returns true for each. -/
theorem C5_ancestor_materialization (st : Store) (h : Inv st)
    (h1 : aug_entry_find st "/a".toList = none)
    (h2 : aug_entry_find st "/a/b".toList = none)
    (h3 : aug_entry_find st "/a/b/c".toList = none) :
    aug_exists (aug_set st "/a/b/c".toList "x".toList).1 "/a".toList = true ∧
    aug_exists (aug_set st "/a/b/c".toList "x".toList).1 "/a/b".toList = true := by
  obtain ⟨st2, NL, e, heq, hrep2, hh2, henL, henNL, hpres, hnew, hpe, hve, hpost⟩ :=
    entry_make_spec h.rep (rep_head_mem h.rep) ("/a/b/c".toList)
  have heqset : aug_set st "/a/b/c".toList "x".toList =
      (setValue st2 e (some "x".toList), 0) := by
    unfold aug_set
    rw [h3]
    show (match aug_entry_make st "/a/b/c".toList st.head with
          | none => (st, -1)
          | some (st', i) => (setValue st' i (some "x".toList), 0)) = _
    rw [heq]
  rw [heqset]
  constructor
  · show (aug_entry_find (setValue st2 e (some "x".toList))
      "/a".toList).isSome = true
    rw [setValue_find]
    have hp2 := hpost 2 (by omega) (by decide) (by decide)
    obtain ⟨i, hiMem, pth, hipath, hipe⟩ := hp2
    have htk : (("/a/b/c".toList).take (pathlen ("/a/b/c".toList))).take 2 =
        "/a".toList := by decide
    rw [htk] at hipe
    refine find_isSome_of_mem ?_ hipath hipe
    rw [hrep2.ringIds_eq]
    exact (insBefore_perm _ _ _).mem_iff.mpr (List.mem_cons_of_mem _ hiMem)
  · show (aug_entry_find (setValue st2 e (some "x".toList))
      "/a/b".toList).isSome = true
    rw [setValue_find]
    have hp4 := hpost 4 (by omega) (by decide) (by decide)
    obtain ⟨i, hiMem, pth, hipath, hipe⟩ := hp4
    have htk : (("/a/b/c".toList).take (pathlen ("/a/b/c".toList))).take 4 =
        "/a/b".toList := by decide
    rw [htk] at hipe
    refine find_isSome_of_mem ?_ hipath hipe
    rw [hrep2.ringIds_eq]
    exact (insBefore_perm _ _ _).mem_iff.mpr (List.mem_cons_of_mem _ hiMem)

/-- Witness for C5 at the concrete initial store, where `/a`, `/a/b` and
`/a/b/c` are all absent. -/
theorem C5_witness :
    aug_exists (aug_set initStore "/a/b/c".toList "x".toList).1
        "/a".toList = true ∧
      aug_exists (aug_set initStore "/a/b/c".toList "x".toList).1
        "/a/b".toList = true :=
  C5_ancestor_materialization initStore (by decide) (by decide) (by decide)
    (by decide)

/-- C6: every listed precondition violation of `aug_insert` — identical
paths, either path without a separator, differing directory prefixes
before the last separator, or an absent sibling entry — produces the
failure result `-1` with the store returned literally unchanged. -/
theorem C6_insert_preconditions (st : Store) (p s : Path)
    (h : p = s ∨ lastSep p = none ∨ lastSep s = none ∨
      (∀ pi si, lastSep p = some pi → lastSep s = some si →
        p.take pi ≠ s.take si) ∨
      aug_entry_find st s = none) :
    aug_insert st p s = (st, -1) := by
  by_cases h0 : (p == s) = true
  · unfold aug_insert
    rw [if_pos h0]
  have hne : p ≠ s := by
    intro hc
    exact h0 (by rw [hc]; simp)
  cases hlp : lastSep p with
  | none =>
    cases hls : lastSep s with
    | none =>
      unfold aug_insert
      rw [if_neg h0, hlp, hls]
    | some si =>
      unfold aug_insert
      rw [if_neg h0, hlp, hls]
  | some pi =>
    cases hls : lastSep s with
    | none =>
      unfold aug_insert
      rw [if_neg h0, hlp, hls]
    | some si =>
      have hcore := aug_insert_eq_core st p s h0 hlp hls
      by_cases h1 : (!(pi == si)) = true
      · rw [hcore, if_pos h1]
      rw [if_neg h1] at hcore
      by_cases h2 : (!(streqlen p s pi)) = true
      · rw [hcore, if_pos h2]
      rw [if_neg h2] at hcore
      have hpisi : pi = si := by
        simp at h1
        exact h1
      have hstq : streqlen p s pi = true := by
        simp at h2
        exact h2
      rcases h with h | h | h | h | h
      · exact absurd h hne
      · rw [hlp] at h
        simp at h
      · rw [hls] at h
        simp at h
      · exfalso
        have htk := h pi si hlp hls
        rcases streqlen_cases hstq with heq2 | ⟨_, _, heq2⟩
        · refine htk ?_
          rw [heq2, hpisi]
        · refine htk ?_
          rw [heq2, hpisi]
      · rw [hcore, h]

/-- Witness for C6 at a concrete cross-parent input from the fresh store:
no entry for the sibling `/b/y` exists. -/
theorem C6_witness :
    aug_insert initStore "/a/x".toList "/b/y".toList = (initStore, -1) :=
  C6_insert_preconditions initStore "/a/x".toList "/b/y".toList
    (Or.inr (Or.inr (Or.inr (Or.inr (by decide)))))

/-- Counterexample to C4's example: on the store holding `/a`, `/a/b` and
`/a/bc`, `aug_rm "/a"` removes all three entries — `/a/bc` included, since
`/a/bc` extends `/a` past the separator at index 2 — returning count 3 and
leaving only the sentinels, contradicting the claim that `/a/bc` is left
alone with count 2. -/
theorem C4_counterexample :
    (aug_rm stRmEx "/a".toList).2 = 3 ∧
    ringPaths (aug_rm stRmEx "/a".toList).1 = [sysP, sysCfgP] := by decide

theorem rep_ringPaths {st : Store} {L : List Nat} (h : Rep st L) :
    ringPaths st = L.filterMap (fun i => (st.get i).map Node.path) := by
  unfold ringPaths ringNodes
  rw [h.ringIds_eq, List.map_filterMap]
  congr 1
  funext i
  cases st.get i <;> rfl

theorem filterMap_congr_mem {α β : Type} {f g : α → Option β} :
    ∀ (l : List α), (∀ a ∈ l, f a = g a) → l.filterMap f = l.filterMap g
  | [], _ => rfl
  | a :: l, h => by
    rw [List.filterMap_cons, List.filterMap_cons, h a (by simp),
      filterMap_congr_mem l (fun x hx => h x (List.mem_cons_of_mem _ hx))]

theorem entMatch_paths_exchange (st : Store) (q : Path) : ∀ (T : List Nat),
    (∀ k ∈ T, (st.get k).isSome) →
    (T.filter (fun k => !(entMatch st q k))).filterMap
        (fun i => (st.get i).map Node.path) =
      (T.filterMap (fun i => (st.get i).map Node.path)).filter
        (fun x => !(rmMatch q x)) ∧
    (T.filter (entMatch st q)).length =
      ((T.filterMap (fun i => (st.get i).map Node.path)).filter
        (rmMatch q)).length := by
  intro T
  induction T with
  | nil =>
    intro _
    exact ⟨rfl, rfl⟩
  | cons k T' ih =>
    intro hS
    obtain ⟨n, hgk⟩ := Option.isSome_iff_exists.mp (hS k (by simp))
    have hpk : (st.get k).map Node.path = some n.path := by
      rw [hgk]
      rfl
    have hek : entMatch st q k = rmMatch q n.path := by
      unfold entMatch
      rw [hgk]
    obtain ⟨ih1, ih2⟩ := ih (fun j hj => hS j (List.mem_cons_of_mem _ hj))
    have hfmc : (k :: T').filterMap (fun i => (st.get i).map Node.path) =
        n.path :: T'.filterMap (fun i => (st.get i).map Node.path) := by
      rw [List.filterMap_cons, hpk]
    by_cases hm : rmMatch q n.path = true
    · have c1 : entMatch st q k = true := by
        rw [hek]
        exact hm
      constructor
      · rw [List.filter_cons, hfmc, List.filter_cons]
        simp only [c1, hm, Bool.not_true, Bool.false_eq_true, if_false]
        exact ih1
      · rw [List.filter_cons, hfmc, List.filter_cons]
        simp only [c1, hm, if_true, List.length_cons]
        rw [ih2]
    · have hmf : rmMatch q n.path = false := by
        cases hmb : rmMatch q n.path with
        | false => rfl
        | true => exact absurd hmb hm
      have c1 : entMatch st q k = false := by
        rw [hek]
        exact hmf
      constructor
      · rw [List.filter_cons, hfmc, List.filter_cons]
        simp only [c1, hmf, Bool.not_false, if_true]
        have hstep : (k :: T'.filter (fun j => !(entMatch st q j))).filterMap
            (fun i => (st.get i).map Node.path) =
            n.path :: (T'.filter (fun j => !(entMatch st q j))).filterMap
              (fun i => (st.get i).map Node.path) := by
          rw [List.filterMap_cons, hpk]
        rw [hstep, ih1]
      · rw [List.filter_cons, hfmc, List.filter_cons]
        simp only [c1, hmf, Bool.false_eq_true, if_false]
        exact ih2

/-- Amended C4, general part: on any well-formed store whose head entry is
the `/system` sentinel, `aug_rm path` removes exactly the entries whose
stored path passes the separator-bounded removal test (path equality or
extension past a separator, sentinels excluded) and returns their number.
Amended example: removing `/a/b` from the store with `/a`, `/a/b`, `/a/bc`
removes only `/a/b` — `/a/bc` survives because `c` is not a separator —
and removing `/ab` removes nothing. -/
theorem C4_rm_scope :
    (∀ st q T, Inv st → ringIds st = st.head :: T →
      (st.get st.head).map Node.path = some sysP →
      (aug_rm st q).2 = ((ringPaths st).filter (rmMatch q)).length ∧
      ringPaths (aug_rm st q).1 =
        (ringPaths st).filter (fun x => !(rmMatch q x))) ∧
    ((aug_rm stRmEx "/a/b".toList).2 = 1 ∧
      ringPaths (aug_rm stRmEx "/a/b".toList).1 =
        [sysP, sysCfgP, "/a".toList, "/a/bc".toList] ∧
      (aug_rm stRmEx "/ab".toList).2 = 0) := by
  refine ⟨?_, by decide⟩
  intro st q T h hT hhp
  have hrep : Rep st (st.head :: T) := by
    rw [← hT]
    exact h.rep
  obtain ⟨st', heq, hrep', hH, hF, hpres, hnone⟩ := aug_rm_spec hrep q
  have hTS : ∀ k ∈ T, (st.get k).isSome :=
    fun k hk => cyc_get_isSome hrep.toCyc (List.mem_cons_of_mem _ hk)
  obtain ⟨hex1, hex2⟩ := entMatch_paths_exchange st q T hTS
  have hrp : ringPaths st =
      sysP :: T.filterMap (fun i => (st.get i).map Node.path) := by
    rw [rep_ringPaths hrep, List.filterMap_cons, hhp]
  have hheadNot : st.head ∉ T.filter (entMatch st q) := by
    intro hc
    have hmm := List.mem_of_mem_filter hc
    exact (List.nodup_cons.mp hrep.nodup).1 hmm
  have hhp' : (st'.get st.head).map Node.path = some sysP := by
    rw [(hpres st.head hheadNot).1]
    exact hhp
  have hcongr : (T.filter (fun k => !(entMatch st q k))).filterMap
      (fun i => (st'.get i).map Node.path) =
      (T.filter (fun k => !(entMatch st q k))).filterMap
        (fun i => (st.get i).map Node.path) := by
    refine filterMap_congr_mem _ ?_
    intro k hk
    have hkneg := List.of_mem_filter hk
    have hkNot : k ∉ T.filter (entMatch st q) := by
      intro hc
      have h2 := List.of_mem_filter hc
      rw [h2] at hkneg
      exact absurd hkneg (by simp)
    exact (hpres k hkNot).1
  have hrp' : ringPaths st' =
      sysP :: (T.filter (fun k => !(entMatch st q k))).filterMap
        (fun i => (st.get i).map Node.path) := by
    rw [rep_ringPaths hrep']
    show ((st'.head :: T.filter (fun k => !(entMatch st q k))).filterMap
      (fun i => (st'.get i).map Node.path)) = _
    rw [List.filterMap_cons, hH, hhp', hcongr]
  constructor
  · rw [heq]
    show (T.filter (entMatch st q)).length = _
    rw [hrp, List.filter_cons, rmMatch_sysP]
    simp only [Bool.false_eq_true, if_false]
    exact hex2
  · rw [heq]
    show ringPaths st' = _
    rw [hrp', hrp, List.filter_cons]
    have hsp : (!(rmMatch q sysP)) = true := by
      rw [rmMatch_sysP]
      rfl
    rw [hsp, if_pos rfl, hex1]

/-- Witness for the general part of the amended C4 at the concrete
three-entry store and path `/a/b`. -/
theorem C4_witness :
    (aug_rm stRmEx "/a/b".toList).2 =
        ((ringPaths stRmEx).filter (rmMatch "/a/b".toList)).length ∧
      ringPaths (aug_rm stRmEx "/a/b".toList).1 =
        (ringPaths stRmEx).filter (fun x => !(rmMatch "/a/b".toList x)) :=
  C4_rm_scope.1 stRmEx "/a/b".toList [1, 2, 3, 4] (by decide) (by decide)
    (by decide)

/-- Counterexample to C8: on the store with `/a`, `/a/b`, `/a/b/c` and
`/a/c`, the glob `/a/*` matches three paths — `/a/b/c` included, because
POSIX `fnmatch` without `FNM_PATHNAME` lets `*` match `/` — not the two
the claim asserts. -/
theorem C8_counterexample :
    (aug_match stMatchEx "/a/*".toList 4).1 = 3 ∧
    (aug_match stMatchEx "/a/*".toList 4).2 =
      ["/a/b".toList, "/a/b/c".toList, "/a/c".toList] := by decide

/-- Amended C8: `Match("/a/*")` on that store counts `/a/b`, `/a/b/c` and
`/a/c` (slash is matched by `*` since `FNM_PATHNAME` is not passed) and
not `/a`; calling with capacity 0 still returns the true total 3 while
writing nothing into the sink. -/
theorem C8_match_glob :
    (aug_match stMatchEx "/a/*".toList 0).1 = 3 ∧
    (aug_match stMatchEx "/a/*".toList 0).2 = [] ∧
    (aug_match stMatchEx "/a/*".toList 4).2 =
      ["/a/b".toList, "/a/b/c".toList, "/a/c".toList] ∧
    gmatch "/a/*".toList "/a".toList = false := by decide

/-- C9: on the store holding `/a`, `/a/b` and `/a/b/c`, `aug_ls "/a"`
returns count 1 with exactly `/a/b` — the immediate child — and neither
`/a/b/c` nor `/a` itself. -/
theorem C9_ls_immediate_children :
    aug_ls stLsEx "/a".toList = (1, ["/a/b".toList]) := by decide

/-- C10: the sentinels are ordinary entries for reads: on the freshly
initialised store, `aug_match "*"` counts both sentinels and returns their
paths, `aug_ls "/system"` lists `/system/config` as the single child, and
`aug_exists "/system"` is true. -/
theorem C10_sentinels_ordinary :
    (aug_match initStore "*".toList 2).1 = 2 ∧
    (aug_match initStore "*".toList 2).2 = [sysP, sysCfgP] ∧
    aug_ls initStore "/system".toList = (1, [sysCfgP]) ∧
    aug_exists initStore "/system".toList = true := by decide

/-- C7: when `/a/y` has an entry `s` (not the list head) and `/a/x` has
none, `aug_insert "/a/x" "/a/y"` succeeds and creates the `/a/x` entry
immediately before the `/a/y` entry in traversal order, so the children
listing of `/a` contains `/a/x` directly followed by `/a/y`. -/
theorem C7_insert_before_sibling (st : Store) (s : Nat) (h : Inv st)
    (hfx : aug_entry_find st "/a/x".toList = none)
    (hfy : aug_entry_find st "/a/y".toList = some s)
    (hsp : (st.get s).map Node.path = some "/a/y".toList)
    (hsh : s ≠ st.head) :
    (aug_insert st "/a/x".toList "/a/y".toList).2 = 0 ∧
    ∃ A B, (aug_ls (aug_insert st "/a/x".toList "/a/y".toList).1
      "/a".toList).2 = A ++ ["/a/x".toList, "/a/y".toList] ++ B := by
  have hrep := h.rep
  have hsmem : s ∈ ringIds st := (find_some_mem hfy).1
  obtain ⟨st2, NL, e, hmk, hrep2, hh2, henL, henNL, hpres, hnew, hpe, hve, hpost⟩ :=
    entry_make_spec hrep hsmem "/a/x".toList
  have hlp : lastSep "/a/x".toList = some 2 := by decide
  have hls : lastSep "/a/y".toList = some 2 := by decide
  have hcore := aug_insert_eq_core st "/a/x".toList "/a/y".toList
    (by decide) hlp hls
  rw [if_neg (by decide), if_neg (by decide)] at hcore
  rw [hfy] at hcore
  have hcore2 : aug_insert st "/a/x".toList "/a/y".toList =
      (match aug_entry_find st "/a/x".toList with
       | none =>
         match aug_entry_make st "/a/x".toList s with
         | none => (st, -1)
         | some (st', _) => (st', 0)
       | some pI => (relinkEntry st pI s, 0)) := hcore
  rw [hfx] at hcore2
  have hcore3 : aug_insert st "/a/x".toList "/a/y".toList =
      (match aug_entry_make st "/a/x".toList s with
       | none => (st, -1)
       | some (st', _) => (st', 0)) := hcore2
  rw [hmk] at hcore3
  have heqI : aug_insert st "/a/x".toList "/a/y".toList = (st2, 0) := hcore3
  rw [heqI]
  refine ⟨rfl, ?_⟩
  obtain ⟨X, Y, hXY, hX⟩ := mem_split_first hrep.nodup hsmem
  obtain ⟨x0, X2, rfl⟩ : ∃ x0 X2, X = x0 :: X2 := by
    cases X with
    | nil =>
      exfalso
      have hh := hrep.hd
      rw [hXY] at hh
      simp at hh
      exact hsh hh
    | cons x0 X2 => exact ⟨x0, X2, rfl⟩
  have hIB : insBefore ((ringIds st) ++ NL) s e =
      (x0 :: X2) ++ e :: s :: (Y ++ NL) := by
    rw [hXY]
    have hL2 : ((x0 :: X2) ++ s :: Y) ++ NL = x0 :: (X2 ++ s :: (Y ++ NL)) := by
      simp
    rw [hL2]
    have hsx0 : ¬(s = x0) := by
      intro hc
      exact hX (by rw [hc]; simp)
    show (if s = x0 then x0 :: ((X2 ++ s :: (Y ++ NL)) ++ [e])
          else x0 :: insAux (X2 ++ s :: (Y ++ NL)) s e) =
      (x0 :: X2) ++ e :: s :: (Y ++ NL)
    rw [if_neg hsx0,
      insAux_eq X2 (Y ++ NL) s e (fun hc => hX (List.mem_cons_of_mem _ hc))]
    rfl
  have hIds2 : ringIds st2 = (x0 :: X2) ++ e :: s :: (Y ++ NL) := by
    rw [hrep2.ringIds_eq, hIB]
  have hstrip : ("/a/x".toList).take (pathlen ("/a/x".toList)) =
      "/a/x".toList := by decide
  obtain ⟨ne, hgete, hnep⟩ : ∃ ne, st2.get e = some ne ∧
      ne.path = "/a/x".toList := by
    cases hg : st2.get e with
    | none =>
      rw [hg] at hpe
      simp at hpe
    | some n =>
      rw [hg, hstrip] at hpe
      simp at hpe
      exact ⟨n, rfl, hpe⟩
  obtain ⟨ns, hgets, hnsp⟩ : ∃ ns, st2.get s = some ns ∧
      ns.path = "/a/y".toList := by
    have hp1 := (hpres s hsmem).1
    rw [hsp] at hp1
    cases hg : st2.get s with
    | none =>
      rw [hg] at hp1
      simp at hp1
    | some n =>
      rw [hg] at hp1
      simp at hp1
      exact ⟨n, rfl, hp1⟩
  show ∃ A B, ((ringNodes st2).filter
      (fun x => lsMatch "/a".toList x.2.path)).map (fun x => x.2.path) =
    A ++ ["/a/x".toList, "/a/y".toList] ++ B
  have hfe : (fun i => (st2.get i).map (fun n => (i, n))) e = some (e, ne) := by
    show (st2.get e).map (fun n => (e, n)) = some (e, ne)
    rw [hgete, Option.map_some']
  have hfs2 : (fun i => (st2.get i).map (fun n => (i, n))) s = some (s, ns) := by
    show (st2.get s).map (fun n => (s, n)) = some (s, ns)
    rw [hgets, Option.map_some']
  have hRN : ringNodes st2 =
      ((x0 :: X2).filterMap (fun i => (st2.get i).map (fun n => (i, n)))) ++
        ((e, ne) :: (s, ns) :: ((Y ++ NL).filterMap
          (fun i => (st2.get i).map (fun n => (i, n))))) := by
    unfold ringNodes
    rw [hIds2, List.filterMap_append]
    congr 1
    rw [List.filterMap_cons_some
        (f := fun i => (st2.get i).map (fun n => (i, n))) hfe,
      List.filterMap_cons_some
        (f := fun i => (st2.get i).map (fun n => (i, n))) hfs2]
  rw [hRN, List.filter_append, List.map_append]
  have c1 : lsMatch ['/', 'a'] ne.path = true := by
    rw [hnep]
    decide
  have c2 : lsMatch ['/', 'a'] ns.path = true := by
    rw [hnsp]
    decide
  refine ⟨(((x0 :: X2).filterMap
      (fun i => (st2.get i).map (fun n => (i, n)))).filter
        (fun x => lsMatch "/a".toList x.2.path)).map (fun x => x.2.path),
    (((Y ++ NL).filterMap
      (fun i => (st2.get i).map (fun n => (i, n)))).filter
        (fun x => lsMatch "/a".toList x.2.path)).map (fun x => x.2.path), ?_⟩
  rw [List.filter_cons_of_pos
      (p := fun x : Nat × Node => lsMatch "/a".toList x.2.path)
      (a := (e, ne)) c1,
    List.filter_cons_of_pos
      (p := fun x : Nat × Node => lsMatch "/a".toList x.2.path)
      (a := (s, ns)) c2,
    List.map_cons, List.map_cons]
  simp [hnep, hnsp]

/-- Witness for C7 at a concrete store where `/a/y` is entry 3 and `/a/x`
is absent. -/
theorem C7_witness :
    (aug_insert stInsEx "/a/x".toList "/a/y".toList).2 = 0 ∧
    ∃ A B, (aug_ls (aug_insert stInsEx "/a/x".toList "/a/y".toList).1
      "/a".toList).2 = A ++ ["/a/x".toList, "/a/y".toList] ++ B :=
  C7_insert_before_sibling stInsEx 3 (by decide) (by decide) (by decide)
    (by decide) (by decide)

end Augeas
